import Mathlib

/-!
# Command-tree view models (`DocumentationData`, `TemplateData`)

A shallow embedding of `documentation.go` and `template.go`.

Go pointers are indices into a store: `*Command` is an index into the list of
command nodes, `*DocumentationData` an index into the list of allocated
views.  A nil pointer is `none`; an index outside the store is a dangling
pointer and dereferencing it faults exactly like nil.  Every method of a view
takes the state and returns `Except Fault (result × state)`, so that what a
call writes can be read off the state it returns.  Walks up the parent links
take a fuel argument and fault with `outOfFuel` when it is used up.

`UsageString`, which only hands over to the node's usage renderer, is not
embedded.
-/

namespace Cobra

/-- A Go pointer: an index into the store of the pointed-to type. -/
abbrev Ptr := Nat

/-- Why a call did not return: a nil dereference (the Go panic), or the
recursion budget of an upward walk was used up before the walk ended. -/
inductive Fault where
  | nilDeref
  | outOfFuel
  deriving DecidableEq, Repr, Inhabited

deriving instance DecidableEq for Except

/-- Modelled from the spec: one flag of a `pflag.FlagSet` (external library),
with what the view model needs of it. -/
structure Flag where
  Name : String
  Hidden : Bool
  deriving DecidableEq, Repr, Inhabited

/-- Modelled from the spec: `pflag.FlagSet` (external library), a collection of
option definitions exposing "has at least one visible entry". -/
structure FlagSet where
  flags : List Flag
  deriving DecidableEq, Repr, Inhabited

/-- Modelled from the spec: `FlagSet.HasAvailableFlags`, true iff the set has at
least one non-hidden flag. -/
def FlagSet.HasAvailableFlags (f : FlagSet) : Bool :=
  f.flags.any (fun x => !x.Hidden)

/-- Modelled from the spec: the `Command` node type (declared outside the two
view files).  `Run` and `RunE` are the two run actions (`none` is a nil func
value); `Name`, `useLine` and the three flag sets are what the node's
`Name()`, `useLine()`, `LocalFlags()`, `InheritedFlags()` and
`NonInheritedFlags()` supply; `parent` is nil at the root; `commands` is the
ordered child list. -/
structure Command where
  Name : String
  Aliases : List String
  Short : String
  Long : String
  Example : String
  Version : String
  useLine : String
  Hidden : Bool
  Deprecated : Bool
  DisableAutoGenTag : Bool
  Run : Option Nat
  RunE : Option Nat
  lflags : FlagSet
  iflags : FlagSet
  nflags : FlagSet
  parent : Option Ptr
  commands : List Ptr
  deriving DecidableEq, Repr, Inhabited

/-- The view of `documentation.go`. `commands` is the lazily filled cache of
child-view pointers, `command` the back-reference to the node. -/
structure DocumentationData where
  Runnable : Bool
  HasHelpSubCommands : Bool
  HasSubCommands : Bool
  HasAvailableSubCommands : Bool
  HasAvailableLocalFlags : Bool
  HasAvailableInheritedFlags : Bool
  HasExample : Bool
  IsAvailableCommand : Bool
  IsAdditionalHelpTopicCommand : Bool
  DisableAutoGenTag : Bool
  UseLine : String
  CommandPath : String
  Name : String
  Short : String
  Long : String
  Example : String
  Version : String
  LocalFlags : FlagSet
  InheritedFlags : FlagSet
  NonInheritedFlags : FlagSet
  Aliases : List String
  commands : List Ptr
  command : Ptr
  deriving DecidableEq, Repr, Inhabited

/-- The view of `template.go`: the same fields under the other name. -/
structure TemplateData where
  Runnable : Bool
  HasHelpSubCommands : Bool
  HasSubCommands : Bool
  HasAvailableSubCommands : Bool
  HasAvailableLocalFlags : Bool
  HasAvailableInheritedFlags : Bool
  HasExample : Bool
  IsAvailableCommand : Bool
  IsAdditionalHelpTopicCommand : Bool
  DisableAutoGenTag : Bool
  UseLine : String
  CommandPath : String
  Name : String
  Short : String
  Long : String
  Example : String
  Version : String
  LocalFlags : FlagSet
  InheritedFlags : FlagSet
  NonInheritedFlags : FlagSet
  Aliases : List String
  commands : List Ptr
  command : Ptr
  deriving DecidableEq, Repr, Inhabited

/-- The whole mutable state: the command tree (owned by the tree collaborator)
and the views allocated so far, of either kind. -/
structure World where
  cmds : List Command
  docs : List DocumentationData
  tmpls : List TemplateData
  deriving DecidableEq, Repr, Inhabited

/-- Dereference a `*Command`. -/
def deref (t : List Command) (c : Ptr) : Except Fault Command :=
  match t[c]? with
  | some n => .ok n
  | none => .error .nilDeref

/-- Modelled from the spec: the children of a node, read through their
pointers in order (a `for _, x := range c.commands` loop reading `x`). -/
def derefAll (t : List Command) : List Ptr → Except Fault (List Command)
  | [] => .ok []
  | p :: ps =>
    match deref t p with
    | .error e => .error e
    | .ok n =>
      match derefAll t ps with
      | .error e => .error e
      | .ok ns => .ok (n :: ns)

/-- The expression `c.Run != nil || c.RunE != nil` of both constructors. -/
def Command.runnable (n : Command) : Bool :=
  n.Run.isSome || n.RunE.isSome

/-- Modelled from the spec: `Command.IsAdditionalHelpTopicCommand`, "not
runnable, has no children, and not explicitly marked hidden/deprecated". -/
def Command.IsAdditionalHelpTopicCommand (n : Command) : Bool :=
  !n.runnable && n.commands.isEmpty && !(n.Hidden || n.Deprecated)

/-- Modelled from the spec: `Command.hasHelpSubCommands`, "true iff any child
of c is itself a pure help topic". -/
def Command.hasHelpSubCommands (t : List Command) (n : Command) : Except Fault Bool :=
  match derefAll t n.commands with
  | .error e => .error e
  | .ok subs => .ok (subs.any Command.IsAdditionalHelpTopicCommand)

/-- Modelled from the spec: `Command.hasAvailableSubCommands`, "true iff at
least one child is not hidden and not itself a help topic". -/
def Command.hasAvailableSubCommands (t : List Command) (n : Command) : Except Fault Bool :=
  match derefAll t n.commands with
  | .error e => .error e
  | .ok subs => .ok (subs.any (fun s => !s.Hidden && !s.IsAdditionalHelpTopicCommand))

/-- Modelled from the spec: `Command.isAvailableCommand`, "not hidden, not
deprecated, and (runnable or has at least one available subcommand)". -/
def Command.isAvailableCommand (t : List Command) (n : Command) : Except Fault Bool :=
  match Command.hasAvailableSubCommands t n with
  | .error e => .error e
  | .ok sub => .ok (!n.Hidden && !n.Deprecated && (n.runnable || sub))

/-- Modelled from the spec: `Command.CommandPath`, the "space-joined chain of
names from the root to c", computed by walking the parent links; the walk
takes one unit of fuel per node. -/
def Command.CommandPath (t : List Command) : Nat → Ptr → Except Fault String
  | 0, _ => .error .outOfFuel
  | fuel + 1, c =>
    match deref t c with
    | .error e => .error e
    | .ok n =>
      match n.parent with
      | none => .ok n.Name
      | some p =>
        match Command.CommandPath t fuel p with
        | .error e => .error e
        | .ok s => .ok (s ++ " " ++ n.Name)

/-- Modelled from the spec: `Command.Commands`, the node's current children in
their existing order. -/
def Command.Commands (t : List Command) (c : Ptr) : Except Fault (List Ptr) :=
  match deref t c with
  | .error e => .error e
  | .ok n => .ok n.commands

/-- Modelled from the spec: `Command.hasParent`, "true iff c.parent is
non-nil". -/
def Command.hasParent (t : List Command) (c : Ptr) : Except Fault Bool :=
  match deref t c with
  | .error e => .error e
  | .ok n => .ok n.parent.isSome

/-- Modelled from the spec: `Command.visitParents`, which "walks from c.parent
up to the root (exclusive of c itself), invoking visit once per ancestor in
child-to-root order" and stops at the node whose parent is nil.  The visitor
acts on a state of its own; one unit of fuel per node walked. -/
def Command.visitParents {σ : Type} (t : List Command) (fn : Ptr → σ → σ) :
    Nat → Ptr → σ → Except Fault σ
  | 0, _, _ => .error .outOfFuel
  | fuel + 1, c, s =>
    match deref t c with
    | .error e => .error e
    | .ok n =>
      match n.parent with
      | none => .ok s
      | some p => Command.visitParents t fn fuel p (fn p s)

/-- Modelled from the spec: the maximum of a slice of lengths, as the loop
`if len > max then max = len` computes it. -/
def maxLen (lens : List Nat) : Nat :=
  lens.foldl (fun m l => if m < l then l else m) 0

/-- Modelled from the spec: `Command.getMaxUsageLength`, the maximum usage-line
length (Go `len`, a byte count) across the node's own direct children. -/
def Command.getMaxUsageLength (t : List Command) (p : Ptr) : Except Fault Nat :=
  match deref t p with
  | .error e => .error e
  | .ok n =>
    match derefAll t n.commands with
    | .error e => .error e
    | .ok subs => .ok (maxLen (subs.map (fun x => x.useLine.utf8ByteSize)))

/-- Modelled from the spec: `Command.getMaxNameLength`, the maximum name length
across the node's own direct children. -/
def Command.getMaxNameLength (t : List Command) (p : Ptr) : Except Fault Nat :=
  match deref t p with
  | .error e => .error e
  | .ok n =>
    match derefAll t n.commands with
    | .error e => .error e
    | .ok subs => .ok (maxLen (subs.map (fun x => x.Name.utf8ByteSize)))

/-- Modelled from the spec: the command paths of a slice of nodes, in order. -/
def commandPaths (t : List Command) (fuel : Nat) : List Ptr → Except Fault (List String)
  | [] => .ok []
  | p :: ps =>
    match Command.CommandPath t fuel p with
    | .error e => .error e
    | .ok s =>
      match commandPaths t fuel ps with
      | .error e => .error e
      | .ok ss => .ok (s :: ss)

/-- Modelled from the spec: `Command.getMaxCommandPathLength`, the maximum
command-path length across the node's own direct children. -/
def Command.getMaxCommandPathLength (t : List Command) (fuel : Nat) (p : Ptr) :
    Except Fault Nat :=
  match deref t p with
  | .error e => .error e
  | .ok n =>
    match commandPaths t fuel n.commands with
    | .error e => .error e
    | .ok ss => .ok (maxLen (ss.map String.utf8ByteSize))

/-- Go `strings.Join`. -/
def stringsJoin : List String → String → String
  | [], _ => ""
  | [a], _ => a
  | a :: rest, sep => rest.foldl (fun b s => b ++ sep ++ s) a

/-- The package variable `minUsagePadding` (initial value; nothing in the two
files assigns it). -/
def minUsagePadding : Nat := 25

/-- The package variable `minCommandPathPadding`. -/
def minCommandPathPadding : Nat := 11

/-- The package variable `minNamePadding`. -/
def minNamePadding : Nat := 11

/-! ## `documentation.go` -/

/-- Dereference a `*DocumentationData`. -/
def derefDoc (w : World) (d : Ptr) : Except Fault DocumentationData :=
  match w.docs[d]? with
  | some v => .ok v
  | none => .error .nilDeref

/-- The struct literal built by `newDocumentationData(c)`: every field is read
off the node `c` in the tree `t`; the cache `commands` is left nil. -/
def documentationDataOf (t : List Command) (fuel : Nat) (c : Ptr) :
    Except Fault DocumentationData := do
  let n ← deref t c
  let hasHelpSub ← n.hasHelpSubCommands t
  let hasAvailableSub ← n.hasAvailableSubCommands t
  let isAvailable ← n.isAvailableCommand t
  let path ← Command.CommandPath t fuel c
  pure {
    Runnable := n.Run.isSome || n.RunE.isSome
    HasHelpSubCommands := hasHelpSub
    HasSubCommands := decide (n.commands.length > 0)
    HasAvailableSubCommands := hasAvailableSub
    HasAvailableLocalFlags := n.lflags.HasAvailableFlags
    HasAvailableInheritedFlags := n.iflags.HasAvailableFlags
    HasExample := decide (n.Example.utf8ByteSize > 0)
    IsAvailableCommand := isAvailable
    IsAdditionalHelpTopicCommand := n.IsAdditionalHelpTopicCommand
    DisableAutoGenTag := n.DisableAutoGenTag
    UseLine := n.useLine
    CommandPath := path
    Name := n.Name
    Short := n.Short
    Long := n.Long
    Example := n.Example
    Version := n.Version
    LocalFlags := n.lflags
    InheritedFlags := n.iflags
    NonInheritedFlags := n.nflags
    Aliases := n.Aliases
    commands := []
    command := c }

/-- The constructor `newDocumentationData`: builds the literal and allocates
it; the result is the pointer to the new view. -/
def newDocumentationData (fuel : Nat) (w : World) (c : Ptr) : Except Fault (Ptr × World) := do
  let v ← documentationDataOf w.cmds fuel c
  pure (w.docs.length, { w with docs := w.docs ++ [v] })

/-- The loop `for k, v := range commands { d.commands[k] = newDocumentationData(v) }`:
one fresh view per child, in order. -/
def newDocumentationDataEach (fuel : Nat) : World → List Ptr → Except Fault (List Ptr × World)
  | w, [] => .ok ([], w)
  | w, c :: cs =>
    match newDocumentationData fuel w c with
    | .error e => .error e
    | .ok (p, w1) =>
      match newDocumentationDataEach fuel w1 cs with
      | .error e => .error e
      | .ok (ps, w2) => .ok (p :: ps, w2)

/-- The assignment `d.commands = ...` through the pointer `d`. -/
def setDocCommands (w : World) (d : Ptr) (ps : List Ptr) : World :=
  match w.docs[d]? with
  | some v => { w with docs := w.docs.set d { v with commands := ps } }
  | none => w

/-- Modelled from the spec: `Command.DocumentationData`, which wraps the
receiver in a fresh view; a nil receiver faults. -/
def Command.toDocumentationData (fuel : Nat) (w : World) (c : Option Ptr) :
    Except Fault (Ptr × World) :=
  match c with
  | none => .error .nilDeref
  | some p => newDocumentationData fuel w p

/-- The method `VisitParents`. -/
def DocumentationData.VisitParents {σ : Type} (fuel : Nat) (w : World) (d : Ptr)
    (fn : Ptr → σ → σ) (s : σ) : Except Fault (σ × World) := do
  let v ← derefDoc w d
  let s1 ← Command.visitParents w.cmds fn fuel v.command s
  pure (s1, w)

/-- The method `Parent`: `d.command.parent.DocumentationData()`. -/
def DocumentationData.Parent (fuel : Nat) (w : World) (d : Ptr) : Except Fault (Ptr × World) := do
  let v ← derefDoc w d
  let n ← deref w.cmds v.command
  Command.toDocumentationData fuel w n.parent

/-- The method `Command`: the originating node. -/
def DocumentationData.Command (w : World) (d : Ptr) : Except Fault (Ptr × World) := do
  let v ← derefDoc w d
  pure (v.command, w)

/-- The method `Commands`: the cached child views when the cache is non-empty,
otherwise one fresh view per current child of the node, stored in the cache. -/
def DocumentationData.Commands (fuel : Nat) (w : World) (d : Ptr) :
    Except Fault (List Ptr × World) := do
  let v ← derefDoc w d
  if v.commands.length != 0 then
    pure (v.commands, w)
  else
    let commands ← Command.Commands w.cmds v.command
    let (ps, w1) ← newDocumentationDataEach fuel w commands
    pure (ps, setDocCommands w1 d ps)

/-- The method `HasParent`. -/
def DocumentationData.HasParent (w : World) (d : Ptr) : Except Fault (Bool × World) := do
  let v ← derefDoc w d
  let b ← Command.hasParent w.cmds v.command
  pure (b, w)

/-- The method `NameAndAliases`:
`strings.Join(append([]string{d.command.Name()}, d.command.Aliases...), ", ")`. -/
def DocumentationData.NameAndAliases (w : World) (d : Ptr) : Except Fault (String × World) := do
  let v ← derefDoc w d
  let n ← deref w.cmds v.command
  pure (stringsJoin ([n.Name] ++ n.Aliases) ", ", w)

/-- The method `UsagePadding`. -/
def DocumentationData.UsagePadding (w : World) (d : Ptr) : Except Fault (Nat × World) := do
  let v ← derefDoc w d
  let n ← deref w.cmds v.command
  match n.parent with
  | none => pure (minUsagePadding, w)
  | some p =>
    let len ← Command.getMaxUsageLength w.cmds p
    if len < minUsagePadding then
      pure (minUsagePadding, w)
    else
      pure (len, w)

/-- The method `CommandPathPadding`. -/
def DocumentationData.CommandPathPadding (fuel : Nat) (w : World) (d : Ptr) :
    Except Fault (Nat × World) := do
  let v ← derefDoc w d
  let n ← deref w.cmds v.command
  match n.parent with
  | none => pure (minCommandPathPadding, w)
  | some p =>
    let len ← Command.getMaxCommandPathLength w.cmds fuel p
    if len < minCommandPathPadding then
      pure (minCommandPathPadding, w)
    else
      pure (len, w)

/-- The method `NamePadding`. -/
def DocumentationData.NamePadding (w : World) (d : Ptr) : Except Fault (Nat × World) := do
  let v ← derefDoc w d
  let n ← deref w.cmds v.command
  match n.parent with
  | none => pure (minNamePadding, w)
  | some p =>
    let len ← Command.getMaxNameLength w.cmds p
    if len < minNamePadding then
      pure (minNamePadding, w)
    else
      pure (len, w)

/-! ## `template.go` -/

/-- Dereference a `*TemplateData`. -/
def derefTmpl (w : World) (d : Ptr) : Except Fault TemplateData :=
  match w.tmpls[d]? with
  | some v => .ok v
  | none => .error .nilDeref

/-- The struct literal built by `newTemplateData(c)`: every field is read
off the node `c` in the tree `t`; the cache `commands` is left nil. -/
def templateDataOf (t : List Command) (fuel : Nat) (c : Ptr) :
    Except Fault TemplateData := do
  let n ← deref t c
  let hasHelpSub ← n.hasHelpSubCommands t
  let hasAvailableSub ← n.hasAvailableSubCommands t
  let isAvailable ← n.isAvailableCommand t
  let path ← Command.CommandPath t fuel c
  pure {
    Runnable := n.Run.isSome || n.RunE.isSome
    HasHelpSubCommands := hasHelpSub
    HasSubCommands := decide (n.commands.length > 0)
    HasAvailableSubCommands := hasAvailableSub
    HasAvailableLocalFlags := n.lflags.HasAvailableFlags
    HasAvailableInheritedFlags := n.iflags.HasAvailableFlags
    HasExample := decide (n.Example.utf8ByteSize > 0)
    IsAvailableCommand := isAvailable
    IsAdditionalHelpTopicCommand := n.IsAdditionalHelpTopicCommand
    DisableAutoGenTag := n.DisableAutoGenTag
    UseLine := n.useLine
    CommandPath := path
    Name := n.Name
    Short := n.Short
    Long := n.Long
    Example := n.Example
    Version := n.Version
    LocalFlags := n.lflags
    InheritedFlags := n.iflags
    NonInheritedFlags := n.nflags
    Aliases := n.Aliases
    commands := []
    command := c }

/-- The constructor `newTemplateData`: builds the literal and allocates
it; the result is the pointer to the new view. -/
def newTemplateData (fuel : Nat) (w : World) (c : Ptr) : Except Fault (Ptr × World) := do
  let v ← templateDataOf w.cmds fuel c
  pure (w.tmpls.length, { w with tmpls := w.tmpls ++ [v] })

/-- The loop `for k, v := range commands { d.commands[k] = newTemplateData(v) }`:
one fresh view per child, in order. -/
def newTemplateDataEach (fuel : Nat) : World → List Ptr → Except Fault (List Ptr × World)
  | w, [] => .ok ([], w)
  | w, c :: cs =>
    match newTemplateData fuel w c with
    | .error e => .error e
    | .ok (p, w1) =>
      match newTemplateDataEach fuel w1 cs with
      | .error e => .error e
      | .ok (ps, w2) => .ok (p :: ps, w2)

/-- The assignment `d.commands = ...` through the pointer `d`. -/
def setTmplCommands (w : World) (d : Ptr) (ps : List Ptr) : World :=
  match w.tmpls[d]? with
  | some v => { w with tmpls := w.tmpls.set d { v with commands := ps } }
  | none => w

/-- Modelled from the spec: `Command.TemplateData`, which wraps the
receiver in a fresh view; a nil receiver faults. -/
def Command.toTemplateData (fuel : Nat) (w : World) (c : Option Ptr) :
    Except Fault (Ptr × World) :=
  match c with
  | none => .error .nilDeref
  | some p => newTemplateData fuel w p

/-- The method `VisitParents`. -/
def TemplateData.VisitParents {σ : Type} (fuel : Nat) (w : World) (d : Ptr)
    (fn : Ptr → σ → σ) (s : σ) : Except Fault (σ × World) := do
  let v ← derefTmpl w d
  let s1 ← Command.visitParents w.cmds fn fuel v.command s
  pure (s1, w)

/-- The method `Parent`: `d.command.parent.TemplateData()`. -/
def TemplateData.Parent (fuel : Nat) (w : World) (d : Ptr) : Except Fault (Ptr × World) := do
  let v ← derefTmpl w d
  let n ← deref w.cmds v.command
  Command.toTemplateData fuel w n.parent

/-- The method `Command`: the originating node. -/
def TemplateData.Command (w : World) (d : Ptr) : Except Fault (Ptr × World) := do
  let v ← derefTmpl w d
  pure (v.command, w)

/-- The method `Commands`: the cached child views when the cache is non-empty,
otherwise one fresh view per current child of the node, stored in the cache. -/
def TemplateData.Commands (fuel : Nat) (w : World) (d : Ptr) :
    Except Fault (List Ptr × World) := do
  let v ← derefTmpl w d
  if v.commands.length != 0 then
    pure (v.commands, w)
  else
    let commands ← Command.Commands w.cmds v.command
    let (ps, w1) ← newTemplateDataEach fuel w commands
    pure (ps, setTmplCommands w1 d ps)

/-- The method `HasParent`. -/
def TemplateData.HasParent (w : World) (d : Ptr) : Except Fault (Bool × World) := do
  let v ← derefTmpl w d
  let b ← Command.hasParent w.cmds v.command
  pure (b, w)

/-- The method `NameAndAliases`:
`strings.Join(append([]string{d.command.Name()}, d.command.Aliases...), ", ")`. -/
def TemplateData.NameAndAliases (w : World) (d : Ptr) : Except Fault (String × World) := do
  let v ← derefTmpl w d
  let n ← deref w.cmds v.command
  pure (stringsJoin ([n.Name] ++ n.Aliases) ", ", w)

/-- The method `UsagePadding`. -/
def TemplateData.UsagePadding (w : World) (d : Ptr) : Except Fault (Nat × World) := do
  let v ← derefTmpl w d
  let n ← deref w.cmds v.command
  match n.parent with
  | none => pure (minUsagePadding, w)
  | some p =>
    let len ← Command.getMaxUsageLength w.cmds p
    if len < minUsagePadding then
      pure (minUsagePadding, w)
    else
      pure (len, w)

/-- The method `CommandPathPadding`. -/
def TemplateData.CommandPathPadding (fuel : Nat) (w : World) (d : Ptr) :
    Except Fault (Nat × World) := do
  let v ← derefTmpl w d
  let n ← deref w.cmds v.command
  match n.parent with
  | none => pure (minCommandPathPadding, w)
  | some p =>
    let len ← Command.getMaxCommandPathLength w.cmds fuel p
    if len < minCommandPathPadding then
      pure (minCommandPathPadding, w)
    else
      pure (len, w)

/-- The method `NamePadding`. -/
def TemplateData.NamePadding (w : World) (d : Ptr) : Except Fault (Nat × World) := do
  let v ← derefTmpl w d
  let n ← deref w.cmds v.command
  match n.parent with
  | none => pure (minNamePadding, w)
  | some p =>
    let len ← Command.getMaxNameLength w.cmds p
    if len < minNamePadding then
      pure (minNamePadding, w)
    else
      pure (len, w)

/-! ## Specification-side vocabulary -/

/-- The list `chain` is the sequence of proper ancestors of `c`, nearest
first: `c.parent` is its head, each entry's parent is the next entry, and the
last entry (or `c` itself when `chain` is empty) has a nil parent.  Its length
is the depth of `c`; its existence says the parent links above `c` are
acyclic. -/
def parentChain (t : List Command) : Ptr → List Ptr → Bool
  | c, [] =>
    match t[c]? with
    | some n => n.parent.isNone
    | none => false
  | c, p :: ps =>
    match t[c]? with
    | some n => n.parent == some p && parentChain t p ps
    | none => false

/-- The node `c` is allocated, so are all its children, and `chain` is its
ancestor chain. -/
def viewable (t : List Command) (c : Ptr) (chain : List Ptr) : Bool :=
  match t[c]? with
  | some n => n.commands.all (fun k => decide (k < t.length)) && parentChain t c chain
  | none => false

/-- The largest element of a list of lengths (0 for the empty list). -/
def largest (lens : List Nat) : Nat :=
  lens.foldr max 0

/-- The visitor that records the nodes it is called on, in call order. -/
def recordVisit (p : Ptr) (seen : List Ptr) : List Ptr :=
  seen ++ [p]

/-- The text `, a1, ..., ak`: each alias preceded by the separator `", "`
(empty when there is no alias). -/
def aliasSuffix : List String → String
  | [] => ""
  | a :: rest => ", " ++ a ++ aliasSuffix rest

/-- The text `n, a1, ..., ak`: the name followed by each alias in order. -/
def nameThenAliases (n : String) (aliases : List String) : String :=
  n ++ aliasSuffix aliases

/-! ## A concrete tree

`admin` is the root; `list`, `remove` and `show` are its children, with
usage lines of 10, 40 and 15 bytes; `configuration` is the only child of
`show`, three levels deep. -/

/-- The value of a call that returned (the default value when it faulted). -/
def valueOf {α : Type} [Inhabited α] (r : Except Fault α) : α :=
  match r with
  | .ok a => a
  | .error _ => default

/-- A node with the given name, usage line, aliases, parent and children, and
nothing else set. -/
def exampleCommand (name use : String) (aliases : List String) (parent : Option Ptr)
    (commands : List Ptr) : Command :=
  { Name := name, Aliases := aliases, Short := "", Long := "", Example := "", Version := "",
    useLine := use, Hidden := false, Deprecated := false, DisableAutoGenTag := false,
    Run := none, RunE := none, lflags := ⟨[]⟩, iflags := ⟨[]⟩, nflags := ⟨[]⟩,
    parent := parent, commands := commands }

def adminCmd : Command := exampleCommand "admin" "admin [command]" [] none [1, 2, 3]

def listCmd : Command := exampleCommand "list" "admin list" ["ls", "ll"] (some 0) []

def removeCmd : Command :=
  exampleCommand "remove" "admin remove [flags] <name> [<names>...]" ["rm"] (some 0) []

def showCmd : Command := exampleCommand "show" "admin show <id>" [] (some 0) [4]

def configurationCmd : Command :=
  exampleCommand "configuration" "admin show configuration" [] (some 3) []

/-- The tree: the pointer of each node is its position. -/
def exampleTree : List Command :=
  [adminCmd, listCmd, removeCmd, showCmd, configurationCmd]

/-- The tree after `configuration` was given a child `edit`. -/
def grownTree : List Command :=
  [adminCmd, listCmd, removeCmd, showCmd,
    { configurationCmd with commands := [5] },
    exampleCommand "edit" "admin show configuration edit" [] (some 4) []]

/-- The state in which every node of the tree has one view of each kind,
allocated in node order: view `i` is the view of node `i`. -/
def exampleWorld : World :=
  (valueOf (newTemplateDataEach 3
    (valueOf (newDocumentationDataEach 3 ⟨exampleTree, [], []⟩ [0, 1, 2, 3, 4])).2
    [0, 1, 2, 3, 4])).2

/-- The views at `d` in the example state. -/
def exampleDoc (d : Ptr) : DocumentationData := valueOf (derefDoc exampleWorld d)

def exampleTmpl (d : Ptr) : TemplateData := valueOf (derefTmpl exampleWorld d)

/-- The result of the first `Commands()` call on the root view of the example
state: the pointers of the child views and the state after the call. -/
def rootCommandsDoc : List Ptr × World := valueOf (DocumentationData.Commands 3 exampleWorld 0)

def rootCommandsTmpl : List Ptr × World := valueOf (TemplateData.Commands 3 exampleWorld 0)

/-! ## Vocabulary for comparing calls and views -/

/-- The `DocumentationData` holding, field by field, the values of a
`TemplateData`. -/
def TemplateData.toDocumentationData (v : TemplateData) : DocumentationData :=
  { Runnable := v.Runnable
    HasHelpSubCommands := v.HasHelpSubCommands
    HasSubCommands := v.HasSubCommands
    HasAvailableSubCommands := v.HasAvailableSubCommands
    HasAvailableLocalFlags := v.HasAvailableLocalFlags
    HasAvailableInheritedFlags := v.HasAvailableInheritedFlags
    HasExample := v.HasExample
    IsAvailableCommand := v.IsAvailableCommand
    IsAdditionalHelpTopicCommand := v.IsAdditionalHelpTopicCommand
    DisableAutoGenTag := v.DisableAutoGenTag
    UseLine := v.UseLine
    CommandPath := v.CommandPath
    Name := v.Name
    Short := v.Short
    Long := v.Long
    Example := v.Example
    Version := v.Version
    LocalFlags := v.LocalFlags
    InheritedFlags := v.InheritedFlags
    NonInheritedFlags := v.NonInheritedFlags
    Aliases := v.Aliases
    commands := v.commands
    command := v.command }

/-- The state `wd`, seen through its documentation views, and the state `wt`,
seen through its template views, agree: same tree, and at every view pointer
the same field values. -/
abbrev sameViews (wd wt : World) : Prop :=
  wd.cmds = wt.cmds ∧ wt.tmpls.map TemplateData.toDocumentationData = wd.docs

/-- What a call of `documentation.go` shows to its caller: the fault, or the
result together with the tree and the documentation views it leaves. -/
def docOutcome {α : Type} (r : Except Fault (α × World)) :
    Except Fault (α × List Command × List DocumentationData) :=
  match r with
  | .ok (a, w) => .ok (a, w.cmds, w.docs)
  | .error e => .error e

/-- What a call of `template.go` shows to its caller: the fault, or the result
together with the tree and the template views it leaves, read field by
field. -/
def tmplOutcome {α : Type} (r : Except Fault (α × World)) :
    Except Fault (α × List Command × List DocumentationData) :=
  match r with
  | .ok (a, w) => .ok (a, w.cmds, w.tmpls.map TemplateData.toDocumentationData)
  | .error e => .error e

/-- The tree in which node `c` has its alias list replaced by `aliases` and
everything else is as in `t`. -/
def withAliases (t : List Command) (c : Ptr) (aliases : List String) : List Command :=
  match t[c]? with
  | some n => t.set c { n with Aliases := aliases }
  | none => t

/-- A one-node tree: `serve` has an error-returning run action and an
example. -/
def serveCmd : Command :=
  { exampleCommand "serve" "serve [flags]" [] none [] with
    RunE := some 1, Example := "serve --port 8080" }

def serveTree : List Command := [serveCmd]

/-- The later life of the view `d`: before each call of `Commands()` the tree is
replaced by the next tree of `ms` (children added, removed or reordered at
will), and the call gets the fuel paired with that tree; the results are
collected in call order. -/
def doc_laterCommands (d : Ptr) :
    World → List (List Command × Nat) → Except Fault (List (List Ptr) × World)
  | w, [] => .ok ([], w)
  | w, (t, fuel) :: ms =>
    match DocumentationData.Commands fuel { w with cmds := t } d with
    | .error e => .error e
    | .ok (ps, w1) =>
      match doc_laterCommands d w1 ms with
      | .error e => .error e
      | .ok (pss, w2) => .ok (ps :: pss, w2)

/-- The later life of the view `d`: before each call of `Commands()` the tree is
replaced by the next tree of `ms` (children added, removed or reordered at
will), and the call gets the fuel paired with that tree; the results are
collected in call order. -/
def tmpl_laterCommands (d : Ptr) :
    World → List (List Command × Nat) → Except Fault (List (List Ptr) × World)
  | w, [] => .ok ([], w)
  | w, (t, fuel) :: ms =>
    match TemplateData.Commands fuel { w with cmds := t } d with
    | .error e => .error e
    | .ok (ps, w1) =>
      match tmpl_laterCommands d w1 ms with
      | .error e => .error e
      | .ok (pss, w2) => .ok (ps :: pss, w2)

/-! ## Basic facts -/

theorem lt_length_of_getElem? {α : Type} {l : List α} {i : Nat} {a : α}
    (h : l[i]? = some a) : i < l.length := by
  by_contra hge
  rw [List.getElem?_eq_none (Nat.le_of_not_lt hge)] at h
  cases h

theorem snoc_snoc_getElem? {α : Type} (l : List α) (a b : α) :
    (l ++ [a] ++ [b])[l.length]? = some a := by
  have h : l.length < (l ++ [a]).length := by simp
  rw [List.getElem?_append_left h]
  exact List.getElem?_concat_length _ _

theorem deref_ok_iff {t : List Command} {c : Ptr} {n : Command} :
    deref t c = .ok n ↔ t[c]? = some n := by
  unfold deref
  cases h : t[c]? <;> simp

theorem derefAll_ok_of_lt {t : List Command} :
    ∀ ps : List Ptr, (∀ k ∈ ps, k < t.length) → ∃ ns, derefAll t ps = .ok ns
  | [], _ => ⟨[], rfl⟩
  | p :: ps, h => by
    have hp : p < t.length := h p (by simp)
    obtain ⟨ns, hns⟩ := derefAll_ok_of_lt ps (fun k hk => h k (by simp [hk]))
    refine ⟨t[p] :: ns, ?_⟩
    simp [derefAll, deref, hns, List.getElem?_eq_getElem hp]

theorem CommandPath_ok_of_chain {t : List Command} :
    ∀ (chain : List Ptr) (c : Ptr) (fuel : Nat), parentChain t c chain = true →
      chain.length < fuel → ∃ s, Command.CommandPath t fuel c = .ok s
  | [], c, fuel, h, hf => by
    obtain ⟨k, rfl⟩ : ∃ k, fuel = k + 1 := ⟨fuel - 1, by omega⟩
    simp only [parentChain] at h
    cases hn : t[c]? with
    | none => simp [hn] at h
    | some n =>
      simp [hn] at h
      exact ⟨n.Name, by simp [Command.CommandPath, deref, hn, h]⟩
  | p :: ps, c, fuel, h, hf => by
    obtain ⟨k, rfl⟩ : ∃ k, fuel = k + 1 := ⟨fuel - 1, by omega⟩
    simp only [parentChain] at h
    cases hn : t[c]? with
    | none => simp [hn] at h
    | some n =>
      simp [hn] at h
      obtain ⟨s, hs⟩ := CommandPath_ok_of_chain ps p k h.2 (by simpa using hf)
      exact ⟨s ++ " " ++ n.Name, by simp [Command.CommandPath, deref, hn, h.1, hs]⟩

theorem Command.Commands_ok_iff {t : List Command} {c : Ptr} {cs : List Ptr} :
    Command.Commands t c = .ok cs ↔ ∃ n, deref t c = .ok n ∧ cs = n.commands := by
  unfold Command.Commands
  cases h : deref t c with
  | error e => simp
  | ok n => simp [eq_comm]

theorem forall₂_of_forall_ok {α β : Type} {f : α → Except Fault β} :
    ∀ cs : List α, (∀ k ∈ cs, ∃ v, f k = .ok v) →
      ∃ vs, List.Forall₂ (fun c v => f c = .ok v) cs vs
  | [], _ => ⟨[], List.Forall₂.nil⟩
  | c :: cs, h => by
    obtain ⟨v, hv⟩ := h c (by simp)
    obtain ⟨vs, hvs⟩ := forall₂_of_forall_ok cs (fun k hk => h k (by simp [hk]))
    exact ⟨v :: vs, List.Forall₂.cons hv hvs⟩

/-! ## Widths, joins and ancestor chains -/

theorem maxLen_foldl (lens : List Nat) (acc : Nat) :
    lens.foldl (fun m l => if m < l then l else m) acc = max acc (largest lens) := by
  induction lens generalizing acc with
  | nil => simp [largest]
  | cons a l ih =>
    simp only [List.foldl_cons, ih, largest, List.foldr_cons]
    split <;> omega

theorem maxLen_eq_largest (lens : List Nat) : maxLen lens = largest lens := by
  simp [maxLen, maxLen_foldl]

theorem le_largest {lens : List Nat} {l : Nat} (h : l ∈ lens) : l ≤ largest lens := by
  induction lens with
  | nil => cases h
  | cons a t ih =>
    simp only [largest, List.foldr_cons]
    rcases List.mem_cons.1 h with rfl | h2
    · exact Nat.le_max_left _ _
    · exact Nat.le_trans (ih h2) (Nat.le_max_right _ _)

theorem largest_mem {lens : List Nat} (h : lens ≠ []) : largest lens ∈ lens := by
  induction lens with
  | nil => exact absurd rfl h
  | cons a t ih =>
    simp only [largest, List.foldr_cons]
    by_cases ht : t = []
    · subst ht
      simp
    · have := ih ht
      simp only [largest] at this
      rcases Nat.le_total a (List.foldr max 0 t) with hle | hle
      · rw [Nat.max_eq_right hle]
        exact List.mem_cons_of_mem _ this
      · rw [Nat.max_eq_left hle]
        exact List.mem_cons_self _ _

theorem stringsJoin_foldl (sep : String) (l : List String) (acc : String) :
    l.foldl (fun b s => b ++ sep ++ s) acc =
      acc ++ l.foldr (fun a rest => sep ++ a ++ rest) "" := by
  induction l generalizing acc with
  | nil => simp
  | cons a t ih =>
    rw [List.foldl_cons, List.foldr_cons, ih]
    simp only [String.append_assoc]

theorem aliasSuffix_eq_foldr (l : List String) :
    aliasSuffix l = l.foldr (fun a rest => ", " ++ a ++ rest) "" := by
  induction l with
  | nil => rfl
  | cons a t ih => simp [aliasSuffix, ih]

theorem stringsJoin_name_aliases (n : String) (aliases : List String) :
    stringsJoin ([n] ++ aliases) ", " = nameThenAliases n aliases := by
  cases aliases with
  | nil => simp [stringsJoin, nameThenAliases, aliasSuffix]
  | cons a t =>
    simp only [List.singleton_append, stringsJoin, nameThenAliases]
    rw [stringsJoin_foldl, aliasSuffix_eq_foldr]

theorem parentChain_nil {t : List Command} {c : Ptr} :
    parentChain t c [] = true ↔ ∃ n, deref t c = .ok n ∧ n.parent = none := by
  simp only [parentChain, deref_ok_iff]
  cases h : t[c]? with
  | none => simp
  | some n => simp

theorem parentChain_cons {t : List Command} {c p : Ptr} {ps : List Ptr} :
    parentChain t c (p :: ps) = true ↔
      ∃ n, deref t c = .ok n ∧ n.parent = some p ∧ parentChain t p ps = true := by
  simp only [parentChain, deref_ok_iff]
  cases h : t[c]? with
  | none => simp
  | some n => simp

theorem parentChain_unique {t : List Command} :
    ∀ (l1 l2 : List Ptr) (c : Ptr), parentChain t c l1 = true → parentChain t c l2 = true →
      l1 = l2
  | [], [], _, _, _ => rfl
  | [], q :: qs, c, h1, h2 => by
    obtain ⟨n, hn, hp⟩ := parentChain_nil.1 h1
    obtain ⟨m, hm, hq, _⟩ := parentChain_cons.1 h2
    rw [hn] at hm
    cases hm
    rw [hp] at hq
    cases hq
  | p :: ps, [], c, h1, h2 => by
    obtain ⟨n, hn, hp⟩ := parentChain_nil.1 h2
    obtain ⟨m, hm, hq, _⟩ := parentChain_cons.1 h1
    rw [hn] at hm
    cases hm
    rw [hp] at hq
    cases hq
  | p :: ps, q :: qs, c, h1, h2 => by
    obtain ⟨n, hn, hp, hps⟩ := parentChain_cons.1 h1
    obtain ⟨m, hm, hq, hqs⟩ := parentChain_cons.1 h2
    rw [hn] at hm
    cases hm
    rw [hp] at hq
    cases hq
    rw [parentChain_unique ps qs p hps hqs]

theorem parentChain_suffix {t : List Command} :
    ∀ (l1 : List Ptr) (c q : Ptr) (l2 : List Ptr),
      parentChain t c (l1 ++ q :: l2) = true → parentChain t q l2 = true
  | [], c, q, l2, h => by
    obtain ⟨_, _, _, h2⟩ := parentChain_cons.1 h
    exact h2
  | a :: l1, c, q, l2, h => by
    obtain ⟨_, _, _, h2⟩ := parentChain_cons.1 h
    exact parentChain_suffix l1 a q l2 h2

/-- A node is not its own ancestor. -/
theorem parentChain_not_mem {t : List Command} {c : Ptr} {chain : List Ptr}
    (h : parentChain t c chain = true) : c ∉ chain := by
  intro hmem
  obtain ⟨l1, l2, rfl⟩ := List.append_of_mem hmem
  have h2 := parentChain_suffix l1 c c l2 h
  have := congrArg List.length (parentChain_unique _ _ c h h2)
  simp at this
  omega

/-- No ancestor occurs twice. -/
theorem parentChain_nodup {t : List Command} :
    ∀ (chain : List Ptr) (c : Ptr), parentChain t c chain = true → chain.Nodup
  | [], _, _ => List.nodup_nil
  | p :: ps, c, h => by
    obtain ⟨_, _, _, h2⟩ := parentChain_cons.1 h
    exact List.nodup_cons.2 ⟨parentChain_not_mem h2, parentChain_nodup ps p h2⟩

theorem visitParents_chain {σ : Type} {t : List Command} (fn : Ptr → σ → σ) :
    ∀ (chain : List Ptr) (c : Ptr) (fuel : Nat) (s : σ), parentChain t c chain = true →
      chain.length < fuel →
      Command.visitParents t fn fuel c s = .ok (chain.foldl (fun a p => fn p a) s)
  | [], c, fuel, s, h, hf => by
    obtain ⟨k, rfl⟩ : ∃ k, fuel = k + 1 := ⟨fuel - 1, by omega⟩
    obtain ⟨n, hn, hp⟩ := parentChain_nil.1 h
    simp [Command.visitParents, hn, hp]
  | p :: ps, c, fuel, s, h, hf => by
    obtain ⟨k, rfl⟩ : ∃ k, fuel = k + 1 := ⟨fuel - 1, by omega⟩
    obtain ⟨n, hn, hp, hps⟩ := parentChain_cons.1 h
    simp only [Command.visitParents, hn, hp, List.foldl_cons]
    exact visitParents_chain fn ps p k (fn p s) hps (by simpa using hf)

theorem foldl_recordVisit (chain seen : List Ptr) :
    chain.foldl (fun a p => recordVisit p a) seen = seen ++ chain := by
  induction chain generalizing seen with
  | nil => simp
  | cons p ps ih =>
    rw [List.foldl_cons, ih]
    simp [recordVisit]

/-! ## Facts about `documentation.go` -/

theorem derefDoc_ok_iff {w : World} {d : Ptr} {v : DocumentationData} :
    derefDoc w d = .ok v ↔ w.docs[d]? = some v := by
  unfold derefDoc
  cases h : w.docs[d]? <;> simp

/-- What the constructor literal holds whenever it is built. -/
theorem documentationDataOf_fields {t : List Command} {fuel : Nat} {c : Ptr}
    {v : DocumentationData} {n : Command}
    (h : documentationDataOf t fuel c = .ok v) (hn : deref t c = .ok n) :
    v.Name = n.Name ∧ v.Short = n.Short ∧ v.Long = n.Long ∧ v.Version = n.Version ∧
      v.Aliases = n.Aliases ∧ v.Example = n.Example ∧ v.UseLine = n.useLine ∧
      v.commands = [] ∧ v.command = c ∧
      v.Runnable = (n.Run.isSome || n.RunE.isSome) ∧
      v.HasSubCommands = decide (n.commands.length > 0) ∧
      v.HasExample = decide (n.Example.utf8ByteSize > 0) ∧
      v.IsAdditionalHelpTopicCommand = n.IsAdditionalHelpTopicCommand ∧
      Command.CommandPath t fuel c = .ok v.CommandPath := by
  simp only [documentationDataOf, hn, bind, Except.bind, pure, Except.pure] at h
  split at h
  · simp at h
  split at h
  · simp at h
  split at h
  · simp at h
  split at h
  · simp at h
  rename_i path hpath
  injection h with h
  subst h
  simp [hpath]

/-- The constructor literal is built for every viewable node, given fuel
beyond its depth. -/
theorem documentationDataOf_ok {t : List Command} {fuel : Nat} {c : Ptr} {chain : List Ptr}
    (hv : viewable t c chain = true) (hf : chain.length < fuel) :
    ∃ v, documentationDataOf t fuel c = .ok v := by
  unfold viewable at hv
  cases hn : t[c]? with
  | none => simp [hn] at hv
  | some n =>
    simp [hn] at hv
    obtain ⟨subs, hsubs⟩ := derefAll_ok_of_lt n.commands hv.1
    obtain ⟨s, hs⟩ := CommandPath_ok_of_chain chain c fuel hv.2 hf
    have hd : deref t c = .ok n := deref_ok_iff.2 hn
    simp [documentationDataOf, hd, bind, Except.bind, pure, Except.pure,
      Command.hasHelpSubCommands, Command.hasAvailableSubCommands,
      Command.isAvailableCommand, hsubs, hs]

theorem newDocumentationData_ok_iff {fuel : Nat} {w w1 : World} {c p : Ptr} :
    newDocumentationData fuel w c = .ok (p, w1) ↔
      ∃ v, documentationDataOf w.cmds fuel c = .ok v ∧ p = w.docs.length ∧
        w1 = { w with docs := w.docs ++ [v] } := by
  simp only [newDocumentationData, bind, Except.bind, pure, Except.pure]
  cases h : documentationDataOf w.cmds fuel c with
  | error e => simp
  | ok v =>
    simp only [Except.ok.injEq, Prod.mk.injEq, exists_eq_left']
    constructor
    · rintro ⟨rfl, rfl⟩; exact ⟨rfl, rfl⟩
    · rintro ⟨rfl, rfl⟩; exact ⟨rfl, rfl⟩

theorem newDocumentationDataEach_ok_iff {fuel : Nat} :
    ∀ (cs : List Ptr) (w w1 : World) (ps : List Ptr),
      newDocumentationDataEach fuel w cs = .ok (ps, w1) ↔
        ∃ vs, List.Forall₂ (fun c v => documentationDataOf w.cmds fuel c = .ok v) cs vs ∧
          ps = List.range' w.docs.length cs.length ∧
          w1 = { w with docs := w.docs ++ vs }
  | [], w, w1, ps => by
    simp only [newDocumentationDataEach, Except.ok.injEq, Prod.mk.injEq, List.forall₂_nil_left_iff,
      List.length_nil, List.range'_zero, exists_eq_left, List.append_nil]
    constructor
    · rintro ⟨rfl, rfl⟩; exact ⟨rfl, rfl⟩
    · rintro ⟨rfl, rfl⟩; exact ⟨rfl, rfl⟩
  | c :: cs, w, w1, ps => by
    simp only [newDocumentationDataEach]
    cases h : newDocumentationData fuel w c with
    | error e =>
      simp only [false_iff, not_exists, not_and, reduceCtorEq]
      intro vs hvs
      cases hvs with
      | cons hc _ =>
        have := (@newDocumentationData_ok_iff fuel w _ _ _).2 ⟨_, hc, rfl, rfl⟩
        rw [h] at this
        cases this
    | ok r =>
      obtain ⟨p, wa⟩ := r
      obtain ⟨v, hv, rfl, rfl⟩ := newDocumentationData_ok_iff.1 h
      simp only
      cases h2 : newDocumentationDataEach fuel { w with docs := w.docs ++ [v] } cs with
      | error e =>
        simp only [false_iff, not_exists, not_and, reduceCtorEq]
        intro vs hvs hps hw
        cases hvs with
        | cons hc htl =>
          rename_i v2 vs2
          rw [hv] at hc
          cases hc
          have := (newDocumentationDataEach_ok_iff cs { w with docs := w.docs ++ [v] }
            { w with docs := w.docs ++ [v] ++ vs2 } (List.range' (w.docs.length + 1) cs.length)).2
            ⟨vs2, htl, by simp, rfl⟩
          rw [h2] at this
          cases this
      | ok r2 =>
        obtain ⟨qs, wb⟩ := r2
        obtain ⟨vs, hvs, rfl, rfl⟩ := (newDocumentationDataEach_ok_iff cs _ _ _).1 h2
        simp only [Except.ok.injEq, Prod.mk.injEq, List.length_append, List.length_singleton,
          List.append_assoc, List.singleton_append, List.length_cons]
        constructor
        · rintro ⟨rfl, rfl⟩
          exact ⟨v :: vs, List.Forall₂.cons hv hvs, by simp [List.range'_succ], rfl⟩
        · rintro ⟨vs3, hvs3, rfl, rfl⟩
          cases hvs3 with
          | cons hc htl =>
            rename_i v2 vs2
            rw [hv] at hc
            cases hc
            have hu : vs2 = vs := by
              clear h2
              induction htl generalizing vs with
              | nil => cases hvs; rfl
              | cons ha _ ih =>
                cases hvs with
                | cons hb htl2 =>
                  rw [ha] at hb
                  cases hb
                  rw [ih _ htl2]
            subst hu
            exact ⟨by simp [List.range'_succ], rfl⟩

/-- The two ways `Commands` returns: the cache when it is non-empty, otherwise
a fresh view per child, written to the cache. -/
theorem doc_Commands_ok_iff {fuel : Nat} {w w1 : World} {d : Ptr} {ps : List Ptr} :
    DocumentationData.Commands fuel w d = .ok (ps, w1) ↔
      ∃ v, derefDoc w d = .ok v ∧
        ((v.commands ≠ [] ∧ ps = v.commands ∧ w1 = w) ∨
          (v.commands = [] ∧ ∃ n vs, deref w.cmds v.command = .ok n ∧
            List.Forall₂ (fun c x => documentationDataOf w.cmds fuel c = .ok x) n.commands vs ∧
            ps = List.range' w.docs.length n.commands.length ∧
            w1 = { w with docs := (w.docs ++ vs).set d { v with commands := ps } })) := by
  simp only [DocumentationData.Commands, bind, Except.bind, pure, Except.pure]
  cases hv : derefDoc w d with
  | error e => simp
  | ok v =>
    have hd : w.docs[d]? = some v := derefDoc_ok_iff.1 hv
    simp only [Except.ok.injEq, exists_eq_left']
    by_cases hc : v.commands = []
    · simp only [hc, List.length_nil, bne_self_eq_false, Bool.false_eq_true, ↓reduceIte, ne_eq,
        not_true_eq_false, false_and, true_and, false_or]
      cases hcs : Command.Commands w.cmds v.command with
      | error e =>
        simp only [false_iff, not_exists, not_and, reduceCtorEq]
        intro n vs hn
        have := Command.Commands_ok_iff.2 ⟨n, hn, rfl⟩
        rw [hcs] at this
        cases this
      | ok cs =>
        obtain ⟨n, hn, rfl⟩ := Command.Commands_ok_iff.1 hcs
        simp only
        cases he : newDocumentationDataEach fuel w n.commands with
        | error e =>
          simp only [false_iff, not_exists, not_and, reduceCtorEq]
          intro n2 vs hn2 hvs
          rw [hn] at hn2
          cases hn2
          have := (newDocumentationDataEach_ok_iff n.commands w _ _).2 ⟨vs, hvs, rfl, rfl⟩
          rw [he] at this
          cases this
        | ok r =>
          obtain ⟨qs, wa⟩ := r
          obtain ⟨vs, hvs, rfl, rfl⟩ := (newDocumentationDataEach_ok_iff _ _ _ _).1 he
          have hd2 : (w.docs ++ vs)[d]? = some v := by
            have hlt : d < w.docs.length := lt_length_of_getElem? hd
            rw [List.getElem?_append_left hlt]
            exact hd
          simp only [setDocCommands, hd2, Except.ok.injEq, Prod.mk.injEq, hc]
          constructor
          · rintro ⟨rfl, rfl⟩
            exact ⟨n, vs, hn, hvs, rfl, rfl⟩
          · rintro ⟨n2, vs2, hn2, hvs2, rfl, rfl⟩
            rw [hn] at hn2
            cases hn2
            have := (newDocumentationDataEach_ok_iff n.commands w _ _).2 ⟨vs2, hvs2, rfl, rfl⟩
            rw [he] at this
            simp only [Except.ok.injEq, Prod.mk.injEq, true_and] at this
            have hvv : vs = vs2 := by
              have := congrArg World.docs this
              simpa using this
            subst hvv
            exact ⟨rfl, rfl⟩
    · have hlen : (v.commands.length != 0) = true := by
        cases hcm : v.commands with
        | nil => exact absurd hcm hc
        | cons a l => simp
      simp only [hlen, ↓reduceIte, Except.ok.injEq, Prod.mk.injEq, ne_eq, hc, not_false_eq_true,
        true_and, false_and, or_false]
      constructor
      · rintro ⟨rfl, rfl⟩; exact ⟨rfl, rfl⟩
      · rintro ⟨rfl, rfl⟩; exact ⟨rfl, rfl⟩

/-- After `Commands` has returned a non-empty list, that list is the cache. -/
theorem doc_Commands_cache {fuel : Nat} {w w1 : World} {d : Ptr} {ps : List Ptr}
    (h : DocumentationData.Commands fuel w d = .ok (ps, w1)) :
    ∃ v1, derefDoc w1 d = .ok v1 ∧ v1.commands = ps := by
  obtain ⟨v, hv, hcase⟩ := doc_Commands_ok_iff.1 h
  have hd : w.docs[d]? = some v := derefDoc_ok_iff.1 hv
  have hlt : d < w.docs.length := lt_length_of_getElem? hd
  rcases hcase with ⟨_, rfl, rfl⟩ | ⟨_, n, vs, _, _, hps, rfl⟩
  · exact ⟨v, hv, rfl⟩
  · refine ⟨{ v with commands := ps }, ?_, rfl⟩
    rw [derefDoc_ok_iff]
    simp only
    have hlt2 : d < (w.docs ++ vs).length := by
      rw [List.length_append]
      exact Nat.lt_of_lt_of_le hlt (Nat.le_add_right _ _)
    rw [List.getElem?_set_self hlt2]

/-- A non-empty cache is returned as it is, whatever the tree and the fuel,
and nothing is written. -/
theorem doc_Commands_hit {fuel : Nat} {w : World} {d : Ptr}
    {v : DocumentationData} (hv : derefDoc w d = .ok v) (hne : v.commands ≠ []) :
    DocumentationData.Commands fuel w d = .ok (v.commands, w) :=
  doc_Commands_ok_iff.2 ⟨v, hv, Or.inl ⟨hne, rfl, rfl⟩⟩

/-- Two calls after one another: a non-empty first result is returned again
from the cache under any tree and fuel; an empty first result is computed
again. -/
theorem doc_Commands_twice {fuel : Nat} {w w1 : World} {d : Ptr} {ps : List Ptr}
    (h : DocumentationData.Commands fuel w d = .ok (ps, w1)) :
    (ps ≠ [] → ∀ (t2 : List Command) (fuel2 : Nat),
        DocumentationData.Commands fuel2 { w1 with cmds := t2 } d =
          .ok (ps, { w1 with cmds := t2 })) ∧
      (ps = [] → ∀ fuel2 : Nat, ∃ w2, DocumentationData.Commands fuel2 w1 d = .ok ([], w2)) := by
  obtain ⟨v1, hv1, hc1⟩ := doc_Commands_cache h
  constructor
  · intro hne t2 fuel2
    have hv2 : derefDoc { w1 with cmds := t2 } d = .ok v1 := by
      rw [derefDoc_ok_iff] at hv1 ⊢
      exact hv1
    have := @doc_Commands_hit fuel2 _ _ _ hv2 (by rw [hc1]; exact hne)
    rw [hc1] at this
    exact this
  · intro hnil fuel2
    subst hnil
    obtain ⟨v, hv, hcase⟩ := doc_Commands_ok_iff.1 h
    rcases hcase with ⟨hne, he, _⟩ | ⟨hvc, n, vs, hn, hvs, hps, hw1⟩
    · exact absurd he.symm hne
    · have hlen : n.commands.length = 0 := by
        have := congrArg List.length hps
        simpa using this.symm
      have hcs : n.commands = [] := List.length_eq_zero.1 hlen
      have hcmd : w1.cmds = w.cmds := by rw [hw1]
      have hvcmd : v1.command = v.command := by
        rw [hw1, derefDoc_ok_iff] at hv1
        simp only at hv1
        have hlt : d < (w.docs ++ vs).length := by
          rw [List.length_append]
          exact Nat.lt_of_lt_of_le (lt_length_of_getElem? (derefDoc_ok_iff.1 hv))
            (Nat.le_add_right _ _)
        rw [List.getElem?_set_self hlt] at hv1
        cases hv1
        rfl
      refine ⟨_, doc_Commands_ok_iff.2 ⟨v1, hv1, Or.inr ⟨hc1, n, [], ?_, ?_, ?_, rfl⟩⟩⟩
      · rw [hcmd, hvcmd]; exact hn
      · rw [hcs]; exact List.Forall₂.nil
      · rw [hcs]; rfl

/-- A node with children never yields an empty result. -/
theorem doc_Commands_ne_nil {fuel : Nat} {w w1 : World} {d : Ptr} {ps : List Ptr}
    {v : DocumentationData} {n : Command}
    (hv : derefDoc w d = .ok v) (hn : deref w.cmds v.command = .ok n) (hne : n.commands ≠ [])
    (h : DocumentationData.Commands fuel w d = .ok (ps, w1)) : ps ≠ [] := by
  obtain ⟨v0, hv0, hcase⟩ := doc_Commands_ok_iff.1 h
  rw [hv] at hv0
  cases hv0
  rcases hcase with ⟨hc, rfl, _⟩ | ⟨_, n2, vs, hn2, _, hps, _⟩
  · exact hc
  · rw [hn] at hn2
    cases hn2
    intro hnil
    rw [hnil] at hps
    have := congrArg List.length hps
    simp only [List.length_nil, List.length_range'] at this
    exact hne (List.length_eq_zero.1 this.symm)

/-- The first call on a fresh view: one view per child, in the child order. -/
theorem doc_Commands_fresh {fuel : Nat} {w w1 : World} {c p : Ptr} {n : Command}
    (hnew : newDocumentationData fuel w c = .ok (p, w1)) (hn : deref w.cmds c = .ok n)
    (hch : ∀ k ∈ n.commands, ∃ chain, viewable w.cmds k chain = true ∧ chain.length < fuel) :
    ∃ ps w2, DocumentationData.Commands fuel w1 p = .ok (ps, w2) ∧
      ps.length = n.commands.length ∧
      ∀ (i : Nat) (hi : i < n.commands.length), ∃ q x, ps[i]? = some q ∧
        derefDoc w2 q = .ok x ∧ documentationDataOf w.cmds fuel n.commands[i] = .ok x := by
  obtain ⟨v, hv, rfl, rfl⟩ := newDocumentationData_ok_iff.1 hnew
  obtain ⟨hf⟩ := documentationDataOf_fields hv hn
  have hvc : v.commands = [] := by tauto
  have hvk : v.command = c := by tauto
  obtain ⟨vs, hvs⟩ := forall₂_of_forall_ok (f := documentationDataOf w.cmds fuel) n.commands
    (fun k hk => by
      obtain ⟨chain, h1, h2⟩ := hch k hk
      exact documentationDataOf_ok h1 h2)
  have hd : derefDoc { w with docs := w.docs ++ [v] } w.docs.length = .ok v := by
    rw [derefDoc_ok_iff]
    simp
  refine ⟨_, _, doc_Commands_ok_iff.2 ⟨v, hd, Or.inr ⟨hvc, n, vs, ?_, hvs, rfl, rfl⟩⟩,
    by simp, ?_⟩
  · rw [hvk]; exact hn
  · intro i hi
    have hi2 : i < vs.length := by rw [← hvs.length_eq]; exact hi
    refine ⟨w.docs.length + 1 + i, vs[i], ?_, ?_, ?_⟩
    · rw [List.getElem?_range' _ _ hi]
      simp
    · rw [derefDoc_ok_iff]
      simp only
      rw [List.getElem?_set_ne (by omega)]
      rw [List.getElem?_append_right (by simp)]
      simp only [List.length_append, List.length_singleton]
      have : w.docs.length + 1 + i - (w.docs.length + 1) = i := by omega
      rw [this]
      exact List.getElem?_eq_getElem hi2
    · have := hvs.get hi hi2
      simpa using this

theorem doc_UsagePadding_root {w : World} {d : Ptr} {v : DocumentationData} {n : Command}
    (hv : derefDoc w d = .ok v) (hn : deref w.cmds v.command = .ok n) (hp : n.parent = none) :
    DocumentationData.UsagePadding w d = .ok (minUsagePadding, w) := by
  simp [DocumentationData.UsagePadding, hv, hn, hp, bind, Except.bind, pure, Except.pure]

theorem doc_CommandPathPadding_root {fuel : Nat} {w : World} {d : Ptr} {v : DocumentationData}
    {n : Command}
    (hv : derefDoc w d = .ok v) (hn : deref w.cmds v.command = .ok n) (hp : n.parent = none) :
    DocumentationData.CommandPathPadding fuel w d = .ok (minCommandPathPadding, w) := by
  simp [DocumentationData.CommandPathPadding, hv, hn, hp, bind, Except.bind, pure, Except.pure]

theorem doc_NamePadding_root {w : World} {d : Ptr} {v : DocumentationData} {n : Command}
    (hv : derefDoc w d = .ok v) (hn : deref w.cmds v.command = .ok n) (hp : n.parent = none) :
    DocumentationData.NamePadding w d = .ok (minNamePadding, w) := by
  simp [DocumentationData.NamePadding, hv, hn, hp, bind, Except.bind, pure, Except.pure]

theorem doc_UsagePadding_child {w : World} {d p : Ptr} {v : DocumentationData}
    {n pn : Command} {subs : List Command}
    (hv : derefDoc w d = .ok v) (hn : deref w.cmds v.command = .ok n) (hp : n.parent = some p)
    (hpn : deref w.cmds p = .ok pn) (hsubs : derefAll w.cmds pn.commands = .ok subs) :
    DocumentationData.UsagePadding w d =
      .ok (max minUsagePadding (largest (subs.map (fun x => x.useLine.utf8ByteSize))), w) := by
  simp only [DocumentationData.UsagePadding, hv, hn, hp, bind, Except.bind, pure, Except.pure,
    Command.getMaxUsageLength, hpn, hsubs, maxLen_eq_largest]
  split <;> simp [Except.pure] <;> omega

theorem doc_NamePadding_child {w : World} {d p : Ptr} {v : DocumentationData}
    {n pn : Command} {subs : List Command}
    (hv : derefDoc w d = .ok v) (hn : deref w.cmds v.command = .ok n) (hp : n.parent = some p)
    (hpn : deref w.cmds p = .ok pn) (hsubs : derefAll w.cmds pn.commands = .ok subs) :
    DocumentationData.NamePadding w d =
      .ok (max minNamePadding (largest (subs.map (fun x => x.Name.utf8ByteSize))), w) := by
  simp only [DocumentationData.NamePadding, hv, hn, hp, bind, Except.bind, pure, Except.pure,
    Command.getMaxNameLength, hpn, hsubs, maxLen_eq_largest]
  split <;> simp [Except.pure] <;> omega

theorem doc_CommandPathPadding_child {fuel : Nat} {w : World} {d p : Ptr}
    {v : DocumentationData} {n pn : Command} {paths : List String}
    (hv : derefDoc w d = .ok v) (hn : deref w.cmds v.command = .ok n) (hp : n.parent = some p)
    (hpn : deref w.cmds p = .ok pn) (hpaths : commandPaths w.cmds fuel pn.commands = .ok paths) :
    DocumentationData.CommandPathPadding fuel w d =
      .ok (max minCommandPathPadding (largest (paths.map String.utf8ByteSize)), w) := by
  simp only [DocumentationData.CommandPathPadding, hv, hn, hp, bind, Except.bind, pure,
    Except.pure, Command.getMaxCommandPathLength, hpn, hpaths, maxLen_eq_largest]
  split <;> simp [Except.pure] <;> omega

theorem doc_NameAndAliases_eq {w : World} {d : Ptr} {v : DocumentationData} {n : Command}
    (hv : derefDoc w d = .ok v) (hn : deref w.cmds v.command = .ok n) :
    DocumentationData.NameAndAliases w d = .ok (nameThenAliases n.Name n.Aliases, w) := by
  simp only [DocumentationData.NameAndAliases, hv, hn, bind, Except.bind, pure, Except.pure,
    stringsJoin_name_aliases]

theorem doc_HasParent_eq {w : World} {d : Ptr} {v : DocumentationData} {n : Command}
    (hv : derefDoc w d = .ok v) (hn : deref w.cmds v.command = .ok n) :
    DocumentationData.HasParent w d = .ok (n.parent.isSome, w) := by
  simp [DocumentationData.HasParent, hv, hn, bind, Except.bind, pure, Except.pure,
    Command.hasParent]

theorem doc_Parent_root {fuel : Nat} {w : World} {d : Ptr} {v : DocumentationData} {n : Command}
    (hv : derefDoc w d = .ok v) (hn : deref w.cmds v.command = .ok n) (hp : n.parent = none) :
    DocumentationData.Parent fuel w d = .error .nilDeref := by
  simp [DocumentationData.Parent, hv, hn, hp, bind, Except.bind, Command.toDocumentationData]

theorem doc_Parent_child {fuel : Nat} {w : World} {d p : Ptr} {v pv : DocumentationData}
    {n : Command}
    (hv : derefDoc w d = .ok v) (hn : deref w.cmds v.command = .ok n) (hp : n.parent = some p)
    (hpv : documentationDataOf w.cmds fuel p = .ok pv) :
    DocumentationData.Parent fuel w d =
      .ok (w.docs.length, { w with docs := w.docs ++ [pv] }) := by
  simp only [DocumentationData.Parent, hv, hn, hp, bind, Except.bind,
    Command.toDocumentationData]
  exact newDocumentationData_ok_iff.2 ⟨pv, hpv, rfl, rfl⟩

theorem doc_Parent_ok {fuel : Nat} {w w1 : World} {d q : Ptr}
    (h : DocumentationData.Parent fuel w d = .ok (q, w1)) :
    ∃ pv, q = w.docs.length ∧ w1 = { w with docs := w.docs ++ [pv] } := by
  simp only [DocumentationData.Parent, bind, Except.bind] at h
  split at h
  · cases h
  split at h
  · cases h
  rename_i n _
  cases hp : n.parent with
  | none => simp [hp, Command.toDocumentationData] at h
  | some p =>
    simp only [hp, Command.toDocumentationData] at h
    obtain ⟨pv, _, h1, h2⟩ := newDocumentationData_ok_iff.1 h
    exact ⟨pv, h1, h2⟩

theorem doc_VisitParents_eq {σ : Type} {fuel : Nat} {w : World} {d : Ptr}
    {v : DocumentationData} {chain : List Ptr} (fn : Ptr → σ → σ) (s : σ)
    (hv : derefDoc w d = .ok v) (hc : parentChain w.cmds v.command chain = true)
    (hf : chain.length < fuel) :
    DocumentationData.VisitParents fuel w d fn s =
      .ok (chain.foldl (fun a p => fn p a) s, w) := by
  simp only [DocumentationData.VisitParents, hv, bind, Except.bind, pure, Except.pure,
    visitParents_chain fn chain v.command fuel s hc hf]

theorem doc_VisitParents_ok {σ : Type} {fuel : Nat} {w w1 : World} {d : Ptr}
    {fn : Ptr → σ → σ} {s s1 : σ}
    (h : DocumentationData.VisitParents fuel w d fn s = .ok (s1, w1)) : w1 = w := by
  simp only [DocumentationData.VisitParents, bind, Except.bind, pure, Except.pure] at h
  split at h
  · cases h
  split at h
  · cases h
  · cases h; rfl

theorem doc_HasParent_ok {w w1 : World} {d : Ptr} {b : Bool}
    (h : DocumentationData.HasParent w d = .ok (b, w1)) : w1 = w := by
  simp only [DocumentationData.HasParent, bind, Except.bind, pure, Except.pure] at h
  split at h
  · cases h
  split at h
  · cases h
  · cases h; rfl

theorem doc_NameAndAliases_ok {w w1 : World} {d : Ptr} {r : String}
    (h : DocumentationData.NameAndAliases w d = .ok (r, w1)) : w1 = w := by
  simp only [DocumentationData.NameAndAliases, bind, Except.bind, pure, Except.pure] at h
  split at h
  · cases h
  split at h
  · cases h
  · cases h; rfl

theorem doc_UsagePadding_ok {w w1 : World} {d : Ptr} {r : Nat}
    (h : DocumentationData.UsagePadding w d = .ok (r, w1)) : w1 = w := by
  simp only [DocumentationData.UsagePadding, bind, Except.bind, pure, Except.pure] at h
  split at h
  · cases h
  split at h
  · cases h
  split at h
  · cases h; rfl
  split at h
  · cases h
  split at h <;> (cases h; rfl)

theorem doc_CommandPathPadding_ok {fuel : Nat} {w w1 : World} {d : Ptr} {r : Nat}
    (h : DocumentationData.CommandPathPadding fuel w d = .ok (r, w1)) : w1 = w := by
  simp only [DocumentationData.CommandPathPadding, bind, Except.bind, pure, Except.pure] at h
  split at h
  · cases h
  split at h
  · cases h
  split at h
  · cases h; rfl
  split at h
  · cases h
  split at h <;> (cases h; rfl)

theorem doc_NamePadding_ok {w w1 : World} {d : Ptr} {r : Nat}
    (h : DocumentationData.NamePadding w d = .ok (r, w1)) : w1 = w := by
  simp only [DocumentationData.NamePadding, bind, Except.bind, pure, Except.pure] at h
  split at h
  · cases h
  split at h
  · cases h
  split at h
  · cases h; rfl
  split at h
  · cases h
  split at h <;> (cases h; rfl)

/-- What `Commands` writes: the cache of the receiver, and fresh views behind
the existing ones; the tree and every other view stay as they were. -/
theorem doc_Commands_frame {fuel : Nat} {w w1 : World} {d : Ptr} {ps : List Ptr}
    (h : DocumentationData.Commands fuel w d = .ok (ps, w1)) :
    w1.cmds = w.cmds ∧ w1.tmpls = w.tmpls ∧
      (∀ i : Nat, i < w.docs.length → i ≠ d → w1.docs[i]? = w.docs[i]?) ∧
      ∃ v, w.docs[d]? = some v ∧ w1.docs[d]? = some { v with commands := ps } := by
  obtain ⟨v, hv, hcase⟩ := doc_Commands_ok_iff.1 h
  have hd : w.docs[d]? = some v := derefDoc_ok_iff.1 hv
  have hlt : d < w.docs.length := lt_length_of_getElem? hd
  rcases hcase with ⟨_, rfl, rfl⟩ | ⟨_, n, vs, _, _, _, rfl⟩
  · exact ⟨rfl, rfl, fun _ _ _ => rfl, v, hd, hd⟩
  · refine ⟨rfl, rfl, ?_, v, hd, ?_⟩
    · intro i hi hne
      simp only
      rw [List.getElem?_set_ne (Ne.symm hne), List.getElem?_append_left hi]
    · simp only
      have hlt2 : d < (w.docs ++ vs).length := by
        rw [List.length_append]
        exact Nat.lt_of_lt_of_le hlt (Nat.le_add_right _ _)
      rw [List.getElem?_set_self hlt2]

/-- What the constructor writes: one fresh view behind the existing ones. -/
theorem doc_new_frame {fuel : Nat} {w w1 : World} {c p : Ptr}
    (h : newDocumentationData fuel w c = .ok (p, w1)) :
    w1.cmds = w.cmds ∧ w1.tmpls = w.tmpls ∧
      ∀ i : Nat, i < w.docs.length → w1.docs[i]? = w.docs[i]? := by
  obtain ⟨v, _, _, rfl⟩ := newDocumentationData_ok_iff.1 h
  refine ⟨rfl, rfl, fun i hi => ?_⟩
  simp only
  rw [List.getElem?_append_left hi]

theorem doc_Parent_frame {fuel : Nat} {w w1 : World} {d q : Ptr}
    (h : DocumentationData.Parent fuel w d = .ok (q, w1)) :
    w1.cmds = w.cmds ∧ w1.tmpls = w.tmpls ∧
      ∀ i : Nat, i < w.docs.length → w1.docs[i]? = w.docs[i]? := by
  obtain ⟨pv, _, rfl⟩ := doc_Parent_ok h
  refine ⟨rfl, rfl, fun i hi => ?_⟩
  simp only
  rw [List.getElem?_append_left hi]

/-- The constructor returns for every viewable node, and the new view holds
the node's values. -/
theorem doc_new_ok {fuel : Nat} {w : World} {c : Ptr} {chain : List Ptr}
    (hview : viewable w.cmds c chain = true) (hf : chain.length < fuel) :
    ∃ v, documentationDataOf w.cmds fuel c = .ok v ∧
      newDocumentationData fuel w c = .ok (w.docs.length, { w with docs := w.docs ++ [v] }) ∧
      derefDoc { w with docs := w.docs ++ [v] } w.docs.length = .ok v := by
  obtain ⟨v, hv⟩ := documentationDataOf_ok hview hf
  refine ⟨v, hv, newDocumentationData_ok_iff.2 ⟨v, hv, rfl, rfl⟩, ?_⟩
  rw [derefDoc_ok_iff]
  simp

/-! ## Facts about `template.go` -/

theorem derefTmpl_ok_iff {w : World} {d : Ptr} {v : TemplateData} :
    derefTmpl w d = .ok v ↔ w.tmpls[d]? = some v := by
  unfold derefTmpl
  cases h : w.tmpls[d]? <;> simp

/-- What the constructor literal holds whenever it is built. -/
theorem templateDataOf_fields {t : List Command} {fuel : Nat} {c : Ptr}
    {v : TemplateData} {n : Command}
    (h : templateDataOf t fuel c = .ok v) (hn : deref t c = .ok n) :
    v.Name = n.Name ∧ v.Short = n.Short ∧ v.Long = n.Long ∧ v.Version = n.Version ∧
      v.Aliases = n.Aliases ∧ v.Example = n.Example ∧ v.UseLine = n.useLine ∧
      v.commands = [] ∧ v.command = c ∧
      v.Runnable = (n.Run.isSome || n.RunE.isSome) ∧
      v.HasSubCommands = decide (n.commands.length > 0) ∧
      v.HasExample = decide (n.Example.utf8ByteSize > 0) ∧
      v.IsAdditionalHelpTopicCommand = n.IsAdditionalHelpTopicCommand ∧
      Command.CommandPath t fuel c = .ok v.CommandPath := by
  simp only [templateDataOf, hn, bind, Except.bind, pure, Except.pure] at h
  split at h
  · simp at h
  split at h
  · simp at h
  split at h
  · simp at h
  split at h
  · simp at h
  rename_i path hpath
  injection h with h
  subst h
  simp [hpath]

/-- The constructor literal is built for every viewable node, given fuel
beyond its depth. -/
theorem templateDataOf_ok {t : List Command} {fuel : Nat} {c : Ptr} {chain : List Ptr}
    (hv : viewable t c chain = true) (hf : chain.length < fuel) :
    ∃ v, templateDataOf t fuel c = .ok v := by
  unfold viewable at hv
  cases hn : t[c]? with
  | none => simp [hn] at hv
  | some n =>
    simp [hn] at hv
    obtain ⟨subs, hsubs⟩ := derefAll_ok_of_lt n.commands hv.1
    obtain ⟨s, hs⟩ := CommandPath_ok_of_chain chain c fuel hv.2 hf
    have hd : deref t c = .ok n := deref_ok_iff.2 hn
    simp [templateDataOf, hd, bind, Except.bind, pure, Except.pure,
      Command.hasHelpSubCommands, Command.hasAvailableSubCommands,
      Command.isAvailableCommand, hsubs, hs]

theorem newTemplateData_ok_iff {fuel : Nat} {w w1 : World} {c p : Ptr} :
    newTemplateData fuel w c = .ok (p, w1) ↔
      ∃ v, templateDataOf w.cmds fuel c = .ok v ∧ p = w.tmpls.length ∧
        w1 = { w with tmpls := w.tmpls ++ [v] } := by
  simp only [newTemplateData, bind, Except.bind, pure, Except.pure]
  cases h : templateDataOf w.cmds fuel c with
  | error e => simp
  | ok v =>
    simp only [Except.ok.injEq, Prod.mk.injEq, exists_eq_left']
    constructor
    · rintro ⟨rfl, rfl⟩; exact ⟨rfl, rfl⟩
    · rintro ⟨rfl, rfl⟩; exact ⟨rfl, rfl⟩

theorem newTemplateDataEach_ok_iff {fuel : Nat} :
    ∀ (cs : List Ptr) (w w1 : World) (ps : List Ptr),
      newTemplateDataEach fuel w cs = .ok (ps, w1) ↔
        ∃ vs, List.Forall₂ (fun c v => templateDataOf w.cmds fuel c = .ok v) cs vs ∧
          ps = List.range' w.tmpls.length cs.length ∧
          w1 = { w with tmpls := w.tmpls ++ vs }
  | [], w, w1, ps => by
    simp only [newTemplateDataEach, Except.ok.injEq, Prod.mk.injEq, List.forall₂_nil_left_iff,
      List.length_nil, List.range'_zero, exists_eq_left, List.append_nil]
    constructor
    · rintro ⟨rfl, rfl⟩; exact ⟨rfl, rfl⟩
    · rintro ⟨rfl, rfl⟩; exact ⟨rfl, rfl⟩
  | c :: cs, w, w1, ps => by
    simp only [newTemplateDataEach]
    cases h : newTemplateData fuel w c with
    | error e =>
      simp only [false_iff, not_exists, not_and, reduceCtorEq]
      intro vs hvs
      cases hvs with
      | cons hc _ =>
        have := (@newTemplateData_ok_iff fuel w _ _ _).2 ⟨_, hc, rfl, rfl⟩
        rw [h] at this
        cases this
    | ok r =>
      obtain ⟨p, wa⟩ := r
      obtain ⟨v, hv, rfl, rfl⟩ := newTemplateData_ok_iff.1 h
      simp only
      cases h2 : newTemplateDataEach fuel { w with tmpls := w.tmpls ++ [v] } cs with
      | error e =>
        simp only [false_iff, not_exists, not_and, reduceCtorEq]
        intro vs hvs hps hw
        cases hvs with
        | cons hc htl =>
          rename_i v2 vs2
          rw [hv] at hc
          cases hc
          have := (newTemplateDataEach_ok_iff cs { w with tmpls := w.tmpls ++ [v] }
            { w with tmpls := w.tmpls ++ [v] ++ vs2 } (List.range' (w.tmpls.length + 1) cs.length)).2
            ⟨vs2, htl, by simp, rfl⟩
          rw [h2] at this
          cases this
      | ok r2 =>
        obtain ⟨qs, wb⟩ := r2
        obtain ⟨vs, hvs, rfl, rfl⟩ := (newTemplateDataEach_ok_iff cs _ _ _).1 h2
        simp only [Except.ok.injEq, Prod.mk.injEq, List.length_append, List.length_singleton,
          List.append_assoc, List.singleton_append, List.length_cons]
        constructor
        · rintro ⟨rfl, rfl⟩
          exact ⟨v :: vs, List.Forall₂.cons hv hvs, by simp [List.range'_succ], rfl⟩
        · rintro ⟨vs3, hvs3, rfl, rfl⟩
          cases hvs3 with
          | cons hc htl =>
            rename_i v2 vs2
            rw [hv] at hc
            cases hc
            have hu : vs2 = vs := by
              clear h2
              induction htl generalizing vs with
              | nil => cases hvs; rfl
              | cons ha _ ih =>
                cases hvs with
                | cons hb htl2 =>
                  rw [ha] at hb
                  cases hb
                  rw [ih _ htl2]
            subst hu
            exact ⟨by simp [List.range'_succ], rfl⟩

/-- The two ways `Commands` returns: the cache when it is non-empty, otherwise
a fresh view per child, written to the cache. -/
theorem tmpl_Commands_ok_iff {fuel : Nat} {w w1 : World} {d : Ptr} {ps : List Ptr} :
    TemplateData.Commands fuel w d = .ok (ps, w1) ↔
      ∃ v, derefTmpl w d = .ok v ∧
        ((v.commands ≠ [] ∧ ps = v.commands ∧ w1 = w) ∨
          (v.commands = [] ∧ ∃ n vs, deref w.cmds v.command = .ok n ∧
            List.Forall₂ (fun c x => templateDataOf w.cmds fuel c = .ok x) n.commands vs ∧
            ps = List.range' w.tmpls.length n.commands.length ∧
            w1 = { w with tmpls := (w.tmpls ++ vs).set d { v with commands := ps } })) := by
  simp only [TemplateData.Commands, bind, Except.bind, pure, Except.pure]
  cases hv : derefTmpl w d with
  | error e => simp
  | ok v =>
    have hd : w.tmpls[d]? = some v := derefTmpl_ok_iff.1 hv
    simp only [Except.ok.injEq, exists_eq_left']
    by_cases hc : v.commands = []
    · simp only [hc, List.length_nil, bne_self_eq_false, Bool.false_eq_true, ↓reduceIte, ne_eq,
        not_true_eq_false, false_and, true_and, false_or]
      cases hcs : Command.Commands w.cmds v.command with
      | error e =>
        simp only [false_iff, not_exists, not_and, reduceCtorEq]
        intro n vs hn
        have := Command.Commands_ok_iff.2 ⟨n, hn, rfl⟩
        rw [hcs] at this
        cases this
      | ok cs =>
        obtain ⟨n, hn, rfl⟩ := Command.Commands_ok_iff.1 hcs
        simp only
        cases he : newTemplateDataEach fuel w n.commands with
        | error e =>
          simp only [false_iff, not_exists, not_and, reduceCtorEq]
          intro n2 vs hn2 hvs
          rw [hn] at hn2
          cases hn2
          have := (newTemplateDataEach_ok_iff n.commands w _ _).2 ⟨vs, hvs, rfl, rfl⟩
          rw [he] at this
          cases this
        | ok r =>
          obtain ⟨qs, wa⟩ := r
          obtain ⟨vs, hvs, rfl, rfl⟩ := (newTemplateDataEach_ok_iff _ _ _ _).1 he
          have hd2 : (w.tmpls ++ vs)[d]? = some v := by
            have hlt : d < w.tmpls.length := lt_length_of_getElem? hd
            rw [List.getElem?_append_left hlt]
            exact hd
          simp only [setTmplCommands, hd2, Except.ok.injEq, Prod.mk.injEq, hc]
          constructor
          · rintro ⟨rfl, rfl⟩
            exact ⟨n, vs, hn, hvs, rfl, rfl⟩
          · rintro ⟨n2, vs2, hn2, hvs2, rfl, rfl⟩
            rw [hn] at hn2
            cases hn2
            have := (newTemplateDataEach_ok_iff n.commands w _ _).2 ⟨vs2, hvs2, rfl, rfl⟩
            rw [he] at this
            simp only [Except.ok.injEq, Prod.mk.injEq, true_and] at this
            have hvv : vs = vs2 := by
              have := congrArg World.tmpls this
              simpa using this
            subst hvv
            exact ⟨rfl, rfl⟩
    · have hlen : (v.commands.length != 0) = true := by
        cases hcm : v.commands with
        | nil => exact absurd hcm hc
        | cons a l => simp
      simp only [hlen, ↓reduceIte, Except.ok.injEq, Prod.mk.injEq, ne_eq, hc, not_false_eq_true,
        true_and, false_and, or_false]
      constructor
      · rintro ⟨rfl, rfl⟩; exact ⟨rfl, rfl⟩
      · rintro ⟨rfl, rfl⟩; exact ⟨rfl, rfl⟩

/-- After `Commands` has returned a non-empty list, that list is the cache. -/
theorem tmpl_Commands_cache {fuel : Nat} {w w1 : World} {d : Ptr} {ps : List Ptr}
    (h : TemplateData.Commands fuel w d = .ok (ps, w1)) :
    ∃ v1, derefTmpl w1 d = .ok v1 ∧ v1.commands = ps := by
  obtain ⟨v, hv, hcase⟩ := tmpl_Commands_ok_iff.1 h
  have hd : w.tmpls[d]? = some v := derefTmpl_ok_iff.1 hv
  have hlt : d < w.tmpls.length := lt_length_of_getElem? hd
  rcases hcase with ⟨_, rfl, rfl⟩ | ⟨_, n, vs, _, _, hps, rfl⟩
  · exact ⟨v, hv, rfl⟩
  · refine ⟨{ v with commands := ps }, ?_, rfl⟩
    rw [derefTmpl_ok_iff]
    simp only
    have hlt2 : d < (w.tmpls ++ vs).length := by
      rw [List.length_append]
      exact Nat.lt_of_lt_of_le hlt (Nat.le_add_right _ _)
    rw [List.getElem?_set_self hlt2]

/-- A non-empty cache is returned as it is, whatever the tree and the fuel,
and nothing is written. -/
theorem tmpl_Commands_hit {fuel : Nat} {w : World} {d : Ptr}
    {v : TemplateData} (hv : derefTmpl w d = .ok v) (hne : v.commands ≠ []) :
    TemplateData.Commands fuel w d = .ok (v.commands, w) :=
  tmpl_Commands_ok_iff.2 ⟨v, hv, Or.inl ⟨hne, rfl, rfl⟩⟩

/-- Two calls after one another: a non-empty first result is returned again
from the cache under any tree and fuel; an empty first result is computed
again. -/
theorem tmpl_Commands_twice {fuel : Nat} {w w1 : World} {d : Ptr} {ps : List Ptr}
    (h : TemplateData.Commands fuel w d = .ok (ps, w1)) :
    (ps ≠ [] → ∀ (t2 : List Command) (fuel2 : Nat),
        TemplateData.Commands fuel2 { w1 with cmds := t2 } d =
          .ok (ps, { w1 with cmds := t2 })) ∧
      (ps = [] → ∀ fuel2 : Nat, ∃ w2, TemplateData.Commands fuel2 w1 d = .ok ([], w2)) := by
  obtain ⟨v1, hv1, hc1⟩ := tmpl_Commands_cache h
  constructor
  · intro hne t2 fuel2
    have hv2 : derefTmpl { w1 with cmds := t2 } d = .ok v1 := by
      rw [derefTmpl_ok_iff] at hv1 ⊢
      exact hv1
    have := @tmpl_Commands_hit fuel2 _ _ _ hv2 (by rw [hc1]; exact hne)
    rw [hc1] at this
    exact this
  · intro hnil fuel2
    subst hnil
    obtain ⟨v, hv, hcase⟩ := tmpl_Commands_ok_iff.1 h
    rcases hcase with ⟨hne, he, _⟩ | ⟨hvc, n, vs, hn, hvs, hps, hw1⟩
    · exact absurd he.symm hne
    · have hlen : n.commands.length = 0 := by
        have := congrArg List.length hps
        simpa using this.symm
      have hcs : n.commands = [] := List.length_eq_zero.1 hlen
      have hcmd : w1.cmds = w.cmds := by rw [hw1]
      have hvcmd : v1.command = v.command := by
        rw [hw1, derefTmpl_ok_iff] at hv1
        simp only at hv1
        have hlt : d < (w.tmpls ++ vs).length := by
          rw [List.length_append]
          exact Nat.lt_of_lt_of_le (lt_length_of_getElem? (derefTmpl_ok_iff.1 hv))
            (Nat.le_add_right _ _)
        rw [List.getElem?_set_self hlt] at hv1
        cases hv1
        rfl
      refine ⟨_, tmpl_Commands_ok_iff.2 ⟨v1, hv1, Or.inr ⟨hc1, n, [], ?_, ?_, ?_, rfl⟩⟩⟩
      · rw [hcmd, hvcmd]; exact hn
      · rw [hcs]; exact List.Forall₂.nil
      · rw [hcs]; rfl

/-- A node with children never yields an empty result. -/
theorem tmpl_Commands_ne_nil {fuel : Nat} {w w1 : World} {d : Ptr} {ps : List Ptr}
    {v : TemplateData} {n : Command}
    (hv : derefTmpl w d = .ok v) (hn : deref w.cmds v.command = .ok n) (hne : n.commands ≠ [])
    (h : TemplateData.Commands fuel w d = .ok (ps, w1)) : ps ≠ [] := by
  obtain ⟨v0, hv0, hcase⟩ := tmpl_Commands_ok_iff.1 h
  rw [hv] at hv0
  cases hv0
  rcases hcase with ⟨hc, rfl, _⟩ | ⟨_, n2, vs, hn2, _, hps, _⟩
  · exact hc
  · rw [hn] at hn2
    cases hn2
    intro hnil
    rw [hnil] at hps
    have := congrArg List.length hps
    simp only [List.length_nil, List.length_range'] at this
    exact hne (List.length_eq_zero.1 this.symm)

/-- The first call on a fresh view: one view per child, in the child order. -/
theorem tmpl_Commands_fresh {fuel : Nat} {w w1 : World} {c p : Ptr} {n : Command}
    (hnew : newTemplateData fuel w c = .ok (p, w1)) (hn : deref w.cmds c = .ok n)
    (hch : ∀ k ∈ n.commands, ∃ chain, viewable w.cmds k chain = true ∧ chain.length < fuel) :
    ∃ ps w2, TemplateData.Commands fuel w1 p = .ok (ps, w2) ∧
      ps.length = n.commands.length ∧
      ∀ (i : Nat) (hi : i < n.commands.length), ∃ q x, ps[i]? = some q ∧
        derefTmpl w2 q = .ok x ∧ templateDataOf w.cmds fuel n.commands[i] = .ok x := by
  obtain ⟨v, hv, rfl, rfl⟩ := newTemplateData_ok_iff.1 hnew
  obtain ⟨hf⟩ := templateDataOf_fields hv hn
  have hvc : v.commands = [] := by tauto
  have hvk : v.command = c := by tauto
  obtain ⟨vs, hvs⟩ := forall₂_of_forall_ok (f := templateDataOf w.cmds fuel) n.commands
    (fun k hk => by
      obtain ⟨chain, h1, h2⟩ := hch k hk
      exact templateDataOf_ok h1 h2)
  have hd : derefTmpl { w with tmpls := w.tmpls ++ [v] } w.tmpls.length = .ok v := by
    rw [derefTmpl_ok_iff]
    simp
  refine ⟨_, _, tmpl_Commands_ok_iff.2 ⟨v, hd, Or.inr ⟨hvc, n, vs, ?_, hvs, rfl, rfl⟩⟩,
    by simp, ?_⟩
  · rw [hvk]; exact hn
  · intro i hi
    have hi2 : i < vs.length := by rw [← hvs.length_eq]; exact hi
    refine ⟨w.tmpls.length + 1 + i, vs[i], ?_, ?_, ?_⟩
    · rw [List.getElem?_range' _ _ hi]
      simp
    · rw [derefTmpl_ok_iff]
      simp only
      rw [List.getElem?_set_ne (by omega)]
      rw [List.getElem?_append_right (by simp)]
      simp only [List.length_append, List.length_singleton]
      have : w.tmpls.length + 1 + i - (w.tmpls.length + 1) = i := by omega
      rw [this]
      exact List.getElem?_eq_getElem hi2
    · have := hvs.get hi hi2
      simpa using this

theorem tmpl_UsagePadding_root {w : World} {d : Ptr} {v : TemplateData} {n : Command}
    (hv : derefTmpl w d = .ok v) (hn : deref w.cmds v.command = .ok n) (hp : n.parent = none) :
    TemplateData.UsagePadding w d = .ok (minUsagePadding, w) := by
  simp [TemplateData.UsagePadding, hv, hn, hp, bind, Except.bind, pure, Except.pure]

theorem tmpl_CommandPathPadding_root {fuel : Nat} {w : World} {d : Ptr} {v : TemplateData}
    {n : Command}
    (hv : derefTmpl w d = .ok v) (hn : deref w.cmds v.command = .ok n) (hp : n.parent = none) :
    TemplateData.CommandPathPadding fuel w d = .ok (minCommandPathPadding, w) := by
  simp [TemplateData.CommandPathPadding, hv, hn, hp, bind, Except.bind, pure, Except.pure]

theorem tmpl_NamePadding_root {w : World} {d : Ptr} {v : TemplateData} {n : Command}
    (hv : derefTmpl w d = .ok v) (hn : deref w.cmds v.command = .ok n) (hp : n.parent = none) :
    TemplateData.NamePadding w d = .ok (minNamePadding, w) := by
  simp [TemplateData.NamePadding, hv, hn, hp, bind, Except.bind, pure, Except.pure]

theorem tmpl_UsagePadding_child {w : World} {d p : Ptr} {v : TemplateData}
    {n pn : Command} {subs : List Command}
    (hv : derefTmpl w d = .ok v) (hn : deref w.cmds v.command = .ok n) (hp : n.parent = some p)
    (hpn : deref w.cmds p = .ok pn) (hsubs : derefAll w.cmds pn.commands = .ok subs) :
    TemplateData.UsagePadding w d =
      .ok (max minUsagePadding (largest (subs.map (fun x => x.useLine.utf8ByteSize))), w) := by
  simp only [TemplateData.UsagePadding, hv, hn, hp, bind, Except.bind, pure, Except.pure,
    Command.getMaxUsageLength, hpn, hsubs, maxLen_eq_largest]
  split <;> simp [Except.pure] <;> omega

theorem tmpl_NamePadding_child {w : World} {d p : Ptr} {v : TemplateData}
    {n pn : Command} {subs : List Command}
    (hv : derefTmpl w d = .ok v) (hn : deref w.cmds v.command = .ok n) (hp : n.parent = some p)
    (hpn : deref w.cmds p = .ok pn) (hsubs : derefAll w.cmds pn.commands = .ok subs) :
    TemplateData.NamePadding w d =
      .ok (max minNamePadding (largest (subs.map (fun x => x.Name.utf8ByteSize))), w) := by
  simp only [TemplateData.NamePadding, hv, hn, hp, bind, Except.bind, pure, Except.pure,
    Command.getMaxNameLength, hpn, hsubs, maxLen_eq_largest]
  split <;> simp [Except.pure] <;> omega

theorem tmpl_CommandPathPadding_child {fuel : Nat} {w : World} {d p : Ptr}
    {v : TemplateData} {n pn : Command} {paths : List String}
    (hv : derefTmpl w d = .ok v) (hn : deref w.cmds v.command = .ok n) (hp : n.parent = some p)
    (hpn : deref w.cmds p = .ok pn) (hpaths : commandPaths w.cmds fuel pn.commands = .ok paths) :
    TemplateData.CommandPathPadding fuel w d =
      .ok (max minCommandPathPadding (largest (paths.map String.utf8ByteSize)), w) := by
  simp only [TemplateData.CommandPathPadding, hv, hn, hp, bind, Except.bind, pure,
    Except.pure, Command.getMaxCommandPathLength, hpn, hpaths, maxLen_eq_largest]
  split <;> simp [Except.pure] <;> omega

theorem tmpl_NameAndAliases_eq {w : World} {d : Ptr} {v : TemplateData} {n : Command}
    (hv : derefTmpl w d = .ok v) (hn : deref w.cmds v.command = .ok n) :
    TemplateData.NameAndAliases w d = .ok (nameThenAliases n.Name n.Aliases, w) := by
  simp only [TemplateData.NameAndAliases, hv, hn, bind, Except.bind, pure, Except.pure,
    stringsJoin_name_aliases]

theorem tmpl_HasParent_eq {w : World} {d : Ptr} {v : TemplateData} {n : Command}
    (hv : derefTmpl w d = .ok v) (hn : deref w.cmds v.command = .ok n) :
    TemplateData.HasParent w d = .ok (n.parent.isSome, w) := by
  simp [TemplateData.HasParent, hv, hn, bind, Except.bind, pure, Except.pure,
    Command.hasParent]

theorem tmpl_Parent_root {fuel : Nat} {w : World} {d : Ptr} {v : TemplateData} {n : Command}
    (hv : derefTmpl w d = .ok v) (hn : deref w.cmds v.command = .ok n) (hp : n.parent = none) :
    TemplateData.Parent fuel w d = .error .nilDeref := by
  simp [TemplateData.Parent, hv, hn, hp, bind, Except.bind, Command.toTemplateData]

theorem tmpl_Parent_child {fuel : Nat} {w : World} {d p : Ptr} {v pv : TemplateData}
    {n : Command}
    (hv : derefTmpl w d = .ok v) (hn : deref w.cmds v.command = .ok n) (hp : n.parent = some p)
    (hpv : templateDataOf w.cmds fuel p = .ok pv) :
    TemplateData.Parent fuel w d =
      .ok (w.tmpls.length, { w with tmpls := w.tmpls ++ [pv] }) := by
  simp only [TemplateData.Parent, hv, hn, hp, bind, Except.bind,
    Command.toTemplateData]
  exact newTemplateData_ok_iff.2 ⟨pv, hpv, rfl, rfl⟩

theorem tmpl_Parent_ok {fuel : Nat} {w w1 : World} {d q : Ptr}
    (h : TemplateData.Parent fuel w d = .ok (q, w1)) :
    ∃ pv, q = w.tmpls.length ∧ w1 = { w with tmpls := w.tmpls ++ [pv] } := by
  simp only [TemplateData.Parent, bind, Except.bind] at h
  split at h
  · cases h
  split at h
  · cases h
  rename_i n _
  cases hp : n.parent with
  | none => simp [hp, Command.toTemplateData] at h
  | some p =>
    simp only [hp, Command.toTemplateData] at h
    obtain ⟨pv, _, h1, h2⟩ := newTemplateData_ok_iff.1 h
    exact ⟨pv, h1, h2⟩

theorem tmpl_VisitParents_eq {σ : Type} {fuel : Nat} {w : World} {d : Ptr}
    {v : TemplateData} {chain : List Ptr} (fn : Ptr → σ → σ) (s : σ)
    (hv : derefTmpl w d = .ok v) (hc : parentChain w.cmds v.command chain = true)
    (hf : chain.length < fuel) :
    TemplateData.VisitParents fuel w d fn s =
      .ok (chain.foldl (fun a p => fn p a) s, w) := by
  simp only [TemplateData.VisitParents, hv, bind, Except.bind, pure, Except.pure,
    visitParents_chain fn chain v.command fuel s hc hf]

theorem tmpl_VisitParents_ok {σ : Type} {fuel : Nat} {w w1 : World} {d : Ptr}
    {fn : Ptr → σ → σ} {s s1 : σ}
    (h : TemplateData.VisitParents fuel w d fn s = .ok (s1, w1)) : w1 = w := by
  simp only [TemplateData.VisitParents, bind, Except.bind, pure, Except.pure] at h
  split at h
  · cases h
  split at h
  · cases h
  · cases h; rfl

theorem tmpl_HasParent_ok {w w1 : World} {d : Ptr} {b : Bool}
    (h : TemplateData.HasParent w d = .ok (b, w1)) : w1 = w := by
  simp only [TemplateData.HasParent, bind, Except.bind, pure, Except.pure] at h
  split at h
  · cases h
  split at h
  · cases h
  · cases h; rfl

theorem tmpl_NameAndAliases_ok {w w1 : World} {d : Ptr} {r : String}
    (h : TemplateData.NameAndAliases w d = .ok (r, w1)) : w1 = w := by
  simp only [TemplateData.NameAndAliases, bind, Except.bind, pure, Except.pure] at h
  split at h
  · cases h
  split at h
  · cases h
  · cases h; rfl

theorem tmpl_UsagePadding_ok {w w1 : World} {d : Ptr} {r : Nat}
    (h : TemplateData.UsagePadding w d = .ok (r, w1)) : w1 = w := by
  simp only [TemplateData.UsagePadding, bind, Except.bind, pure, Except.pure] at h
  split at h
  · cases h
  split at h
  · cases h
  split at h
  · cases h; rfl
  split at h
  · cases h
  split at h <;> (cases h; rfl)

theorem tmpl_CommandPathPadding_ok {fuel : Nat} {w w1 : World} {d : Ptr} {r : Nat}
    (h : TemplateData.CommandPathPadding fuel w d = .ok (r, w1)) : w1 = w := by
  simp only [TemplateData.CommandPathPadding, bind, Except.bind, pure, Except.pure] at h
  split at h
  · cases h
  split at h
  · cases h
  split at h
  · cases h; rfl
  split at h
  · cases h
  split at h <;> (cases h; rfl)

theorem tmpl_NamePadding_ok {w w1 : World} {d : Ptr} {r : Nat}
    (h : TemplateData.NamePadding w d = .ok (r, w1)) : w1 = w := by
  simp only [TemplateData.NamePadding, bind, Except.bind, pure, Except.pure] at h
  split at h
  · cases h
  split at h
  · cases h
  split at h
  · cases h; rfl
  split at h
  · cases h
  split at h <;> (cases h; rfl)

/-- What `Commands` writes: the cache of the receiver, and fresh views behind
the existing ones; the tree and every other view stay as they were. -/
theorem tmpl_Commands_frame {fuel : Nat} {w w1 : World} {d : Ptr} {ps : List Ptr}
    (h : TemplateData.Commands fuel w d = .ok (ps, w1)) :
    w1.cmds = w.cmds ∧ w1.docs = w.docs ∧
      (∀ i : Nat, i < w.tmpls.length → i ≠ d → w1.tmpls[i]? = w.tmpls[i]?) ∧
      ∃ v, w.tmpls[d]? = some v ∧ w1.tmpls[d]? = some { v with commands := ps } := by
  obtain ⟨v, hv, hcase⟩ := tmpl_Commands_ok_iff.1 h
  have hd : w.tmpls[d]? = some v := derefTmpl_ok_iff.1 hv
  have hlt : d < w.tmpls.length := lt_length_of_getElem? hd
  rcases hcase with ⟨_, rfl, rfl⟩ | ⟨_, n, vs, _, _, _, rfl⟩
  · exact ⟨rfl, rfl, fun _ _ _ => rfl, v, hd, hd⟩
  · refine ⟨rfl, rfl, ?_, v, hd, ?_⟩
    · intro i hi hne
      simp only
      rw [List.getElem?_set_ne (Ne.symm hne), List.getElem?_append_left hi]
    · simp only
      have hlt2 : d < (w.tmpls ++ vs).length := by
        rw [List.length_append]
        exact Nat.lt_of_lt_of_le hlt (Nat.le_add_right _ _)
      rw [List.getElem?_set_self hlt2]

/-- What the constructor writes: one fresh view behind the existing ones. -/
theorem tmpl_new_frame {fuel : Nat} {w w1 : World} {c p : Ptr}
    (h : newTemplateData fuel w c = .ok (p, w1)) :
    w1.cmds = w.cmds ∧ w1.docs = w.docs ∧
      ∀ i : Nat, i < w.tmpls.length → w1.tmpls[i]? = w.tmpls[i]? := by
  obtain ⟨v, _, _, rfl⟩ := newTemplateData_ok_iff.1 h
  refine ⟨rfl, rfl, fun i hi => ?_⟩
  simp only
  rw [List.getElem?_append_left hi]

theorem tmpl_Parent_frame {fuel : Nat} {w w1 : World} {d q : Ptr}
    (h : TemplateData.Parent fuel w d = .ok (q, w1)) :
    w1.cmds = w.cmds ∧ w1.docs = w.docs ∧
      ∀ i : Nat, i < w.tmpls.length → w1.tmpls[i]? = w.tmpls[i]? := by
  obtain ⟨pv, _, rfl⟩ := tmpl_Parent_ok h
  refine ⟨rfl, rfl, fun i hi => ?_⟩
  simp only
  rw [List.getElem?_append_left hi]

/-- The constructor returns for every viewable node, and the new view holds
the node's values. -/
theorem tmpl_new_ok {fuel : Nat} {w : World} {c : Ptr} {chain : List Ptr}
    (hview : viewable w.cmds c chain = true) (hf : chain.length < fuel) :
    ∃ v, templateDataOf w.cmds fuel c = .ok v ∧
      newTemplateData fuel w c = .ok (w.tmpls.length, { w with tmpls := w.tmpls ++ [v] }) ∧
      derefTmpl { w with tmpls := w.tmpls ++ [v] } w.tmpls.length = .ok v := by
  obtain ⟨v, hv⟩ := templateDataOf_ok hview hf
  refine ⟨v, hv, newTemplateData_ok_iff.2 ⟨v, hv, rfl, rfl⟩, ?_⟩
  rw [derefTmpl_ok_iff]
  simp

/-! ## Further basic facts -/

theorem derefAll_length {t : List Command} :
    ∀ (ps : List Ptr) (ns : List Command), derefAll t ps = .ok ns → ns.length = ps.length
  | [], ns, h => by
    simp only [derefAll, Except.ok.injEq] at h
    subst h
    rfl
  | p :: ps, ns, h => by
    simp only [derefAll] at h
    split at h
    · cases h
    · split at h
      · cases h
      · rename_i ms hms
        simp only [Except.ok.injEq] at h
        rw [← h, List.length_cons, List.length_cons, derefAll_length ps ms hms]

theorem utf8ByteSize_pos_iff (s : String) : 0 < s.utf8ByteSize ↔ s ≠ "" := by
  obtain ⟨cs⟩ := s
  rw [String.utf8ByteSize_mk, Nat.pos_iff_ne_zero, Ne, String.utf8Len_eq_zero]
  constructor
  · intro h he
    exact h (congrArg String.data he)
  · intro h he
    exact h (congrArg String.mk he)

/-- A help topic has no run action, no child, and is not hidden. -/
theorem helpTopic_iff (n : Command) :
    n.IsAdditionalHelpTopicCommand = true ↔
      n.Run = none ∧ n.RunE = none ∧ n.commands = [] ∧ n.Hidden = false ∧
        n.Deprecated = false := by
  simp only [Command.IsAdditionalHelpTopicCommand, Command.runnable]
  cases n.Run <;> cases n.RunE <;> cases n.commands <;> cases n.Hidden <;>
    cases n.Deprecated <;> simp

theorem getLastD_cons_eq {α : Type} (a : α) (l : List α) (b : α) :
    (a :: l).getLastD b = l.getLastD a := by
  cases l <;> rfl

theorem withAliases_getElem? {t : List Command} {c : Ptr} {n : Command} (aliases : List String)
    (h : t[c]? = some n) :
    (withAliases t c aliases)[c]? = some { n with Aliases := aliases } := by
  simp only [withAliases, h]
  rw [List.getElem?_set_self (lt_length_of_getElem? h)]

/-! ## Further facts about `documentation.go` -/

/-- The classification fields of the constructor literal, in terms of the
node and its children. -/
theorem documentationDataOf_flags {t : List Command} {fuel : Nat} {c : Ptr}
    {v : DocumentationData} {n : Command}
    (h : documentationDataOf t fuel c = .ok v) (hn : deref t c = .ok n) :
    ∃ subs, derefAll t n.commands = .ok subs ∧
      v.HasHelpSubCommands = subs.any Command.IsAdditionalHelpTopicCommand ∧
      v.HasAvailableSubCommands =
        subs.any (fun s => !s.Hidden && !s.IsAdditionalHelpTopicCommand) ∧
      v.IsAvailableCommand = (!n.Hidden && !n.Deprecated &&
        (n.runnable || subs.any (fun s => !s.Hidden && !s.IsAdditionalHelpTopicCommand))) := by
  simp only [documentationDataOf, hn, bind, Except.bind, pure, Except.pure,
    Command.hasHelpSubCommands, Command.hasAvailableSubCommands,
    Command.isAvailableCommand] at h
  cases hs : derefAll t n.commands with
  | error e => simp [hs] at h
  | ok subs =>
    simp only [hs] at h
    split at h
    · cases h
    injection h with h
    subst h
    exact ⟨subs, rfl, rfl, rfl, rfl⟩

theorem doc_UsagePadding_ge {w w1 : World} {d : Ptr} {r : Nat}
    (h : DocumentationData.UsagePadding w d = .ok (r, w1)) : minUsagePadding ≤ r := by
  simp only [DocumentationData.UsagePadding, bind, Except.bind, pure, Except.pure] at h
  split at h
  · cases h
  split at h
  · cases h
  split at h
  · cases h; exact Nat.le_refl _
  split at h
  · cases h
  split at h
  · cases h; exact Nat.le_refl _
  · cases h; omega

theorem doc_CommandPathPadding_ge {fuel : Nat} {w w1 : World} {d : Ptr} {r : Nat}
    (h : DocumentationData.CommandPathPadding fuel w d = .ok (r, w1)) :
    minCommandPathPadding ≤ r := by
  simp only [DocumentationData.CommandPathPadding, bind, Except.bind, pure, Except.pure] at h
  split at h
  · cases h
  split at h
  · cases h
  split at h
  · cases h; exact Nat.le_refl _
  split at h
  · cases h
  split at h
  · cases h; exact Nat.le_refl _
  · cases h; omega

theorem doc_NamePadding_ge {w w1 : World} {d : Ptr} {r : Nat}
    (h : DocumentationData.NamePadding w d = .ok (r, w1)) : minNamePadding ≤ r := by
  simp only [DocumentationData.NamePadding, bind, Except.bind, pure, Except.pure] at h
  split at h
  · cases h
  split at h
  · cases h
  split at h
  · cases h; exact Nat.le_refl _
  split at h
  · cases h
  split at h
  · cases h; exact Nat.le_refl _
  · cases h; omega

/-- Views of two nodes with the same parent get the same paddings: after the
nil test, all three methods only look at the parent. -/
theorem doc_padding_same_parent {fuel : Nat} {w : World} {d1 d2 p : Ptr}
    {v1 v2 : DocumentationData} {n1 n2 : Command}
    (hv1 : derefDoc w d1 = .ok v1) (hn1 : deref w.cmds v1.command = .ok n1)
    (hp1 : n1.parent = some p)
    (hv2 : derefDoc w d2 = .ok v2) (hn2 : deref w.cmds v2.command = .ok n2)
    (hp2 : n2.parent = some p) :
    DocumentationData.UsagePadding w d1 = DocumentationData.UsagePadding w d2 ∧
      DocumentationData.CommandPathPadding fuel w d1 =
        DocumentationData.CommandPathPadding fuel w d2 ∧
      DocumentationData.NamePadding w d1 = DocumentationData.NamePadding w d2 := by
  refine ⟨?_, ?_, ?_⟩
  · simp only [DocumentationData.UsagePadding, hv1, hn1, hp1, hv2, hn2, hp2, bind, Except.bind]
  · simp only [DocumentationData.CommandPathPadding, hv1, hn1, hp1, hv2, hn2, hp2, bind,
      Except.bind]
  · simp only [DocumentationData.NamePadding, hv1, hn1, hp1, hv2, hn2, hp2, bind, Except.bind]

/-- Once the cache of `d` holds a non-empty list, every later call returns it
and writes nothing, whatever trees come in between. -/
theorem doc_laterCommands_stable {d : Ptr} {ps : List Ptr} (hne : ps ≠ []) :
    ∀ (ms : List (List Command × Nat)) (w1 : World) (v1 : DocumentationData),
      derefDoc w1 d = .ok v1 → v1.commands = ps →
      doc_laterCommands d w1 ms =
        .ok (ms.map (fun _ => ps), { w1 with cmds := (ms.map Prod.fst).getLastD w1.cmds })
  | [], w1, v1, _, _ => rfl
  | (t, fuel) :: ms, w1, v1, hv1, hc1 => by
    have hv2 : derefDoc { w1 with cmds := t } d = .ok v1 := by
      rw [derefDoc_ok_iff] at hv1 ⊢
      exact hv1
    have hhit := @doc_Commands_hit fuel _ _ _ hv2 (by rw [hc1]; exact hne)
    rw [hc1] at hhit
    have ih := doc_laterCommands_stable hne ms { w1 with cmds := t } v1 hv2 hc1
    simp only [doc_laterCommands, hhit, ih, List.map_cons, getLastD_cons_eq]

/-- A call on a view whose cache is empty scans the tree it is given. -/
theorem doc_Commands_rescan {fuel : Nat} {w : World} {d : Ptr} {v : DocumentationData}
    {n : Command}
    (hv : derefDoc w d = .ok v) (hc : v.commands = []) (hn : deref w.cmds v.command = .ok n)
    (hch : ∀ k ∈ n.commands, ∃ chain, viewable w.cmds k chain = true ∧ chain.length < fuel) :
    ∃ ps w2, DocumentationData.Commands fuel w d = .ok (ps, w2) ∧
      ps.length = n.commands.length := by
  obtain ⟨vs, hvs⟩ := forall₂_of_forall_ok (f := documentationDataOf w.cmds fuel) n.commands
    (fun k hk => by
      obtain ⟨chain, h1, h2⟩ := hch k hk
      exact documentationDataOf_ok h1 h2)
  exact ⟨_, _, doc_Commands_ok_iff.2 ⟨v, hv, Or.inr ⟨hc, n, vs, hn, hvs, rfl, rfl⟩⟩, by simp⟩

/-! ## Further facts about `template.go` -/

/-- The classification fields of the constructor literal, in terms of the
node and its children. -/
theorem templateDataOf_flags {t : List Command} {fuel : Nat} {c : Ptr}
    {v : TemplateData} {n : Command}
    (h : templateDataOf t fuel c = .ok v) (hn : deref t c = .ok n) :
    ∃ subs, derefAll t n.commands = .ok subs ∧
      v.HasHelpSubCommands = subs.any Command.IsAdditionalHelpTopicCommand ∧
      v.HasAvailableSubCommands =
        subs.any (fun s => !s.Hidden && !s.IsAdditionalHelpTopicCommand) ∧
      v.IsAvailableCommand = (!n.Hidden && !n.Deprecated &&
        (n.runnable || subs.any (fun s => !s.Hidden && !s.IsAdditionalHelpTopicCommand))) := by
  simp only [templateDataOf, hn, bind, Except.bind, pure, Except.pure,
    Command.hasHelpSubCommands, Command.hasAvailableSubCommands,
    Command.isAvailableCommand] at h
  cases hs : derefAll t n.commands with
  | error e => simp [hs] at h
  | ok subs =>
    simp only [hs] at h
    split at h
    · cases h
    injection h with h
    subst h
    exact ⟨subs, rfl, rfl, rfl, rfl⟩

theorem tmpl_UsagePadding_ge {w w1 : World} {d : Ptr} {r : Nat}
    (h : TemplateData.UsagePadding w d = .ok (r, w1)) : minUsagePadding ≤ r := by
  simp only [TemplateData.UsagePadding, bind, Except.bind, pure, Except.pure] at h
  split at h
  · cases h
  split at h
  · cases h
  split at h
  · cases h; exact Nat.le_refl _
  split at h
  · cases h
  split at h
  · cases h; exact Nat.le_refl _
  · cases h; omega

theorem tmpl_CommandPathPadding_ge {fuel : Nat} {w w1 : World} {d : Ptr} {r : Nat}
    (h : TemplateData.CommandPathPadding fuel w d = .ok (r, w1)) :
    minCommandPathPadding ≤ r := by
  simp only [TemplateData.CommandPathPadding, bind, Except.bind, pure, Except.pure] at h
  split at h
  · cases h
  split at h
  · cases h
  split at h
  · cases h; exact Nat.le_refl _
  split at h
  · cases h
  split at h
  · cases h; exact Nat.le_refl _
  · cases h; omega

theorem tmpl_NamePadding_ge {w w1 : World} {d : Ptr} {r : Nat}
    (h : TemplateData.NamePadding w d = .ok (r, w1)) : minNamePadding ≤ r := by
  simp only [TemplateData.NamePadding, bind, Except.bind, pure, Except.pure] at h
  split at h
  · cases h
  split at h
  · cases h
  split at h
  · cases h; exact Nat.le_refl _
  split at h
  · cases h
  split at h
  · cases h; exact Nat.le_refl _
  · cases h; omega

/-- Views of two nodes with the same parent get the same paddings: after the
nil test, all three methods only look at the parent. -/
theorem tmpl_padding_same_parent {fuel : Nat} {w : World} {d1 d2 p : Ptr}
    {v1 v2 : TemplateData} {n1 n2 : Command}
    (hv1 : derefTmpl w d1 = .ok v1) (hn1 : deref w.cmds v1.command = .ok n1)
    (hp1 : n1.parent = some p)
    (hv2 : derefTmpl w d2 = .ok v2) (hn2 : deref w.cmds v2.command = .ok n2)
    (hp2 : n2.parent = some p) :
    TemplateData.UsagePadding w d1 = TemplateData.UsagePadding w d2 ∧
      TemplateData.CommandPathPadding fuel w d1 =
        TemplateData.CommandPathPadding fuel w d2 ∧
      TemplateData.NamePadding w d1 = TemplateData.NamePadding w d2 := by
  refine ⟨?_, ?_, ?_⟩
  · simp only [TemplateData.UsagePadding, hv1, hn1, hp1, hv2, hn2, hp2, bind, Except.bind]
  · simp only [TemplateData.CommandPathPadding, hv1, hn1, hp1, hv2, hn2, hp2, bind,
      Except.bind]
  · simp only [TemplateData.NamePadding, hv1, hn1, hp1, hv2, hn2, hp2, bind, Except.bind]

/-- Once the cache of `d` holds a non-empty list, every later call returns it
and writes nothing, whatever trees come in between. -/
theorem tmpl_laterCommands_stable {d : Ptr} {ps : List Ptr} (hne : ps ≠ []) :
    ∀ (ms : List (List Command × Nat)) (w1 : World) (v1 : TemplateData),
      derefTmpl w1 d = .ok v1 → v1.commands = ps →
      tmpl_laterCommands d w1 ms =
        .ok (ms.map (fun _ => ps), { w1 with cmds := (ms.map Prod.fst).getLastD w1.cmds })
  | [], w1, v1, _, _ => rfl
  | (t, fuel) :: ms, w1, v1, hv1, hc1 => by
    have hv2 : derefTmpl { w1 with cmds := t } d = .ok v1 := by
      rw [derefTmpl_ok_iff] at hv1 ⊢
      exact hv1
    have hhit := @tmpl_Commands_hit fuel _ _ _ hv2 (by rw [hc1]; exact hne)
    rw [hc1] at hhit
    have ih := tmpl_laterCommands_stable hne ms { w1 with cmds := t } v1 hv2 hc1
    simp only [tmpl_laterCommands, hhit, ih, List.map_cons, getLastD_cons_eq]

/-- A call on a view whose cache is empty scans the tree it is given. -/
theorem tmpl_Commands_rescan {fuel : Nat} {w : World} {d : Ptr} {v : TemplateData}
    {n : Command}
    (hv : derefTmpl w d = .ok v) (hc : v.commands = []) (hn : deref w.cmds v.command = .ok n)
    (hch : ∀ k ∈ n.commands, ∃ chain, viewable w.cmds k chain = true ∧ chain.length < fuel) :
    ∃ ps w2, TemplateData.Commands fuel w d = .ok (ps, w2) ∧
      ps.length = n.commands.length := by
  obtain ⟨vs, hvs⟩ := forall₂_of_forall_ok (f := templateDataOf w.cmds fuel) n.commands
    (fun k hk => by
      obtain ⟨chain, h1, h2⟩ := hch k hk
      exact templateDataOf_ok h1 h2)
  exact ⟨_, _, tmpl_Commands_ok_iff.2 ⟨v, hv, Or.inr ⟨hc, n, vs, hn, hvs, rfl, rfl⟩⟩, by simp⟩

/-! ## The two view types side by side -/

/-- Both constructors build the same literal, or fault alike. -/
theorem templateDataOf_toDocumentationData (t : List Command) (fuel : Nat) (c : Ptr) :
    (templateDataOf t fuel c).map TemplateData.toDocumentationData =
      documentationDataOf t fuel c := by
  simp only [templateDataOf, documentationDataOf, bind, Except.bind, pure, Except.pure]
  cases deref t c with
  | error e => rfl
  | ok n =>
    dsimp only
    cases Command.hasHelpSubCommands t n with
    | error e => rfl
    | ok b1 =>
      dsimp only
      cases Command.hasAvailableSubCommands t n with
      | error e => rfl
      | ok b2 =>
        dsimp only
        cases Command.isAvailableCommand t n with
        | error e => rfl
        | ok b3 =>
          dsimp only
          cases Command.CommandPath t fuel c with
          | error e => rfl
          | ok s => rfl

theorem derefDoc_of_sameViews {wd wt : World} (h : sameViews wd wt) (d : Ptr) :
    derefDoc wd d = (derefTmpl wt d).map TemplateData.toDocumentationData := by
  unfold derefDoc derefTmpl
  rw [← h.2, List.getElem?_map]
  cases wt.tmpls[d]? <;> rfl

/-- Equal outcomes are equal results in states that agree again. -/
theorem sameViews_of_outcome {α : Type} {r1 r2 : Except Fault (α × World)} {a : α} {w1 : World}
    (h : docOutcome r1 = tmplOutcome r2) (h1 : r1 = .ok (a, w1)) :
    ∃ w2, r2 = .ok (a, w2) ∧ sameViews w1 w2 := by
  subst h1
  cases r2 with
  | error e => simp [docOutcome, tmplOutcome] at h
  | ok x =>
    obtain ⟨b, w2⟩ := x
    simp only [docOutcome, tmplOutcome, Except.ok.injEq, Prod.mk.injEq] at h
    obtain ⟨rfl, hc, hd⟩ := h
    exact ⟨w2, rfl, hc, hd.symm⟩

theorem new_outcome {wd wt : World} (h : sameViews wd wt) (fuel : Nat) (c : Ptr) :
    docOutcome (newDocumentationData fuel wd c) = tmplOutcome (newTemplateData fuel wt c) := by
  simp only [newDocumentationData, newTemplateData, bind, Except.bind, pure, Except.pure,
    ← templateDataOf_toDocumentationData, h.1]
  cases templateDataOf wt.cmds fuel c with
  | error e => rfl
  | ok v =>
    simp only [Except.map, docOutcome, tmplOutcome, h.1, ← h.2, List.map_append, List.map_cons,
      List.map_nil, List.length_map]

theorem newEach_outcome (fuel : Nat) :
    ∀ (cs : List Ptr) (wd wt : World), sameViews wd wt →
      docOutcome (newDocumentationDataEach fuel wd cs) =
        tmplOutcome (newTemplateDataEach fuel wt cs)
  | [], wd, wt, h => by
    simp only [newDocumentationDataEach, newTemplateDataEach, docOutcome, tmplOutcome, h.1, h.2]
  | c :: cs, wd, wt, h => by
    have h1 := new_outcome h fuel c
    simp only [newDocumentationDataEach, newTemplateDataEach]
    cases hr : newDocumentationData fuel wd c with
    | error e =>
      rw [hr] at h1
      cases hr2 : newTemplateData fuel wt c with
      | error e2 =>
        rw [hr2] at h1
        simp only [docOutcome, tmplOutcome, Except.error.injEq] at h1
        subst h1
        rfl
      | ok x =>
        rw [hr2] at h1
        simp [docOutcome, tmplOutcome] at h1
    | ok x =>
      obtain ⟨p, wd1⟩ := x
      obtain ⟨wt1, hr2, hs⟩ := sameViews_of_outcome h1 hr
      rw [hr2]
      simp only
      have h2 := newEach_outcome fuel cs wd1 wt1 hs
      cases hq : newDocumentationDataEach fuel wd1 cs with
      | error e =>
        rw [hq] at h2
        cases hq2 : newTemplateDataEach fuel wt1 cs with
        | error e2 =>
          rw [hq2] at h2
          simp only [docOutcome, tmplOutcome, Except.error.injEq] at h2
          subst h2
          rfl
        | ok y =>
          rw [hq2] at h2
          simp [docOutcome, tmplOutcome] at h2
      | ok y =>
        obtain ⟨ps, wd2⟩ := y
        obtain ⟨wt2, hq2, hs2⟩ := sameViews_of_outcome h2 hq
        rw [hq2]
        simp only [docOutcome, tmplOutcome, hs2.1, hs2.2]

theorem setCommands_sameViews {wd wt : World} (h : sameViews wd wt) (d : Ptr) (ps : List Ptr) :
    sameViews (setDocCommands wd d ps) (setTmplCommands wt d ps) := by
  unfold setDocCommands setTmplCommands
  rw [← h.2, List.getElem?_map]
  cases wt.tmpls[d]? with
  | none => exact ⟨h.1, h.2⟩
  | some x =>
    refine ⟨h.1, ?_⟩
    simp only [Option.map_some', List.map_set]
    rfl

theorem outcome_of_sameViews {α : Type} (a : α) {wd wt : World} (h : sameViews wd wt) :
    docOutcome (.ok (a, wd)) = tmplOutcome (.ok (a, wt)) := by
  simp only [docOutcome, tmplOutcome, h.1, h.2]

theorem Commands_outcome {wd wt : World} (h : sameViews wd wt) (fuel : Nat) (d : Ptr) :
    docOutcome (DocumentationData.Commands fuel wd d) =
      tmplOutcome (TemplateData.Commands fuel wt d) := by
  simp only [DocumentationData.Commands, TemplateData.Commands, bind, Except.bind, pure,
    Except.pure, derefDoc_of_sameViews h, h.1]
  cases derefTmpl wt d with
  | error e => rfl
  | ok v =>
    simp only [Except.map, TemplateData.toDocumentationData]
    split
    · exact outcome_of_sameViews _ h
    · cases Command.Commands wt.cmds v.command with
      | error e => rfl
      | ok cs =>
        simp only
        have h2 := newEach_outcome fuel cs wd wt h
        cases hq : newDocumentationDataEach fuel wd cs with
        | error e =>
          rw [hq] at h2
          cases hq2 : newTemplateDataEach fuel wt cs with
          | error e2 =>
            rw [hq2] at h2
            simp only [docOutcome, tmplOutcome, Except.error.injEq] at h2
            subst h2
            rfl
          | ok y =>
            rw [hq2] at h2
            simp [docOutcome, tmplOutcome] at h2
        | ok y =>
          obtain ⟨ps, wd1⟩ := y
          obtain ⟨wt1, hq2, hs⟩ := sameViews_of_outcome h2 hq
          rw [hq2]
          exact outcome_of_sameViews _ (setCommands_sameViews hs d ps)

theorem HasParent_outcome {wd wt : World} (h : sameViews wd wt) (d : Ptr) :
    docOutcome (DocumentationData.HasParent wd d) =
      tmplOutcome (TemplateData.HasParent wt d) := by
  simp only [DocumentationData.HasParent, TemplateData.HasParent, bind, Except.bind, pure,
    Except.pure, derefDoc_of_sameViews h, h.1]
  cases derefTmpl wt d with
  | error e => rfl
  | ok v =>
    simp only [Except.map, TemplateData.toDocumentationData]
    cases Command.hasParent wt.cmds v.command with
    | error e => rfl
    | ok b => exact outcome_of_sameViews _ h

theorem Parent_outcome {wd wt : World} (h : sameViews wd wt) (fuel : Nat) (d : Ptr) :
    docOutcome (DocumentationData.Parent fuel wd d) =
      tmplOutcome (TemplateData.Parent fuel wt d) := by
  simp only [DocumentationData.Parent, TemplateData.Parent, bind, Except.bind,
    derefDoc_of_sameViews h, h.1]
  cases derefTmpl wt d with
  | error e => rfl
  | ok v =>
    simp only [Except.map, TemplateData.toDocumentationData]
    cases deref wt.cmds v.command with
    | error e => rfl
    | ok n =>
      simp only [Command.toDocumentationData, Command.toTemplateData]
      cases n.parent with
      | none => rfl
      | some p => exact new_outcome h fuel p

theorem VisitParents_outcome {σ : Type} {wd wt : World} (h : sameViews wd wt) (fuel : Nat)
    (d : Ptr) (fn : Ptr → σ → σ) (s : σ) :
    docOutcome (DocumentationData.VisitParents fuel wd d fn s) =
      tmplOutcome (TemplateData.VisitParents fuel wt d fn s) := by
  simp only [DocumentationData.VisitParents, TemplateData.VisitParents, bind, Except.bind, pure,
    Except.pure, derefDoc_of_sameViews h, h.1]
  cases derefTmpl wt d with
  | error e => rfl
  | ok v =>
    simp only [Except.map, TemplateData.toDocumentationData]
    cases Command.visitParents wt.cmds fn fuel v.command s with
    | error e => rfl
    | ok s1 => exact outcome_of_sameViews _ h

theorem NameAndAliases_outcome {wd wt : World} (h : sameViews wd wt) (d : Ptr) :
    docOutcome (DocumentationData.NameAndAliases wd d) =
      tmplOutcome (TemplateData.NameAndAliases wt d) := by
  simp only [DocumentationData.NameAndAliases, TemplateData.NameAndAliases, bind, Except.bind,
    pure, Except.pure, derefDoc_of_sameViews h, h.1]
  cases derefTmpl wt d with
  | error e => rfl
  | ok v =>
    simp only [Except.map, TemplateData.toDocumentationData]
    cases deref wt.cmds v.command with
    | error e => rfl
    | ok n => exact outcome_of_sameViews _ h

theorem UsagePadding_outcome {wd wt : World} (h : sameViews wd wt) (d : Ptr) :
    docOutcome (DocumentationData.UsagePadding wd d) =
      tmplOutcome (TemplateData.UsagePadding wt d) := by
  simp only [DocumentationData.UsagePadding, TemplateData.UsagePadding, bind, Except.bind,
    pure, Except.pure, derefDoc_of_sameViews h, h.1]
  cases derefTmpl wt d with
  | error e => rfl
  | ok v =>
    simp only [Except.map, TemplateData.toDocumentationData]
    cases deref wt.cmds v.command with
    | error e => rfl
    | ok n =>
      simp only
      cases n.parent with
      | none => exact outcome_of_sameViews _ h
      | some p =>
        simp only
        cases Command.getMaxUsageLength wt.cmds p with
        | error e => rfl
        | ok len =>
          simp only
          split <;> exact outcome_of_sameViews _ h

theorem CommandPathPadding_outcome {wd wt : World} (h : sameViews wd wt) (fuel : Nat)
    (d : Ptr) :
    docOutcome (DocumentationData.CommandPathPadding fuel wd d) =
      tmplOutcome (TemplateData.CommandPathPadding fuel wt d) := by
  simp only [DocumentationData.CommandPathPadding, TemplateData.CommandPathPadding, bind,
    Except.bind, pure, Except.pure, derefDoc_of_sameViews h, h.1]
  cases derefTmpl wt d with
  | error e => rfl
  | ok v =>
    simp only [Except.map, TemplateData.toDocumentationData]
    cases deref wt.cmds v.command with
    | error e => rfl
    | ok n =>
      simp only
      cases n.parent with
      | none => exact outcome_of_sameViews _ h
      | some p =>
        simp only
        cases Command.getMaxCommandPathLength wt.cmds fuel p with
        | error e => rfl
        | ok len =>
          simp only
          split <;> exact outcome_of_sameViews _ h

theorem NamePadding_outcome {wd wt : World} (h : sameViews wd wt) (d : Ptr) :
    docOutcome (DocumentationData.NamePadding wd d) =
      tmplOutcome (TemplateData.NamePadding wt d) := by
  simp only [DocumentationData.NamePadding, TemplateData.NamePadding, bind, Except.bind,
    pure, Except.pure, derefDoc_of_sameViews h, h.1]
  cases derefTmpl wt d with
  | error e => rfl
  | ok v =>
    simp only [Except.map, TemplateData.toDocumentationData]
    cases deref wt.cmds v.command with
    | error e => rfl
    | ok n =>
      simp only
      cases n.parent with
      | none => exact outcome_of_sameViews _ h
      | some p =>
        simp only
        cases Command.getMaxNameLength wt.cmds p with
        | error e => rfl
        | ok len =>
          simp only
          split <;> exact outcome_of_sameViews _ h

/-! ## Properties of the views -/

/-- C1, as stated, fails: a view of the childless node `configuration`
returns the empty list on its first `Commands()` call; after the node is given
a child, the second call on the same view scans the tree again and returns a
one-element list.  Both view types behave so. -/
theorem C1_counterexample :
    (do let (p, w1) ← newDocumentationData 3 ⟨exampleTree, [], []⟩ 4
        let (ps1, w2) ← DocumentationData.Commands 3 w1 p
        let (ps2, _) ← DocumentationData.Commands 4 { w2 with cmds := grownTree } p
        pure (ps1, ps2) : Except Fault (List Ptr × List Ptr)) = .ok ([], [1]) ∧
    (do let (p, w1) ← newTemplateData 3 ⟨exampleTree, [], []⟩ 4
        let (ps1, w2) ← TemplateData.Commands 3 w1 p
        let (ps2, _) ← TemplateData.Commands 4 { w2 with cmds := grownTree } p
        pure (ps1, ps2) : Except Fault (List Ptr × List Ptr)) = .ok ([], [1]) := by
  decide

/-- C1, amended: when the node has at least one child at the first
`Commands()` call, the list returned is non-empty and the second call returns
exactly that list from the cache, writing nothing, whatever tree `t2` the
command tree has become in between and whatever the fuel.  When the first call
returned the empty list nothing is cached, and the second call scans again: on
the unchanged state it returns the empty list again. -/
theorem C1_Commands_cached_once_nonempty (fuel : Nat) (w w1 : World) (d : Ptr)
    (ps : List Ptr) (n : Command) :
    (∀ v : DocumentationData, derefDoc w d = .ok v → deref w.cmds v.command = .ok n →
      DocumentationData.Commands fuel w d = .ok (ps, w1) →
      (n.commands ≠ [] → ps ≠ [] ∧ ∀ (t2 : List Command) (fuel2 : Nat),
        DocumentationData.Commands fuel2 { w1 with cmds := t2 } d =
          .ok (ps, { w1 with cmds := t2 })) ∧
      (ps = [] → ∀ fuel2 : Nat,
        ∃ w2, DocumentationData.Commands fuel2 w1 d = .ok ([], w2))) ∧
    (∀ v : TemplateData, derefTmpl w d = .ok v → deref w.cmds v.command = .ok n →
      TemplateData.Commands fuel w d = .ok (ps, w1) →
      (n.commands ≠ [] → ps ≠ [] ∧ ∀ (t2 : List Command) (fuel2 : Nat),
        TemplateData.Commands fuel2 { w1 with cmds := t2 } d =
          .ok (ps, { w1 with cmds := t2 })) ∧
      (ps = [] → ∀ fuel2 : Nat,
        ∃ w2, TemplateData.Commands fuel2 w1 d = .ok ([], w2))) := by
  refine ⟨fun v hv hn h => ⟨fun hne => ?_, (doc_Commands_twice h).2⟩,
    fun v hv hn h => ⟨fun hne => ?_, (tmpl_Commands_twice h).2⟩⟩
  · have hps := doc_Commands_ne_nil hv hn hne h
    exact ⟨hps, (doc_Commands_twice h).1 hps⟩
  · have hps := tmpl_Commands_ne_nil hv hn hne h
    exact ⟨hps, (tmpl_Commands_twice h).1 hps⟩

/-- C1, amended, on the root of the example tree: the first call returns the
three fresh views 5, 6, 7, and the second call returns them again, even with
no fuel and after `configuration` was given a child. -/
theorem C1_Commands_cached_once_nonempty_witness :
    (DocumentationData.Commands 3 exampleWorld 0 = .ok rootCommandsDoc ∧
      rootCommandsDoc.1 = [5, 6, 7] ∧
      DocumentationData.Commands 0 { rootCommandsDoc.2 with cmds := grownTree } 0 =
        .ok (rootCommandsDoc.1, { rootCommandsDoc.2 with cmds := grownTree })) ∧
    (TemplateData.Commands 3 exampleWorld 0 = .ok rootCommandsTmpl ∧
      rootCommandsTmpl.1 = [5, 6, 7] ∧
      TemplateData.Commands 0 { rootCommandsTmpl.2 with cmds := grownTree } 0 =
        .ok (rootCommandsTmpl.1, { rootCommandsTmpl.2 with cmds := grownTree })) :=
  ⟨⟨by decide, by decide,
      (((C1_Commands_cached_once_nonempty 3 exampleWorld rootCommandsDoc.2 0
        rootCommandsDoc.1 adminCmd).1 (exampleDoc 0) (by decide) (by decide) (by decide)).1
        (by decide)).2 grownTree 0⟩,
    ⟨by decide, by decide,
      (((C1_Commands_cached_once_nonempty 3 exampleWorld rootCommandsTmpl.2 0
        rootCommandsTmpl.1 adminCmd).2 (exampleTmpl 0) (by decide) (by decide) (by decide)).1
        (by decide)).2 grownTree 0⟩⟩

/-- C2: on a view freshly constructed from node `c`, the first `Commands()`
call returns; its list is as long as the node's child list, its `i`-th entry
points to the view that the constructor builds from the `i`-th child, and for
a node without children it is the empty list.  (Each child is assumed
viewable: allocated, with allocated children and an ancestor chain shorter
than the fuel.) -/
theorem C2_Commands_first_call (fuel : Nat) (w w1 : World) (c p : Ptr) (n : Command)
    (hn : deref w.cmds c = .ok n)
    (hch : ∀ k ∈ n.commands, ∃ chain, viewable w.cmds k chain = true ∧ chain.length < fuel) :
    (newDocumentationData fuel w c = .ok (p, w1) →
      ∃ ps w2, DocumentationData.Commands fuel w1 p = .ok (ps, w2) ∧
        ps.length = n.commands.length ∧ (n.commands = [] → ps = []) ∧
        ∀ (i : Nat) (hi : i < n.commands.length), ∃ q x, ps[i]? = some q ∧
          derefDoc w2 q = .ok x ∧ documentationDataOf w.cmds fuel n.commands[i] = .ok x) ∧
    (newTemplateData fuel w c = .ok (p, w1) →
      ∃ ps w2, TemplateData.Commands fuel w1 p = .ok (ps, w2) ∧
        ps.length = n.commands.length ∧ (n.commands = [] → ps = []) ∧
        ∀ (i : Nat) (hi : i < n.commands.length), ∃ q x, ps[i]? = some q ∧
          derefTmpl w2 q = .ok x ∧ templateDataOf w.cmds fuel n.commands[i] = .ok x) := by
  constructor
  · intro hnew
    obtain ⟨ps, w2, h, hlen, hall⟩ := doc_Commands_fresh hnew hn hch
    refine ⟨ps, w2, h, hlen, fun hnil => ?_, hall⟩
    rw [hnil] at hlen
    exact List.length_eq_zero.1 hlen
  · intro hnew
    obtain ⟨ps, w2, h, hlen, hall⟩ := tmpl_Commands_fresh hnew hn hch
    refine ⟨ps, w2, h, hlen, fun hnil => ?_, hall⟩
    rw [hnil] at hlen
    exact List.length_eq_zero.1 hlen

/-- Every child of the example root is viewable with fuel 3. -/
theorem admin_children_viewable :
    ∀ k ∈ adminCmd.commands, ∃ chain, viewable exampleTree k chain = true ∧ chain.length < 3 := by
  intro k hk
  refine ⟨[0], ?_, by decide⟩
  have hk2 : k = 1 ∨ k = 2 ∨ k = 3 := by simpa [adminCmd, exampleCommand] using hk
  rcases hk2 with rfl | rfl | rfl <;> decide

/-- C2 on the root of the example tree, viewed in an empty state: the call
returns three views. -/
theorem C2_Commands_first_call_witness :
    (∃ ps w2, DocumentationData.Commands 3
        (valueOf (newDocumentationData 3 ⟨exampleTree, [], []⟩ 0)).2 0 = .ok (ps, w2) ∧
      ps.length = 3) ∧
    (∃ ps w2, TemplateData.Commands 3
        (valueOf (newTemplateData 3 ⟨exampleTree, [], []⟩ 0)).2 0 = .ok (ps, w2) ∧
      ps.length = 3) := by
  constructor
  · obtain ⟨ps, w2, h, hlen, _⟩ := (C2_Commands_first_call 3 ⟨exampleTree, [], []⟩
      (valueOf (newDocumentationData 3 ⟨exampleTree, [], []⟩ 0)).2 0 0 adminCmd (by decide)
      admin_children_viewable).1 (by decide)
    exact ⟨ps, w2, h, hlen⟩
  · obtain ⟨ps, w2, h, hlen, _⟩ := (C2_Commands_first_call 3 ⟨exampleTree, [], []⟩
      (valueOf (newTemplateData 3 ⟨exampleTree, [], []⟩ 0)).2 0 0 adminCmd (by decide)
      admin_children_viewable).2 (by decide)
    exact ⟨ps, w2, h, hlen⟩

/-- C3: for a node whose parent is `p`, `UsagePadding()` returns; with `lens`
the usage-line lengths of the direct children of `p`, the result is the
largest of them when one of them is at least 25, and 25 when all are below 25;
for the lengths 10, 40, 15 it is 40. -/
theorem C3_UsagePadding_sibling_max (w : World) (d p : Ptr) (n pn : Command)
    (subs : List Command) (lens : List Nat)
    (hp : n.parent = some p) (hpn : deref w.cmds p = .ok pn)
    (hsubs : derefAll w.cmds pn.commands = .ok subs)
    (hlens : lens = subs.map (fun x => x.useLine.utf8ByteSize)) :
    (∀ v : DocumentationData, derefDoc w d = .ok v → deref w.cmds v.command = .ok n →
      ∃ r, DocumentationData.UsagePadding w d = .ok (r, w) ∧
        ((∃ l ∈ lens, 25 ≤ l) → r ∈ lens ∧ ∀ l ∈ lens, l ≤ r) ∧
        ((∀ l ∈ lens, l < 25) → r = 25) ∧
        (lens = [10, 40, 15] → r = 40)) ∧
    (∀ v : TemplateData, derefTmpl w d = .ok v → deref w.cmds v.command = .ok n →
      ∃ r, TemplateData.UsagePadding w d = .ok (r, w) ∧
        ((∃ l ∈ lens, 25 ≤ l) → r ∈ lens ∧ ∀ l ∈ lens, l ≤ r) ∧
        ((∀ l ∈ lens, l < 25) → r = 25) ∧
        (lens = [10, 40, 15] → r = 40)) := by
  have key : ((∃ l ∈ lens, 25 ≤ l) →
        max minUsagePadding (largest lens) ∈ lens ∧
          ∀ l ∈ lens, l ≤ max minUsagePadding (largest lens)) ∧
      ((∀ l ∈ lens, l < 25) → max minUsagePadding (largest lens) = 25) ∧
      (lens = [10, 40, 15] → max minUsagePadding (largest lens) = 40) := by
    refine ⟨?_, ?_, ?_⟩
    · rintro ⟨l, hl, h25⟩
      have hle := le_largest hl
      have hmax : max minUsagePadding (largest lens) = largest lens := by
        simp only [minUsagePadding]; omega
      rw [hmax]
      exact ⟨largest_mem (List.ne_nil_of_mem hl), fun _ h => le_largest h⟩
    · intro hall
      by_cases hnil : lens = []
      · subst hnil
        simp [largest, minUsagePadding]
      · have := hall _ (largest_mem hnil)
        simp only [minUsagePadding]; omega
    · intro h
      rw [h]
      decide
  subst hlens
  exact ⟨fun v hv hn => ⟨_, doc_UsagePadding_child hv hn hp hpn hsubs, key⟩,
    fun v hv hn => ⟨_, tmpl_UsagePadding_child hv hn hp hpn hsubs, key⟩⟩

/-- C3 on the example tree: `list`, `remove` and `show` have usage lines of
10, 40 and 15 bytes, and each of the three gets 40; `configuration`, whose
24-byte usage line is the only one among its siblings, gets 25. -/
theorem C3_UsagePadding_sibling_max_witness :
    (DocumentationData.UsagePadding exampleWorld 1 = .ok (40, exampleWorld) ∧
      TemplateData.UsagePadding exampleWorld 1 = .ok (40, exampleWorld)) ∧
    (DocumentationData.UsagePadding exampleWorld 2 = .ok (40, exampleWorld) ∧
      TemplateData.UsagePadding exampleWorld 3 = .ok (40, exampleWorld)) ∧
    (DocumentationData.UsagePadding exampleWorld 4 = .ok (25, exampleWorld) ∧
      TemplateData.UsagePadding exampleWorld 4 = .ok (25, exampleWorld)) := by
  have h1 := C3_UsagePadding_sibling_max exampleWorld 1 0 listCmd adminCmd
    [listCmd, removeCmd, showCmd] [10, 40, 15] (by decide) (by decide) (by decide) (by decide)
  have h2 := C3_UsagePadding_sibling_max exampleWorld 2 0 removeCmd adminCmd
    [listCmd, removeCmd, showCmd] [10, 40, 15] (by decide) (by decide) (by decide) (by decide)
  have h3 := C3_UsagePadding_sibling_max exampleWorld 3 0 showCmd adminCmd
    [listCmd, removeCmd, showCmd] [10, 40, 15] (by decide) (by decide) (by decide) (by decide)
  have h4 := C3_UsagePadding_sibling_max exampleWorld 4 3 configurationCmd showCmd
    [configurationCmd] [24] (by decide) (by decide) (by decide) (by decide)
  refine ⟨⟨?_, ?_⟩, ⟨?_, ?_⟩, ⟨?_, ?_⟩⟩
  · obtain ⟨r, hr, _, _, h40⟩ := h1.1 (exampleDoc 1) (by decide) (by decide)
    rw [hr, h40 rfl]
  · obtain ⟨r, hr, _, _, h40⟩ := h1.2 (exampleTmpl 1) (by decide) (by decide)
    rw [hr, h40 rfl]
  · obtain ⟨r, hr, _, _, h40⟩ := h2.1 (exampleDoc 2) (by decide) (by decide)
    rw [hr, h40 rfl]
  · obtain ⟨r, hr, _, _, h40⟩ := h3.2 (exampleTmpl 3) (by decide) (by decide)
    rw [hr, h40 rfl]
  · obtain ⟨r, hr, _, h25, _⟩ := h4.1 (exampleDoc 4) (by decide) (by decide)
    rw [hr, h25 (by decide)]
  · obtain ⟨r, hr, _, h25, _⟩ := h4.2 (exampleTmpl 4) (by decide) (by decide)
    rw [hr, h25 (by decide)]

/-- C4: for a node whose parent is `p`, `CommandPathPadding()` is
`max 11 m` with `m` the largest command-path length among the direct children
of `p`, and `NamePadding()` is `max 11 m` with `m` the largest name length
among them: the sibling maximum when it reaches 11, and 11 otherwise.  Only
the children of `p` enter the result. -/
theorem C4_path_and_name_padding_sibling_max (fuel : Nat) (w : World) (d p : Ptr)
    (n pn : Command) (subs : List Command) (paths : List String) (plens nlens : List Nat)
    (hp : n.parent = some p) (hpn : deref w.cmds p = .ok pn)
    (hsubs : derefAll w.cmds pn.commands = .ok subs)
    (hpaths : commandPaths w.cmds fuel pn.commands = .ok paths)
    (hplens : plens = paths.map String.utf8ByteSize)
    (hnlens : nlens = subs.map (fun x => x.Name.utf8ByteSize)) :
    (∀ l ∈ plens, l ≤ largest plens) ∧ (plens ≠ [] → largest plens ∈ plens) ∧
    (∀ l ∈ nlens, l ≤ largest nlens) ∧ (nlens ≠ [] → largest nlens ∈ nlens) ∧
    (∀ v : DocumentationData, derefDoc w d = .ok v → deref w.cmds v.command = .ok n →
      DocumentationData.CommandPathPadding fuel w d = .ok (max 11 (largest plens), w) ∧
      DocumentationData.NamePadding w d = .ok (max 11 (largest nlens), w)) ∧
    (∀ v : TemplateData, derefTmpl w d = .ok v → deref w.cmds v.command = .ok n →
      TemplateData.CommandPathPadding fuel w d = .ok (max 11 (largest plens), w) ∧
      TemplateData.NamePadding w d = .ok (max 11 (largest nlens), w)) := by
  subst hplens hnlens
  exact ⟨fun _ h => le_largest h, largest_mem, fun _ h => le_largest h, largest_mem,
    fun v hv hn => ⟨doc_CommandPathPadding_child hv hn hp hpn hpaths,
      doc_NamePadding_child hv hn hp hpn hsubs⟩,
    fun v hv hn => ⟨tmpl_CommandPathPadding_child hv hn hp hpn hpaths,
      tmpl_NamePadding_child hv hn hp hpn hsubs⟩⟩

/-- C4 on the example tree, for the view of `list`: the sibling paths
`admin list`, `admin remove`, `admin show` give 12; the sibling names give 6,
so the name padding is 11, although the grandchild `configuration` has a
13-byte name and a 24-byte path. -/
theorem C4_path_and_name_padding_sibling_max_witness :
    (DocumentationData.CommandPathPadding 3 exampleWorld 1 = .ok (12, exampleWorld) ∧
      DocumentationData.NamePadding exampleWorld 1 = .ok (11, exampleWorld)) ∧
    (TemplateData.CommandPathPadding 3 exampleWorld 1 = .ok (12, exampleWorld) ∧
      TemplateData.NamePadding exampleWorld 1 = .ok (11, exampleWorld)) := by
  have h := C4_path_and_name_padding_sibling_max 3 exampleWorld 1 0 listCmd adminCmd
    [listCmd, removeCmd, showCmd] ["admin list", "admin remove", "admin show"] [10, 12, 10]
    [4, 6, 4] (by decide) (by decide) (by decide) (by decide) (by decide) (by decide)
  exact ⟨h.2.2.2.2.1 (exampleDoc 1) (by decide) (by decide),
    h.2.2.2.2.2 (exampleTmpl 1) (by decide) (by decide)⟩

/-- C5: on a view of a node whose parent is nil, `UsagePadding()` is 25,
`CommandPathPadding()` is 11 and `NamePadding()` is 11, whatever the node's
name, usage line, path and children, and with any fuel. -/
theorem C5_root_padding (fuel : Nat) (w : World) (d : Ptr) (n : Command)
    (hp : n.parent = none) :
    (∀ v : DocumentationData, derefDoc w d = .ok v → deref w.cmds v.command = .ok n →
      DocumentationData.UsagePadding w d = .ok (25, w) ∧
      DocumentationData.CommandPathPadding fuel w d = .ok (11, w) ∧
      DocumentationData.NamePadding w d = .ok (11, w)) ∧
    (∀ v : TemplateData, derefTmpl w d = .ok v → deref w.cmds v.command = .ok n →
      TemplateData.UsagePadding w d = .ok (25, w) ∧
      TemplateData.CommandPathPadding fuel w d = .ok (11, w) ∧
      TemplateData.NamePadding w d = .ok (11, w)) :=
  ⟨fun _ hv hn => ⟨doc_UsagePadding_root hv hn hp, doc_CommandPathPadding_root hv hn hp,
      doc_NamePadding_root hv hn hp⟩,
    fun _ hv hn => ⟨tmpl_UsagePadding_root hv hn hp, tmpl_CommandPathPadding_root hv hn hp,
      tmpl_NamePadding_root hv hn hp⟩⟩

/-- C5 on the root `admin` of the example tree, whose children have usage
lines up to 40 bytes. -/
theorem C5_root_padding_witness :
    (DocumentationData.UsagePadding exampleWorld 0 = .ok (25, exampleWorld) ∧
      DocumentationData.CommandPathPadding 0 exampleWorld 0 = .ok (11, exampleWorld) ∧
      DocumentationData.NamePadding exampleWorld 0 = .ok (11, exampleWorld)) ∧
    (TemplateData.UsagePadding exampleWorld 0 = .ok (25, exampleWorld) ∧
      TemplateData.CommandPathPadding 0 exampleWorld 0 = .ok (11, exampleWorld) ∧
      TemplateData.NamePadding exampleWorld 0 = .ok (11, exampleWorld)) :=
  ⟨(C5_root_padding 0 exampleWorld 0 adminCmd (by decide)).1 (exampleDoc 0) (by decide)
      (by decide),
    (C5_root_padding 0 exampleWorld 0 adminCmd (by decide)).2 (exampleTmpl 0) (by decide)
      (by decide)⟩

/-- C6: on a view of a node with name `n` and aliases `a1, ..., ak`,
`NameAndAliases()` returns `n` followed by `", " ++ ai` for each alias in
order: `n` alone when there is no alias, and `list, ls, ll` for the name
`list` with the aliases `ls`, `ll`.  With the node as it was at construction,
that is the text made of the view's own `Name` and `Aliases`. -/
theorem C6_NameAndAliases (w : World) (d : Ptr) (n : Command) :
    (∀ v : DocumentationData, derefDoc w d = .ok v → deref w.cmds v.command = .ok n →
      DocumentationData.NameAndAliases w d = .ok (nameThenAliases n.Name n.Aliases, w) ∧
      (n.Aliases = [] → DocumentationData.NameAndAliases w d = .ok (n.Name, w)) ∧
      (n.Name = "list" → n.Aliases = ["ls", "ll"] →
        DocumentationData.NameAndAliases w d = .ok ("list, ls, ll", w)) ∧
      (∀ fuel : Nat, documentationDataOf w.cmds fuel v.command = .ok { v with commands := [] } →
        DocumentationData.NameAndAliases w d = .ok (nameThenAliases v.Name v.Aliases, w))) ∧
    (∀ v : TemplateData, derefTmpl w d = .ok v → deref w.cmds v.command = .ok n →
      TemplateData.NameAndAliases w d = .ok (nameThenAliases n.Name n.Aliases, w) ∧
      (n.Aliases = [] → TemplateData.NameAndAliases w d = .ok (n.Name, w)) ∧
      (n.Name = "list" → n.Aliases = ["ls", "ll"] →
        TemplateData.NameAndAliases w d = .ok ("list, ls, ll", w)) ∧
      (∀ fuel : Nat, templateDataOf w.cmds fuel v.command = .ok { v with commands := [] } →
        TemplateData.NameAndAliases w d = .ok (nameThenAliases v.Name v.Aliases, w))) := by
  have hnil : n.Aliases = [] → nameThenAliases n.Name n.Aliases = n.Name := by
    intro h
    rw [h]
    simp [nameThenAliases, aliasSuffix]
  have hex : n.Name = "list" → n.Aliases = ["ls", "ll"] →
      nameThenAliases n.Name n.Aliases = "list, ls, ll" := by
    intro h1 h2
    rw [h1, h2]
    decide
  refine ⟨fun v hv hn => ?_, fun v hv hn => ?_⟩
  · have h := doc_NameAndAliases_eq hv hn
    refine ⟨h, fun h0 => ?_, fun h1 h2 => ?_, fun fuel hlit => ?_⟩
    · rw [h, hnil h0]
    · rw [h, hex h1 h2]
    · obtain ⟨h1, _, _, _, h5, _⟩ := documentationDataOf_fields hlit hn
      simp only at h1 h5
      rw [h, h1, h5]
  · have h := tmpl_NameAndAliases_eq hv hn
    refine ⟨h, fun h0 => ?_, fun h1 h2 => ?_, fun fuel hlit => ?_⟩
    · rw [h, hnil h0]
    · rw [h, hex h1 h2]
    · obtain ⟨h1, _, _, _, h5, _⟩ := templateDataOf_fields hlit hn
      simp only at h1 h5
      rw [h, h1, h5]

/-- C6 on the views of `list` (aliases `ls`, `ll`) and of `show` (no alias)
in the example state. -/
theorem C6_NameAndAliases_witness :
    (DocumentationData.NameAndAliases exampleWorld 1 = .ok ("list, ls, ll", exampleWorld) ∧
      DocumentationData.NameAndAliases exampleWorld 3 = .ok ("show", exampleWorld)) ∧
    (TemplateData.NameAndAliases exampleWorld 1 = .ok ("list, ls, ll", exampleWorld) ∧
      TemplateData.NameAndAliases exampleWorld 3 = .ok ("show", exampleWorld)) :=
  ⟨⟨((C6_NameAndAliases exampleWorld 1 listCmd).1 (exampleDoc 1) (by decide) (by decide)).2.2.1
        (by decide) (by decide),
      ((C6_NameAndAliases exampleWorld 3 showCmd).1 (exampleDoc 3) (by decide) (by decide)).2.1
        (by decide)⟩,
    ⟨((C6_NameAndAliases exampleWorld 1 listCmd).2 (exampleTmpl 1) (by decide) (by decide)).2.2.1
        (by decide) (by decide),
      ((C6_NameAndAliases exampleWorld 3 showCmd).2 (exampleTmpl 3) (by decide) (by decide)).2.1
        (by decide)⟩⟩

/-- C7: `HasParent()` returns whether the node's parent is non-nil.  When the
parent is nil, `Parent()` faults with the nil dereference.  When the parent is
`p` (a viewable node, its depth below the fuel), `Parent()` returns a pointer
to the view the constructor builds from `p`; a second call returns another
pointer to an equal view, and the first view is still there. -/
theorem C7_HasParent_Parent (fuel : Nat) (w : World) (d : Ptr) (n : Command) :
    (∀ v : DocumentationData, derefDoc w d = .ok v → deref w.cmds v.command = .ok n →
      DocumentationData.HasParent w d = .ok (n.parent.isSome, w) ∧
      (n.parent = none → DocumentationData.Parent fuel w d = .error .nilDeref) ∧
      (∀ (p : Ptr) (chain : List Ptr), n.parent = some p → viewable w.cmds p chain = true →
        chain.length < fuel →
        ∃ pv q1 w1 q2 w2, documentationDataOf w.cmds fuel p = .ok pv ∧
          DocumentationData.Parent fuel w d = .ok (q1, w1) ∧ derefDoc w1 q1 = .ok pv ∧
          DocumentationData.Parent fuel w1 d = .ok (q2, w2) ∧ derefDoc w2 q2 = .ok pv ∧
          derefDoc w2 q1 = .ok pv ∧ q1 ≠ q2)) ∧
    (∀ v : TemplateData, derefTmpl w d = .ok v → deref w.cmds v.command = .ok n →
      TemplateData.HasParent w d = .ok (n.parent.isSome, w) ∧
      (n.parent = none → TemplateData.Parent fuel w d = .error .nilDeref) ∧
      (∀ (p : Ptr) (chain : List Ptr), n.parent = some p → viewable w.cmds p chain = true →
        chain.length < fuel →
        ∃ pv q1 w1 q2 w2, templateDataOf w.cmds fuel p = .ok pv ∧
          TemplateData.Parent fuel w d = .ok (q1, w1) ∧ derefTmpl w1 q1 = .ok pv ∧
          TemplateData.Parent fuel w1 d = .ok (q2, w2) ∧ derefTmpl w2 q2 = .ok pv ∧
          derefTmpl w2 q1 = .ok pv ∧ q1 ≠ q2)) := by
  constructor
  · intro v hv hn
    refine ⟨doc_HasParent_eq hv hn, doc_Parent_root hv hn, fun p chain hp hview hf => ?_⟩
    obtain ⟨pv, hpv⟩ := documentationDataOf_ok hview hf
    have hlt : d < w.docs.length := lt_length_of_getElem? (derefDoc_ok_iff.1 hv)
    have hv1 : derefDoc { w with docs := w.docs ++ [pv] } d = .ok v := by
      rw [derefDoc_ok_iff] at hv ⊢
      simp only
      rw [List.getElem?_append_left hlt]
      exact hv
    refine ⟨pv, _, _, _, _, hpv, doc_Parent_child hv hn hp hpv, ?_,
      doc_Parent_child (w := { w with docs := w.docs ++ [pv] }) hv1 hn hp hpv, ?_, ?_, ?_⟩
    · rw [derefDoc_ok_iff]
      exact List.getElem?_concat_length _ _
    · rw [derefDoc_ok_iff]
      exact List.getElem?_concat_length _ _
    · rw [derefDoc_ok_iff]
      exact snoc_snoc_getElem? _ _ _
    · exact Nat.ne_of_lt (by simp)
  · intro v hv hn
    refine ⟨tmpl_HasParent_eq hv hn, tmpl_Parent_root hv hn, fun p chain hp hview hf => ?_⟩
    obtain ⟨pv, hpv⟩ := templateDataOf_ok hview hf
    have hlt : d < w.tmpls.length := lt_length_of_getElem? (derefTmpl_ok_iff.1 hv)
    have hv1 : derefTmpl { w with tmpls := w.tmpls ++ [pv] } d = .ok v := by
      rw [derefTmpl_ok_iff] at hv ⊢
      simp only
      rw [List.getElem?_append_left hlt]
      exact hv
    refine ⟨pv, _, _, _, _, hpv, tmpl_Parent_child hv hn hp hpv, ?_,
      tmpl_Parent_child (w := { w with tmpls := w.tmpls ++ [pv] }) hv1 hn hp hpv, ?_, ?_, ?_⟩
    · rw [derefTmpl_ok_iff]
      exact List.getElem?_concat_length _ _
    · rw [derefTmpl_ok_iff]
      exact List.getElem?_concat_length _ _
    · rw [derefTmpl_ok_iff]
      exact snoc_snoc_getElem? _ _ _
    · exact Nat.ne_of_lt (by simp)

/-- C7 on the example state: the view of the root has no parent and faults
on `Parent()`; the view of `show` has one. -/
theorem C7_HasParent_Parent_witness :
    (DocumentationData.HasParent exampleWorld 0 = .ok (false, exampleWorld) ∧
      DocumentationData.Parent 3 exampleWorld 0 = .error .nilDeref ∧
      DocumentationData.HasParent exampleWorld 3 = .ok (true, exampleWorld)) ∧
    (TemplateData.HasParent exampleWorld 0 = .ok (false, exampleWorld) ∧
      TemplateData.Parent 3 exampleWorld 0 = .error .nilDeref ∧
      TemplateData.HasParent exampleWorld 3 = .ok (true, exampleWorld)) :=
  ⟨⟨((C7_HasParent_Parent 3 exampleWorld 0 adminCmd).1 (exampleDoc 0) (by decide)
        (by decide)).1,
      ((C7_HasParent_Parent 3 exampleWorld 0 adminCmd).1 (exampleDoc 0) (by decide)
        (by decide)).2.1 (by decide),
      ((C7_HasParent_Parent 3 exampleWorld 3 showCmd).1 (exampleDoc 3) (by decide)
        (by decide)).1⟩,
    ⟨((C7_HasParent_Parent 3 exampleWorld 0 adminCmd).2 (exampleTmpl 0) (by decide)
        (by decide)).1,
      ((C7_HasParent_Parent 3 exampleWorld 0 adminCmd).2 (exampleTmpl 0) (by decide)
        (by decide)).2.1 (by decide),
      ((C7_HasParent_Parent 3 exampleWorld 3 showCmd).2 (exampleTmpl 3) (by decide)
        (by decide)).1⟩⟩

/-- C8: for a view of a node whose ancestor chain is `chain` (so its depth is
`chain.length`), with fuel beyond the depth, `VisitParents` returns, having
applied the visitor to the entries of `chain` in order, nearest ancestor
first and root last; the recording visitor sees exactly `chain`, which has no
repetition and does not contain the node itself; the state is unchanged. -/
theorem C8_VisitParents_ancestors (fuel : Nat) (w : World) (d c : Ptr) (chain : List Ptr)
    (hc : parentChain w.cmds c chain = true) (hf : chain.length < fuel) :
    c ∉ chain ∧ chain.Nodup ∧
    (∀ v : DocumentationData, derefDoc w d = .ok v → v.command = c →
      (∀ (σ : Type) (fn : Ptr → σ → σ) (s : σ),
        DocumentationData.VisitParents fuel w d fn s =
          .ok (chain.foldl (fun a p => fn p a) s, w)) ∧
      DocumentationData.VisitParents fuel w d recordVisit [] = .ok (chain, w)) ∧
    (∀ v : TemplateData, derefTmpl w d = .ok v → v.command = c →
      (∀ (σ : Type) (fn : Ptr → σ → σ) (s : σ),
        TemplateData.VisitParents fuel w d fn s =
          .ok (chain.foldl (fun a p => fn p a) s, w)) ∧
      TemplateData.VisitParents fuel w d recordVisit [] = .ok (chain, w)) := by
  refine ⟨parentChain_not_mem hc, parentChain_nodup chain c hc, ?_, ?_⟩
  · intro v hv hvc
    subst hvc
    refine ⟨fun σ fn s => doc_VisitParents_eq fn s hv hc hf, ?_⟩
    rw [doc_VisitParents_eq recordVisit [] hv hc hf, foldl_recordVisit]
    simp
  · intro v hv hvc
    subst hvc
    refine ⟨fun σ fn s => tmpl_VisitParents_eq fn s hv hc hf, ?_⟩
    rw [tmpl_VisitParents_eq recordVisit [] hv hc hf, foldl_recordVisit]
    simp

/-- C8 on the example state: `configuration`, three levels deep, has its two
ancestors `show` and `admin` visited in that order; the root has none. -/
theorem C8_VisitParents_ancestors_witness :
    (DocumentationData.VisitParents 3 exampleWorld 4 recordVisit [] =
        .ok ([3, 0], exampleWorld) ∧
      DocumentationData.VisitParents 3 exampleWorld 0 recordVisit [] =
        .ok ([], exampleWorld)) ∧
    (TemplateData.VisitParents 3 exampleWorld 4 recordVisit [] = .ok ([3, 0], exampleWorld) ∧
      TemplateData.VisitParents 3 exampleWorld 0 recordVisit [] = .ok ([], exampleWorld)) :=
  ⟨⟨((C8_VisitParents_ancestors 3 exampleWorld 4 4 [3, 0] (by decide) (by decide)).2.2.1
        (exampleDoc 4) (by decide) (by decide)).2,
      ((C8_VisitParents_ancestors 3 exampleWorld 0 0 [] (by decide) (by decide)).2.2.1
        (exampleDoc 0) (by decide) (by decide)).2⟩,
    ⟨((C8_VisitParents_ancestors 3 exampleWorld 4 4 [3, 0] (by decide) (by decide)).2.2.2
        (exampleTmpl 4) (by decide) (by decide)).2,
      ((C8_VisitParents_ancestors 3 exampleWorld 0 0 [] (by decide) (by decide)).2.2.2
        (exampleTmpl 0) (by decide) (by decide)).2⟩⟩

/-- C9: whenever an operation of a view returns, the command tree of the
resulting state is the tree it started from: every node, with its name, alias
list, parent link and ordered child list, is unchanged.  The constructor and
`Parent()` only allocate a fresh view behind the existing ones; `HasParent`,
`VisitParents`, `NameAndAliases` and the three paddings leave the whole state
as it was; `Commands()` alone writes to an existing view, and only the cache
of its receiver. -/
theorem C9_tree_unchanged (fuel : Nat) (w w1 : World) (d : Ptr) :
    ((∀ p, newDocumentationData fuel w d = .ok (p, w1) →
        w1.cmds = w.cmds ∧ w1.tmpls = w.tmpls ∧
          ∀ i : Nat, i < w.docs.length → w1.docs[i]? = w.docs[i]?) ∧
      (∀ q, DocumentationData.Parent fuel w d = .ok (q, w1) →
        w1.cmds = w.cmds ∧ w1.tmpls = w.tmpls ∧
          ∀ i : Nat, i < w.docs.length → w1.docs[i]? = w.docs[i]?) ∧
      (∀ ps, DocumentationData.Commands fuel w d = .ok (ps, w1) →
        w1.cmds = w.cmds ∧ w1.tmpls = w.tmpls ∧
          (∀ i : Nat, i < w.docs.length → i ≠ d → w1.docs[i]? = w.docs[i]?) ∧
          ∃ v, w.docs[d]? = some v ∧ w1.docs[d]? = some { v with commands := ps }) ∧
      (∀ b, DocumentationData.HasParent w d = .ok (b, w1) → w1 = w) ∧
      (∀ (σ : Type) (fn : Ptr → σ → σ) (s s1 : σ),
        DocumentationData.VisitParents fuel w d fn s = .ok (s1, w1) → w1 = w) ∧
      (∀ r, DocumentationData.NameAndAliases w d = .ok (r, w1) → w1 = w) ∧
      (∀ r, DocumentationData.UsagePadding w d = .ok (r, w1) → w1 = w) ∧
      (∀ r, DocumentationData.CommandPathPadding fuel w d = .ok (r, w1) → w1 = w) ∧
      (∀ r, DocumentationData.NamePadding w d = .ok (r, w1) → w1 = w)) ∧
    ((∀ p, newTemplateData fuel w d = .ok (p, w1) →
        w1.cmds = w.cmds ∧ w1.docs = w.docs ∧
          ∀ i : Nat, i < w.tmpls.length → w1.tmpls[i]? = w.tmpls[i]?) ∧
      (∀ q, TemplateData.Parent fuel w d = .ok (q, w1) →
        w1.cmds = w.cmds ∧ w1.docs = w.docs ∧
          ∀ i : Nat, i < w.tmpls.length → w1.tmpls[i]? = w.tmpls[i]?) ∧
      (∀ ps, TemplateData.Commands fuel w d = .ok (ps, w1) →
        w1.cmds = w.cmds ∧ w1.docs = w.docs ∧
          (∀ i : Nat, i < w.tmpls.length → i ≠ d → w1.tmpls[i]? = w.tmpls[i]?) ∧
          ∃ v, w.tmpls[d]? = some v ∧ w1.tmpls[d]? = some { v with commands := ps }) ∧
      (∀ b, TemplateData.HasParent w d = .ok (b, w1) → w1 = w) ∧
      (∀ (σ : Type) (fn : Ptr → σ → σ) (s s1 : σ),
        TemplateData.VisitParents fuel w d fn s = .ok (s1, w1) → w1 = w) ∧
      (∀ r, TemplateData.NameAndAliases w d = .ok (r, w1) → w1 = w) ∧
      (∀ r, TemplateData.UsagePadding w d = .ok (r, w1) → w1 = w) ∧
      (∀ r, TemplateData.CommandPathPadding fuel w d = .ok (r, w1) → w1 = w) ∧
      (∀ r, TemplateData.NamePadding w d = .ok (r, w1) → w1 = w)) :=
  ⟨⟨fun _ h => doc_new_frame h, fun _ h => doc_Parent_frame h, fun _ h => doc_Commands_frame h,
      fun _ h => doc_HasParent_ok h, fun _ _ _ _ h => doc_VisitParents_ok h,
      fun _ h => doc_NameAndAliases_ok h, fun _ h => doc_UsagePadding_ok h,
      fun _ h => doc_CommandPathPadding_ok h, fun _ h => doc_NamePadding_ok h⟩,
    ⟨fun _ h => tmpl_new_frame h, fun _ h => tmpl_Parent_frame h,
      fun _ h => tmpl_Commands_frame h,
      fun _ h => tmpl_HasParent_ok h, fun _ _ _ _ h => tmpl_VisitParents_ok h,
      fun _ h => tmpl_NameAndAliases_ok h, fun _ h => tmpl_UsagePadding_ok h,
      fun _ h => tmpl_CommandPathPadding_ok h, fun _ h => tmpl_NamePadding_ok h⟩⟩

/-- C9 on the example state: after the first `Commands()` call on the root
view, which allocates three views and fills the cache, the tree is the
example tree still. -/
theorem C9_tree_unchanged_witness :
    (rootCommandsDoc.2.cmds = exampleTree ∧ rootCommandsDoc.2.docs.length = 8 ∧
      rootCommandsDoc.2.tmpls = exampleWorld.tmpls) ∧
    (rootCommandsTmpl.2.cmds = exampleTree ∧ rootCommandsTmpl.2.tmpls.length = 8 ∧
      rootCommandsTmpl.2.docs = exampleWorld.docs) :=
  ⟨⟨((C9_tree_unchanged 3 exampleWorld rootCommandsDoc.2 0).1.2.2.1 rootCommandsDoc.1
        (by decide)).1,
      by decide,
      ((C9_tree_unchanged 3 exampleWorld rootCommandsDoc.2 0).1.2.2.1 rootCommandsDoc.1
        (by decide)).2.1⟩,
    ⟨((C9_tree_unchanged 3 exampleWorld rootCommandsTmpl.2 0).2.2.2.1 rootCommandsTmpl.1
        (by decide)).1,
      by decide,
      ((C9_tree_unchanged 3 exampleWorld rootCommandsTmpl.2 0).2.2.2.1 rootCommandsTmpl.1
        (by decide)).2.1⟩⟩

/-- C10: for a viewable node `c` and fuel beyond its depth, the constructor
returns, and the view it allocates has `Name`, `Short`, `Long`, `Version` and
`Aliases` equal to the node's name, short text, long text, version and alias
list (the same list, so the same elements in the same order). -/
theorem C10_constructor_copies (fuel : Nat) (w : World) (c : Ptr) (n : Command)
    (chain : List Ptr) (hn : deref w.cmds c = .ok n)
    (hview : viewable w.cmds c chain = true) (hf : chain.length < fuel) :
    (∃ p w1 v, newDocumentationData fuel w c = .ok (p, w1) ∧ derefDoc w1 p = .ok v ∧
      v.Name = n.Name ∧ v.Short = n.Short ∧ v.Long = n.Long ∧ v.Version = n.Version ∧
      v.Aliases = n.Aliases) ∧
    (∃ p w1 v, newTemplateData fuel w c = .ok (p, w1) ∧ derefTmpl w1 p = .ok v ∧
      v.Name = n.Name ∧ v.Short = n.Short ∧ v.Long = n.Long ∧ v.Version = n.Version ∧
      v.Aliases = n.Aliases) := by
  constructor
  · obtain ⟨v, hv, hnew, hd⟩ := doc_new_ok (w := w) hview hf
    obtain ⟨h1, h2, h3, h4, h5, _⟩ := documentationDataOf_fields hv hn
    exact ⟨_, _, v, hnew, hd, h1, h2, h3, h4, h5⟩
  · obtain ⟨v, hv, hnew, hd⟩ := tmpl_new_ok (w := w) hview hf
    obtain ⟨h1, h2, h3, h4, h5, _⟩ := templateDataOf_fields hv hn
    exact ⟨_, _, v, hnew, hd, h1, h2, h3, h4, h5⟩

/-- C10 on the node `list` of the example tree: the fresh view has the name
`list` and the aliases `ls`, `ll`. -/
theorem C10_constructor_copies_witness :
    (∃ p w1 v, newDocumentationData 2 exampleWorld 1 = .ok (p, w1) ∧ derefDoc w1 p = .ok v ∧
      v.Name = "list" ∧ v.Aliases = ["ls", "ll"]) ∧
    (∃ p w1 v, newTemplateData 2 exampleWorld 1 = .ok (p, w1) ∧ derefTmpl w1 p = .ok v ∧
      v.Name = "list" ∧ v.Aliases = ["ls", "ll"]) := by
  have h := C10_constructor_copies 2 exampleWorld 1 listCmd [0] (by decide) (by decide)
    (by decide)
  obtain ⟨⟨p, w1, v, h1, h2, h3, _, _, _, h4⟩, ⟨q, u1, x, k1, k2, k3, _, _, _, k4⟩⟩ := h
  exact ⟨⟨p, w1, v, h1, h2, h3, h4⟩, ⟨q, u1, x, k1, k2, k3, k4⟩⟩

/-- C11: the constructor returns for every viewable node, and in the view it
builds `IsAdditionalHelpTopicCommand` is true only if the node has no child,
no run action of either kind and is not hidden; it is false whenever the node
has a child, and whenever it has a run action. -/
theorem C11_help_topic_only_leaf (fuel : Nat) (w : World) (c : Ptr) (n : Command)
    (chain : List Ptr) (hn : deref w.cmds c = .ok n)
    (hview : viewable w.cmds c chain = true) (hf : chain.length < fuel) :
    (∃ p w1 v, newDocumentationData fuel w c = .ok (p, w1) ∧ derefDoc w1 p = .ok v ∧
      (v.IsAdditionalHelpTopicCommand = true →
        n.commands = [] ∧ n.Run = none ∧ n.RunE = none ∧ n.Hidden = false) ∧
      (n.commands ≠ [] → v.IsAdditionalHelpTopicCommand = false) ∧
      (n.Run ≠ none ∨ n.RunE ≠ none → v.IsAdditionalHelpTopicCommand = false)) ∧
    (∃ p w1 v, newTemplateData fuel w c = .ok (p, w1) ∧ derefTmpl w1 p = .ok v ∧
      (v.IsAdditionalHelpTopicCommand = true →
        n.commands = [] ∧ n.Run = none ∧ n.RunE = none ∧ n.Hidden = false) ∧
      (n.commands ≠ [] → v.IsAdditionalHelpTopicCommand = false) ∧
      (n.Run ≠ none ∨ n.RunE ≠ none → v.IsAdditionalHelpTopicCommand = false)) := by
  have key : ∀ b : Bool, b = n.IsAdditionalHelpTopicCommand →
      (b = true → n.commands = [] ∧ n.Run = none ∧ n.RunE = none ∧ n.Hidden = false) ∧
      (n.commands ≠ [] → b = false) ∧ (n.Run ≠ none ∨ n.RunE ≠ none → b = false) := by
    intro b hb
    subst hb
    refine ⟨fun h => ?_, fun h => ?_, fun h => ?_⟩
    · obtain ⟨h1, h2, h3, h4, _⟩ := (helpTopic_iff n).1 h
      exact ⟨h3, h1, h2, h4⟩
    · cases hb : n.IsAdditionalHelpTopicCommand with
      | false => rfl
      | true => exact absurd ((helpTopic_iff n).1 hb).2.2.1 h
    · cases hb : n.IsAdditionalHelpTopicCommand with
      | false => rfl
      | true =>
        obtain ⟨h1, h2, _⟩ := (helpTopic_iff n).1 hb
        rcases h with h | h
        · exact absurd h1 h
        · exact absurd h2 h
  constructor
  · obtain ⟨v, hv, hnew, hd⟩ := doc_new_ok (w := w) hview hf
    obtain ⟨_, _, _, _, _, _, _, _, _, _, _, _, h13, _⟩ := documentationDataOf_fields hv hn
    exact ⟨_, _, v, hnew, hd, key _ h13⟩
  · obtain ⟨v, hv, hnew, hd⟩ := tmpl_new_ok (w := w) hview hf
    obtain ⟨_, _, _, _, _, _, _, _, _, _, _, _, h13, _⟩ := templateDataOf_fields hv hn
    exact ⟨_, _, v, hnew, hd, key _ h13⟩

/-- C11 on the root `admin` of the example tree, which has three children:
its view is not a help topic. -/
theorem C11_help_topic_only_leaf_witness :
    (∃ p w1 v, newDocumentationData 1 exampleWorld 0 = .ok (p, w1) ∧ derefDoc w1 p = .ok v ∧
      v.IsAdditionalHelpTopicCommand = false) ∧
    (∃ p w1 v, newTemplateData 1 exampleWorld 0 = .ok (p, w1) ∧ derefTmpl w1 p = .ok v ∧
      v.IsAdditionalHelpTopicCommand = false) := by
  have h := C11_help_topic_only_leaf 1 exampleWorld 0 adminCmd [] (by decide) (by decide)
    (by decide)
  obtain ⟨⟨p, w1, v, h1, h2, _, h3, _⟩, ⟨q, u1, x, k1, k2, _, k3, _⟩⟩ := h
  exact ⟨⟨p, w1, v, h1, h2, h3 (by decide)⟩, ⟨q, u1, x, k1, k2, k3 (by decide)⟩⟩

/-- C12: the constructor returns for every viewable node, and in the view it
builds `Runnable` is true iff `Run` or `RunE` is present, `HasSubCommands` is
true iff the child count is not zero, and `HasExample` is true iff the example
text is not empty. -/
theorem C12_runnable_subcommands_example (fuel : Nat) (w : World) (c : Ptr) (n : Command)
    (chain : List Ptr) (hn : deref w.cmds c = .ok n)
    (hview : viewable w.cmds c chain = true) (hf : chain.length < fuel) :
    (∃ p w1 v, newDocumentationData fuel w c = .ok (p, w1) ∧ derefDoc w1 p = .ok v ∧
      (v.Runnable = true ↔ n.Run ≠ none ∨ n.RunE ≠ none) ∧
      (v.HasSubCommands = true ↔ n.commands.length ≠ 0) ∧
      (v.HasExample = true ↔ n.Example ≠ "")) ∧
    (∃ p w1 v, newTemplateData fuel w c = .ok (p, w1) ∧ derefTmpl w1 p = .ok v ∧
      (v.Runnable = true ↔ n.Run ≠ none ∨ n.RunE ≠ none) ∧
      (v.HasSubCommands = true ↔ n.commands.length ≠ 0) ∧
      (v.HasExample = true ↔ n.Example ≠ "")) := by
  have k1 : ∀ b : Bool, b = (n.Run.isSome || n.RunE.isSome) →
      (b = true ↔ n.Run ≠ none ∨ n.RunE ≠ none) := by
    intro b hb
    subst hb
    cases n.Run <;> cases n.RunE <;> simp
  have k2 : ∀ b : Bool, b = decide (n.commands.length > 0) →
      (b = true ↔ n.commands.length ≠ 0) := by
    intro b hb
    subst hb
    simp [Nat.pos_iff_ne_zero]
  have k3 : ∀ b : Bool, b = decide (n.Example.utf8ByteSize > 0) →
      (b = true ↔ n.Example ≠ "") := by
    intro b hb
    subst hb
    rw [decide_eq_true_iff]
    exact utf8ByteSize_pos_iff _
  constructor
  · obtain ⟨v, hv, hnew, hd⟩ := doc_new_ok (w := w) hview hf
    obtain ⟨_, _, _, _, _, _, _, _, _, h10, h11, h12, _⟩ := documentationDataOf_fields hv hn
    exact ⟨_, _, v, hnew, hd, k1 _ h10, k2 _ h11, k3 _ h12⟩
  · obtain ⟨v, hv, hnew, hd⟩ := tmpl_new_ok (w := w) hview hf
    obtain ⟨_, _, _, _, _, _, _, _, _, h10, h11, h12, _⟩ := templateDataOf_fields hv hn
    exact ⟨_, _, v, hnew, hd, k1 _ h10, k2 _ h11, k3 _ h12⟩

/-- C12 on `serve`, which has only the error-returning run action, no child and
an example: its view is runnable, has no subcommands and has an example. -/
theorem C12_runnable_subcommands_example_witness :
    (∃ p w1 v, newDocumentationData 1 ⟨serveTree, [], []⟩ 0 = .ok (p, w1) ∧
      derefDoc w1 p = .ok v ∧ v.Runnable = true ∧ v.HasSubCommands = false ∧
      v.HasExample = true) ∧
    (∃ p w1 v, newTemplateData 1 ⟨serveTree, [], []⟩ 0 = .ok (p, w1) ∧
      derefTmpl w1 p = .ok v ∧ v.Runnable = true ∧ v.HasSubCommands = false ∧
      v.HasExample = true) := by
  have h := C12_runnable_subcommands_example 1 ⟨serveTree, [], []⟩ 0 serveCmd [] (by decide)
    (by decide) (by decide)
  obtain ⟨⟨p, w1, v, h1, h2, h3, h4, h5⟩, ⟨q, u1, x, k1, k2, k3, k4, k5⟩⟩ := h
  refine ⟨⟨p, w1, v, h1, h2, h3.2 (Or.inr (by decide)), ?_, h5.2 (by decide)⟩,
    ⟨q, u1, x, k1, k2, k3.2 (Or.inr (by decide)), ?_, k5.2 (by decide)⟩⟩
  · cases hb : v.HasSubCommands with
    | false => rfl
    | true => exact absurd (h4.1 hb) (by decide)
  · cases hb : x.HasSubCommands with
    | false => rfl
    | true => exact absurd (k4.1 hb) (by decide)

/-- C13: the two view types are one abstraction.  On any tree both
constructors build literals with equal values in every field, or fault alike.
In states that agree view by view, the constructors and every pair of
corresponding methods (`Commands`, `HasParent`, `Parent`, `VisitParents`,
`NameAndAliases`, `UsagePadding`, `CommandPathPadding`, `NamePadding`) have the
same outcome: the same fault, or the same result and states that agree again;
for `Commands` the returned pointers are the same and point to views with equal
fields, element by element. -/
theorem C13_view_types_agree (fuel : Nat) (wd wt : World) (h : sameViews wd wt) :
    (∀ (t : List Command) (c : Ptr),
      (templateDataOf t fuel c).map TemplateData.toDocumentationData =
        documentationDataOf t fuel c) ∧
    (∀ (t : List Command) (c : Ptr) (vd : DocumentationData) (vt : TemplateData),
      documentationDataOf t fuel c = .ok vd → templateDataOf t fuel c = .ok vt →
      vd.Runnable = vt.Runnable ∧ vd.HasHelpSubCommands = vt.HasHelpSubCommands ∧
      vd.HasSubCommands = vt.HasSubCommands ∧
      vd.HasAvailableSubCommands = vt.HasAvailableSubCommands ∧
      vd.HasAvailableLocalFlags = vt.HasAvailableLocalFlags ∧
      vd.HasAvailableInheritedFlags = vt.HasAvailableInheritedFlags ∧
      vd.HasExample = vt.HasExample ∧ vd.IsAvailableCommand = vt.IsAvailableCommand ∧
      vd.IsAdditionalHelpTopicCommand = vt.IsAdditionalHelpTopicCommand ∧
      vd.DisableAutoGenTag = vt.DisableAutoGenTag ∧ vd.UseLine = vt.UseLine ∧
      vd.CommandPath = vt.CommandPath ∧ vd.Name = vt.Name ∧ vd.Short = vt.Short ∧
      vd.Long = vt.Long ∧ vd.Example = vt.Example ∧ vd.Version = vt.Version ∧
      vd.LocalFlags = vt.LocalFlags ∧ vd.InheritedFlags = vt.InheritedFlags ∧
      vd.NonInheritedFlags = vt.NonInheritedFlags ∧ vd.Aliases = vt.Aliases ∧
      vd.commands = vt.commands ∧ vd.command = vt.command) ∧
    (∀ c : Ptr,
      docOutcome (newDocumentationData fuel wd c) = tmplOutcome (newTemplateData fuel wt c)) ∧
    (∀ d : Ptr,
      docOutcome (DocumentationData.Commands fuel wd d) =
        tmplOutcome (TemplateData.Commands fuel wt d)) ∧
    (∀ (d : Ptr) (ps : List Ptr) (wd1 : World),
      DocumentationData.Commands fuel wd d = .ok (ps, wd1) →
      ∃ wt1, TemplateData.Commands fuel wt d = .ok (ps, wt1) ∧ sameViews wd1 wt1 ∧
        ∀ q ∈ ps, derefDoc wd1 q = (derefTmpl wt1 q).map TemplateData.toDocumentationData) ∧
    (∀ d : Ptr,
      docOutcome (DocumentationData.HasParent wd d) =
        tmplOutcome (TemplateData.HasParent wt d)) ∧
    (∀ d : Ptr,
      docOutcome (DocumentationData.Parent fuel wd d) =
        tmplOutcome (TemplateData.Parent fuel wt d)) ∧
    (∀ (σ : Type) (d : Ptr) (fn : Ptr → σ → σ) (s : σ),
      docOutcome (DocumentationData.VisitParents fuel wd d fn s) =
        tmplOutcome (TemplateData.VisitParents fuel wt d fn s)) ∧
    (∀ d : Ptr,
      docOutcome (DocumentationData.NameAndAliases wd d) =
        tmplOutcome (TemplateData.NameAndAliases wt d)) ∧
    (∀ d : Ptr,
      docOutcome (DocumentationData.UsagePadding wd d) =
        tmplOutcome (TemplateData.UsagePadding wt d)) ∧
    (∀ d : Ptr,
      docOutcome (DocumentationData.CommandPathPadding fuel wd d) =
        tmplOutcome (TemplateData.CommandPathPadding fuel wt d)) ∧
    (∀ d : Ptr,
      docOutcome (DocumentationData.NamePadding wd d) =
        tmplOutcome (TemplateData.NamePadding wt d)) := by
  refine ⟨fun t c => templateDataOf_toDocumentationData t fuel c, ?_, fun c => new_outcome h fuel c,
    fun d => Commands_outcome h fuel d, ?_, fun d => HasParent_outcome h d,
    fun d => Parent_outcome h fuel d, fun σ d fn s => VisitParents_outcome h fuel d fn s,
    fun d => NameAndAliases_outcome h d, fun d => UsagePadding_outcome h d,
    fun d => CommandPathPadding_outcome h fuel d, fun d => NamePadding_outcome h d⟩
  · intro t c vd vt hd ht
    have := templateDataOf_toDocumentationData t fuel c
    rw [hd, ht] at this
    simp only [Except.map, Except.ok.injEq] at this
    subst this
    simp [TemplateData.toDocumentationData]
  · intro d ps wd1 hc
    obtain ⟨wt1, hc2, hs⟩ := sameViews_of_outcome (Commands_outcome h fuel d) hc
    exact ⟨wt1, hc2, hs, fun q _ => derefDoc_of_sameViews hs q⟩

/-- C13 on the example state, which holds a view of each kind for every node:
`Commands` on the root views returns the same three pointers and leaves states
that agree; the views of `list` agree on `NameAndAliases` and the paddings. -/
theorem C13_view_types_agree_witness :
    sameViews exampleWorld exampleWorld ∧
    rootCommandsDoc.1 = rootCommandsTmpl.1 ∧ sameViews rootCommandsDoc.2 rootCommandsTmpl.2 ∧
    docOutcome (DocumentationData.NameAndAliases exampleWorld 1) =
      tmplOutcome (TemplateData.NameAndAliases exampleWorld 1) ∧
    docOutcome (DocumentationData.UsagePadding exampleWorld 1) =
      tmplOutcome (TemplateData.UsagePadding exampleWorld 1) := by
  have h := C13_view_types_agree 3 exampleWorld exampleWorld (by decide)
  obtain ⟨wt1, h1, h2, _⟩ := h.2.2.2.2.1 0 rootCommandsDoc.1 rootCommandsDoc.2 (by decide)
  have h3 : wt1 = rootCommandsTmpl.2 ∧ rootCommandsDoc.1 = rootCommandsTmpl.1 := by
    have h4 : TemplateData.Commands 3 exampleWorld 0 = .ok rootCommandsTmpl := by decide
    rw [h4] at h1
    simp only [Except.ok.injEq] at h1
    rw [h1]
    exact ⟨rfl, rfl⟩
  refine ⟨by decide, h3.2, ?_, h.2.2.2.2.2.2.2.2.1 1, h.2.2.2.2.2.2.2.2.2.1 1⟩
  rw [← h3.1]
  exact h2

/-- C14: when the node had at least one child at the first `Commands()` call
on a view, the list returned is non-empty, and every later call returns that
same list and leaves the views (the cache and the element views) as they
were, whatever trees `ms` the command tree is replaced by before each call.
The guard is the length of the cached list: a first call that returned the
empty list cached nothing, and the next call builds one view per child of the
node as the tree then has it. -/
theorem C14_cache_stable_from_first_nonempty (fuel : Nat) (w w1 : World) (d : Ptr)
    (ps : List Ptr) (n : Command) :
    (∀ v : DocumentationData, derefDoc w d = .ok v → deref w.cmds v.command = .ok n →
      DocumentationData.Commands fuel w d = .ok (ps, w1) →
      (n.commands ≠ [] → ps ≠ [] ∧ ∀ ms : List (List Command × Nat),
        doc_laterCommands d w1 ms =
          .ok (ms.map (fun _ => ps),
            { w1 with cmds := (ms.map Prod.fst).getLastD w1.cmds })) ∧
      (ps = [] → ∀ (t2 : List Command) (fuel2 : Nat) (n2 : Command),
        deref t2 v.command = .ok n2 →
        (∀ k ∈ n2.commands, ∃ chain, viewable t2 k chain = true ∧ chain.length < fuel2) →
        ∃ ps2 w2, DocumentationData.Commands fuel2 { w1 with cmds := t2 } d = .ok (ps2, w2) ∧
          ps2.length = n2.commands.length)) ∧
    (∀ v : TemplateData, derefTmpl w d = .ok v → deref w.cmds v.command = .ok n →
      TemplateData.Commands fuel w d = .ok (ps, w1) →
      (n.commands ≠ [] → ps ≠ [] ∧ ∀ ms : List (List Command × Nat),
        tmpl_laterCommands d w1 ms =
          .ok (ms.map (fun _ => ps),
            { w1 with cmds := (ms.map Prod.fst).getLastD w1.cmds })) ∧
      (ps = [] → ∀ (t2 : List Command) (fuel2 : Nat) (n2 : Command),
        deref t2 v.command = .ok n2 →
        (∀ k ∈ n2.commands, ∃ chain, viewable t2 k chain = true ∧ chain.length < fuel2) →
        ∃ ps2 w2, TemplateData.Commands fuel2 { w1 with cmds := t2 } d = .ok (ps2, w2) ∧
          ps2.length = n2.commands.length)) := by
  constructor
  · intro v hv hn h
    obtain ⟨v1, hv1, hc1⟩ := doc_Commands_cache h
    refine ⟨fun hne => ?_, fun hnil t2 fuel2 n2 hn2 hch => ?_⟩
    · have hps := doc_Commands_ne_nil hv hn hne h
      exact ⟨hps, fun ms => doc_laterCommands_stable hps ms w1 v1 hv1 hc1⟩
    · obtain ⟨_, _, _, v0, h0, h1⟩ := doc_Commands_frame h
      have hv0 : v0 = v := by
        rw [derefDoc_ok_iff.1 hv] at h0
        exact (Option.some.inj h0).symm
      subst hv0
      have hv2 : derefDoc { w1 with cmds := t2 } d = .ok { v0 with commands := ps } :=
        derefDoc_ok_iff.2 h1
      exact doc_Commands_rescan hv2 hnil hn2 hch
  · intro v hv hn h
    obtain ⟨v1, hv1, hc1⟩ := tmpl_Commands_cache h
    refine ⟨fun hne => ?_, fun hnil t2 fuel2 n2 hn2 hch => ?_⟩
    · have hps := tmpl_Commands_ne_nil hv hn hne h
      exact ⟨hps, fun ms => tmpl_laterCommands_stable hps ms w1 v1 hv1 hc1⟩
    · obtain ⟨_, _, _, v0, h0, h1⟩ := tmpl_Commands_frame h
      have hv0 : v0 = v := by
        rw [derefTmpl_ok_iff.1 hv] at h0
        exact (Option.some.inj h0).symm
      subst hv0
      have hv2 : derefTmpl { w1 with cmds := t2 } d = .ok { v0 with commands := ps } :=
        derefTmpl_ok_iff.2 h1
      exact tmpl_Commands_rescan hv2 hnil hn2 hch

/-- C14 on the root view of the example state: after the first call returned
the views 5, 6, 7, three later calls, on the grown tree without fuel, on the
empty tree and on a tree holding only `serve`, each return 5, 6, 7 and leave
the views untouched. -/
theorem C14_cache_stable_from_first_nonempty_witness :
    doc_laterCommands 0 rootCommandsDoc.2 [(grownTree, 0), ([], 3), (serveTree, 1)] =
      .ok ([[5, 6, 7], [5, 6, 7], [5, 6, 7]], { rootCommandsDoc.2 with cmds := serveTree }) ∧
    tmpl_laterCommands 0 rootCommandsTmpl.2 [(grownTree, 0), ([], 3), (serveTree, 1)] =
      .ok ([[5, 6, 7], [5, 6, 7], [5, 6, 7]], { rootCommandsTmpl.2 with cmds := serveTree }) :=
  ⟨(((C14_cache_stable_from_first_nonempty 3 exampleWorld rootCommandsDoc.2 0 [5, 6, 7]
      adminCmd).1 (exampleDoc 0) (by decide) (by decide) (by decide)).1 (by decide)).2
      [(grownTree, 0), ([], 3), (serveTree, 1)],
    (((C14_cache_stable_from_first_nonempty 3 exampleWorld rootCommandsTmpl.2 0 [5, 6, 7]
      adminCmd).2 (exampleTmpl 0) (by decide) (by decide) (by decide)).1 (by decide)).2
      [(grownTree, 0), ([], 3), (serveTree, 1)]⟩

/-- C15: views of two nodes with the same non-nil parent get the same
`UsagePadding()`, `CommandPathPadding()` and `NamePadding()`, whatever the two
nodes themselves hold; and every padding a call returns, for any view, is at
least its minimum 25, 11, 11. -/
theorem C15_padding_shared_by_siblings (fuel : Nat) (w : World) (d1 d2 p : Ptr)
    (n1 n2 : Command) (hp1 : n1.parent = some p) (hp2 : n2.parent = some p) :
    (∀ v1 v2 : DocumentationData, derefDoc w d1 = .ok v1 → derefDoc w d2 = .ok v2 →
      deref w.cmds v1.command = .ok n1 → deref w.cmds v2.command = .ok n2 →
      DocumentationData.UsagePadding w d1 = DocumentationData.UsagePadding w d2 ∧
      DocumentationData.CommandPathPadding fuel w d1 =
        DocumentationData.CommandPathPadding fuel w d2 ∧
      DocumentationData.NamePadding w d1 = DocumentationData.NamePadding w d2) ∧
    (∀ v1 v2 : TemplateData, derefTmpl w d1 = .ok v1 → derefTmpl w d2 = .ok v2 →
      deref w.cmds v1.command = .ok n1 → deref w.cmds v2.command = .ok n2 →
      TemplateData.UsagePadding w d1 = TemplateData.UsagePadding w d2 ∧
      TemplateData.CommandPathPadding fuel w d1 = TemplateData.CommandPathPadding fuel w d2 ∧
      TemplateData.NamePadding w d1 = TemplateData.NamePadding w d2) ∧
    (∀ (d r : Nat) (w1 : World),
      (DocumentationData.UsagePadding w d = .ok (r, w1) → 25 ≤ r) ∧
      (DocumentationData.CommandPathPadding fuel w d = .ok (r, w1) → 11 ≤ r) ∧
      (DocumentationData.NamePadding w d = .ok (r, w1) → 11 ≤ r) ∧
      (TemplateData.UsagePadding w d = .ok (r, w1) → 25 ≤ r) ∧
      (TemplateData.CommandPathPadding fuel w d = .ok (r, w1) → 11 ≤ r) ∧
      (TemplateData.NamePadding w d = .ok (r, w1) → 11 ≤ r)) :=
  ⟨fun _ _ hv1 hv2 hn1 hn2 => doc_padding_same_parent hv1 hn1 hp1 hv2 hn2 hp2,
    fun _ _ hv1 hv2 hn1 hn2 => tmpl_padding_same_parent hv1 hn1 hp1 hv2 hn2 hp2,
    fun _ _ _ => ⟨doc_UsagePadding_ge, doc_CommandPathPadding_ge, doc_NamePadding_ge,
      tmpl_UsagePadding_ge, tmpl_CommandPathPadding_ge, tmpl_NamePadding_ge⟩⟩

/-- C15 on the example state: `list` (10-byte usage line, two aliases) and
`show` (15-byte usage line, one child) are both children of `admin`, and their
views get the same three paddings. -/
theorem C15_padding_shared_by_siblings_witness :
    (DocumentationData.UsagePadding exampleWorld 1 =
        DocumentationData.UsagePadding exampleWorld 3 ∧
      DocumentationData.CommandPathPadding 3 exampleWorld 1 =
        DocumentationData.CommandPathPadding 3 exampleWorld 3 ∧
      DocumentationData.NamePadding exampleWorld 1 =
        DocumentationData.NamePadding exampleWorld 3) ∧
    (TemplateData.UsagePadding exampleWorld 1 = TemplateData.UsagePadding exampleWorld 3 ∧
      TemplateData.CommandPathPadding 3 exampleWorld 1 =
        TemplateData.CommandPathPadding 3 exampleWorld 3 ∧
      TemplateData.NamePadding exampleWorld 1 = TemplateData.NamePadding exampleWorld 3) :=
  ⟨(C15_padding_shared_by_siblings 3 exampleWorld 1 3 0 listCmd showCmd (by decide)
      (by decide)).1 (exampleDoc 1) (exampleDoc 3) (by decide) (by decide) (by decide)
      (by decide),
    (C15_padding_shared_by_siblings 3 exampleWorld 1 3 0 listCmd showCmd (by decide)
      (by decide)).2.1 (exampleTmpl 1) (exampleTmpl 3) (by decide) (by decide) (by decide)
      (by decide)⟩

/-- C16: the constructor returns for every viewable node, and in the view it
builds `IsAvailableCommand` and `IsAdditionalHelpTopicCommand` are never both
true, and `HasAvailableSubCommands` or `HasHelpSubCommands` being true implies
`HasSubCommands`.  The first holds however a child is classed as available:
a help topic has no run action and no child, so "runnable or has an available
child" fails for it under any classification `avail` of children. -/
theorem C16_classification_invariants (fuel : Nat) (w : World) (c : Ptr) (n : Command)
    (chain : List Ptr) (hn : deref w.cmds c = .ok n)
    (hview : viewable w.cmds c chain = true) (hf : chain.length < fuel) :
    (∃ p w1 v, newDocumentationData fuel w c = .ok (p, w1) ∧ derefDoc w1 p = .ok v ∧
      ¬(v.IsAvailableCommand = true ∧ v.IsAdditionalHelpTopicCommand = true) ∧
      (v.HasAvailableSubCommands = true ∨ v.HasHelpSubCommands = true →
        v.HasSubCommands = true)) ∧
    (∃ p w1 v, newTemplateData fuel w c = .ok (p, w1) ∧ derefTmpl w1 p = .ok v ∧
      ¬(v.IsAvailableCommand = true ∧ v.IsAdditionalHelpTopicCommand = true) ∧
      (v.HasAvailableSubCommands = true ∨ v.HasHelpSubCommands = true →
        v.HasSubCommands = true)) ∧
    (∀ (avail : Command → Bool) (subs : List Command), derefAll w.cmds n.commands = .ok subs →
      n.IsAdditionalHelpTopicCommand = true →
      (!n.Hidden && !n.Deprecated && (n.runnable || subs.any avail)) = false) := by
  have gen : ∀ (avail : Command → Bool) (subs : List Command),
      derefAll w.cmds n.commands = .ok subs → n.IsAdditionalHelpTopicCommand = true →
      (!n.Hidden && !n.Deprecated && (n.runnable || subs.any avail)) = false := by
    intro avail subs hsubs ht
    obtain ⟨h1, h2, h3, _, _⟩ := (helpTopic_iff n).1 ht
    have hlen := derefAll_length _ _ hsubs
    rw [h3] at hlen
    have hnil : subs = [] := List.length_eq_zero.1 hlen
    subst hnil
    simp [Command.runnable, h1, h2]
  have anyLen : ∀ (f : Command → Bool) (subs : List Command),
      derefAll w.cmds n.commands = .ok subs → subs.any f = true →
      decide (n.commands.length > 0) = true := by
    intro f subs hsubs hany
    have hlen := derefAll_length _ _ hsubs
    cases subs with
    | nil => simp at hany
    | cons a l =>
      rw [← hlen]
      simp
  refine ⟨?_, ?_, gen⟩
  · obtain ⟨v, hv, hnew, hd⟩ := doc_new_ok (w := w) hview hf
    obtain ⟨_, _, _, _, _, _, _, _, _, _, h11, _, h13, _⟩ := documentationDataOf_fields hv hn
    obtain ⟨subs, hsubs, f1, f2, f3⟩ := documentationDataOf_flags hv hn
    refine ⟨_, _, v, hnew, hd, ?_, ?_⟩
    · rintro ⟨ha, ht⟩
      rw [h13] at ht
      rw [f3, gen _ subs hsubs ht] at ha
      cases ha
    · intro hor
      rw [h11]
      rcases hor with ha | hh
      · rw [f2] at ha
        exact anyLen _ subs hsubs ha
      · rw [f1] at hh
        exact anyLen _ subs hsubs hh
  · obtain ⟨v, hv, hnew, hd⟩ := tmpl_new_ok (w := w) hview hf
    obtain ⟨_, _, _, _, _, _, _, _, _, _, h11, _, h13, _⟩ := templateDataOf_fields hv hn
    obtain ⟨subs, hsubs, f1, f2, f3⟩ := templateDataOf_flags hv hn
    refine ⟨_, _, v, hnew, hd, ?_, ?_⟩
    · rintro ⟨ha, ht⟩
      rw [h13] at ht
      rw [f3, gen _ subs hsubs ht] at ha
      cases ha
    · intro hor
      rw [h11]
      rcases hor with ha | hh
      · rw [f2] at ha
        exact anyLen _ subs hsubs ha
      · rw [f1] at hh
        exact anyLen _ subs hsubs hh

/-- C16 on the node `list` of the example tree, a help topic: its view is not
an available command. -/
theorem C16_classification_invariants_witness :
    (∃ p w1 v, newDocumentationData 2 exampleWorld 1 = .ok (p, w1) ∧ derefDoc w1 p = .ok v ∧
      ¬(v.IsAvailableCommand = true ∧ v.IsAdditionalHelpTopicCommand = true)) ∧
    (∃ p w1 v, newTemplateData 2 exampleWorld 1 = .ok (p, w1) ∧ derefTmpl w1 p = .ok v ∧
      ¬(v.IsAvailableCommand = true ∧ v.IsAdditionalHelpTopicCommand = true)) := by
  have h := C16_classification_invariants 2 exampleWorld 1 listCmd [0] (by decide) (by decide)
    (by decide)
  obtain ⟨⟨p, w1, v, h1, h2, h3, _⟩, ⟨q, u1, x, k1, k2, k3, _⟩, _⟩ := h
  exact ⟨⟨p, w1, v, h1, h2, h3⟩, ⟨q, u1, x, k1, k2, k3⟩⟩

/-- C17: on a view freshly constructed from a node, with the tree unchanged,
the first `Commands()` call returns a list as long as the node's child list,
and the view's `HasSubCommands` is true iff that list is not empty. -/
theorem C17_HasSubCommands_matches_Commands (fuel : Nat) (w w1 : World) (c p : Ptr)
    (n : Command) (hn : deref w.cmds c = .ok n)
    (hch : ∀ k ∈ n.commands, ∃ chain, viewable w.cmds k chain = true ∧ chain.length < fuel) :
    (newDocumentationData fuel w c = .ok (p, w1) →
      ∃ v ps w2, derefDoc w1 p = .ok v ∧
        DocumentationData.Commands fuel w1 p = .ok (ps, w2) ∧
        ps.length = n.commands.length ∧ (v.HasSubCommands = true ↔ ps ≠ [])) ∧
    (newTemplateData fuel w c = .ok (p, w1) →
      ∃ v ps w2, derefTmpl w1 p = .ok v ∧
        TemplateData.Commands fuel w1 p = .ok (ps, w2) ∧
        ps.length = n.commands.length ∧ (v.HasSubCommands = true ↔ ps ≠ [])) := by
  have key : ∀ (b : Bool) (ps : List Ptr), b = decide (n.commands.length > 0) →
      ps.length = n.commands.length → (b = true ↔ ps ≠ []) := by
    intro b ps hb hlen
    subst hb
    rw [← hlen, decide_eq_true_iff]
    cases ps <;> simp
  constructor
  · intro hnew
    obtain ⟨ps, w2, h, hlen, _⟩ := doc_Commands_fresh hnew hn hch
    obtain ⟨v, hv, rfl, rfl⟩ := newDocumentationData_ok_iff.1 hnew
    obtain ⟨_, _, _, _, _, _, _, _, _, _, h11, _⟩ := documentationDataOf_fields hv hn
    refine ⟨v, ps, w2, ?_, h, hlen, key _ _ h11 hlen⟩
    rw [derefDoc_ok_iff]
    exact List.getElem?_concat_length _ _
  · intro hnew
    obtain ⟨ps, w2, h, hlen, _⟩ := tmpl_Commands_fresh hnew hn hch
    obtain ⟨v, hv, rfl, rfl⟩ := newTemplateData_ok_iff.1 hnew
    obtain ⟨_, _, _, _, _, _, _, _, _, _, h11, _⟩ := templateDataOf_fields hv hn
    refine ⟨v, ps, w2, ?_, h, hlen, key _ _ h11 hlen⟩
    rw [derefTmpl_ok_iff]
    exact List.getElem?_concat_length _ _

/-- C17 on the root of the example tree, viewed in an empty state: three
child views, and `HasSubCommands` is true. -/
theorem C17_HasSubCommands_matches_Commands_witness :
    (∃ v ps w2, derefDoc (valueOf (newDocumentationData 3 ⟨exampleTree, [], []⟩ 0)).2 0 = .ok v ∧
      DocumentationData.Commands 3 (valueOf (newDocumentationData 3 ⟨exampleTree, [], []⟩ 0)).2 0 =
        .ok (ps, w2) ∧ ps.length = 3 ∧ v.HasSubCommands = true) ∧
    (∃ v ps w2, derefTmpl (valueOf (newTemplateData 3 ⟨exampleTree, [], []⟩ 0)).2 0 = .ok v ∧
      TemplateData.Commands 3 (valueOf (newTemplateData 3 ⟨exampleTree, [], []⟩ 0)).2 0 =
        .ok (ps, w2) ∧ ps.length = 3 ∧ v.HasSubCommands = true) := by
  constructor
  · obtain ⟨v, ps, w2, h1, h2, h3, h4⟩ := (C17_HasSubCommands_matches_Commands 3
      ⟨exampleTree, [], []⟩ (valueOf (newDocumentationData 3 ⟨exampleTree, [], []⟩ 0)).2 0 0
      adminCmd (by decide) admin_children_viewable).1 (by decide)
    refine ⟨v, ps, w2, h1, h2, h3, h4.2 ?_⟩
    intro hnil
    rw [hnil] at h3
    cases h3
  · obtain ⟨v, ps, w2, h1, h2, h3, h4⟩ := (C17_HasSubCommands_matches_Commands 3
      ⟨exampleTree, [], []⟩ (valueOf (newTemplateData 3 ⟨exampleTree, [], []⟩ 0)).2 0 0
      adminCmd (by decide) admin_children_viewable).2 (by decide)
    refine ⟨v, ps, w2, h1, h2, h3, h4.2 ?_⟩
    intro hnil
    rw [hnil] at h3
    cases h3

/-- C18: `NameAndAliases()` reads the node, not the view.  After the node's
alias list is replaced by `aliases`, the call on the existing view returns the
node's name followed by the new aliases, while the view is the one it was,
with the `Name` and `Aliases` it had.  For a view that holds what the
constructor captures from the node as it is (no mutation since), these are the
node's own name and aliases, and the call returns the text made of the view's
`Name` and `Aliases`. -/
theorem C18_NameAndAliases_reads_node (w : World) (d : Ptr) (n : Command)
    (aliases : List String) :
    (∀ v : DocumentationData, derefDoc w d = .ok v → deref w.cmds v.command = .ok n →
      DocumentationData.NameAndAliases { w with cmds := withAliases w.cmds v.command aliases } d =
        .ok (nameThenAliases n.Name aliases,
          { w with cmds := withAliases w.cmds v.command aliases }) ∧
      derefDoc { w with cmds := withAliases w.cmds v.command aliases } d = .ok v ∧
      (∀ fuel : Nat, documentationDataOf w.cmds fuel v.command = .ok { v with commands := [] } →
        v.Name = n.Name ∧ v.Aliases = n.Aliases ∧
        DocumentationData.NameAndAliases w d = .ok (nameThenAliases v.Name v.Aliases, w))) ∧
    (∀ v : TemplateData, derefTmpl w d = .ok v → deref w.cmds v.command = .ok n →
      TemplateData.NameAndAliases { w with cmds := withAliases w.cmds v.command aliases } d =
        .ok (nameThenAliases n.Name aliases,
          { w with cmds := withAliases w.cmds v.command aliases }) ∧
      derefTmpl { w with cmds := withAliases w.cmds v.command aliases } d = .ok v ∧
      (∀ fuel : Nat, templateDataOf w.cmds fuel v.command = .ok { v with commands := [] } →
        v.Name = n.Name ∧ v.Aliases = n.Aliases ∧
        TemplateData.NameAndAliases w d = .ok (nameThenAliases v.Name v.Aliases, w))) := by
  constructor
  · intro v hv hn
    have hn2 : deref (withAliases w.cmds v.command aliases) v.command =
        .ok { n with Aliases := aliases } :=
      deref_ok_iff.2 (withAliases_getElem? aliases (deref_ok_iff.1 hn))
    have hv2 : derefDoc { w with cmds := withAliases w.cmds v.command aliases } d = .ok v := by
      rw [derefDoc_ok_iff] at hv ⊢
      exact hv
    refine ⟨doc_NameAndAliases_eq hv2 hn2, hv2, fun fuel hlit => ?_⟩
    obtain ⟨h1, _, _, _, h5, _⟩ := documentationDataOf_fields hlit hn
    simp only at h1 h5
    refine ⟨h1, h5, ?_⟩
    rw [doc_NameAndAliases_eq hv hn, h1, h5]
  · intro v hv hn
    have hn2 : deref (withAliases w.cmds v.command aliases) v.command =
        .ok { n with Aliases := aliases } :=
      deref_ok_iff.2 (withAliases_getElem? aliases (deref_ok_iff.1 hn))
    have hv2 : derefTmpl { w with cmds := withAliases w.cmds v.command aliases } d = .ok v := by
      rw [derefTmpl_ok_iff] at hv ⊢
      exact hv
    refine ⟨tmpl_NameAndAliases_eq hv2 hn2, hv2, fun fuel hlit => ?_⟩
    obtain ⟨h1, _, _, _, h5, _⟩ := templateDataOf_fields hlit hn
    simp only at h1 h5
    refine ⟨h1, h5, ?_⟩
    rw [tmpl_NameAndAliases_eq hv hn, h1, h5]

/-- C18 on the view of `list` in the example state: with the aliases replaced
by the single alias `l` the call returns `list, l`, while the view still holds
the aliases `ls`, `ll`; on the unchanged tree it returns `list, ls, ll`. -/
theorem C18_NameAndAliases_reads_node_witness :
    ((DocumentationData.NameAndAliases
        { exampleWorld with cmds := withAliases exampleTree 1 ["l"] } 1).map Prod.fst =
        .ok "list, l" ∧
      (exampleDoc 1).Aliases = ["ls", "ll"] ∧
      (DocumentationData.NameAndAliases exampleWorld 1).map Prod.fst = .ok "list, ls, ll") ∧
    ((TemplateData.NameAndAliases
        { exampleWorld with cmds := withAliases exampleTree 1 ["l"] } 1).map Prod.fst =
        .ok "list, l" ∧
      (exampleTmpl 1).Aliases = ["ls", "ll"] ∧
      (TemplateData.NameAndAliases exampleWorld 1).map Prod.fst = .ok "list, ls, ll") := by
  have hd := (C18_NameAndAliases_reads_node exampleWorld 1 listCmd ["l"]).1 (exampleDoc 1)
    (by decide) (by decide)
  have ht := (C18_NameAndAliases_reads_node exampleWorld 1 listCmd ["l"]).2 (exampleTmpl 1)
    (by decide) (by decide)
  refine ⟨⟨?_, by decide, ?_⟩, ⟨?_, by decide, ?_⟩⟩
  · have h := hd.1
    have e : (exampleDoc 1).command = 1 := by decide
    rw [e] at h
    rw [show exampleWorld.cmds = exampleTree from by decide] at h
    rw [h]
    decide
  · rw [(hd.2.2 2 (by decide)).2.2]
    decide
  · have h := ht.1
    have e : (exampleTmpl 1).command = 1 := by decide
    rw [e] at h
    rw [show exampleWorld.cmds = exampleTree from by decide] at h
    rw [h]
    decide
  · rw [(ht.2.2 2 (by decide)).2.2]
    decide

end Cobra
